import Mathlib

/-!
# The in-memory file store of the editor (`src/fileManager.js`)

A shallow embedding of the `FileManager` class.

* JavaScript objects are mutable and shared by reference: a file object is reachable from the
  `files` map, from its parent's `children` array and from callers.  The embedding therefore
  keeps an explicit object heap; a reference (`Ref`) is an index into it.  Objects are never
  freed (a removed file still exists for whoever holds it), so the heap only grows.
* A `Map` is an insertion-ordered association list with the `set`/`delete`/`get` behaviour of
  the JavaScript `Map`.
* `Date` values are natural numbers (milliseconds); the readings of the clock are arguments.
* `emit` is recorded as a trace of events; the subscribers of this repository are view code.
* A thrown exception is `none` or an `Except.error`; a `try`/`catch` turns it into a result.
* Numbers are natural numbers (the counters of the source stay far below `2 ^ 53`).
-/

set_option autoImplicit false

/-! ## Data model -/

/-- A reference to a heap object. -/
abbrev Ref := Nat

/-- The `type` field of a record: `'file'` or `'folder'`. -/
inductive EntityType where
  | file
  | folder
deriving DecidableEq, Repr

/-- A file or folder record as built by `createFile` / `createFolder`.  A field that a kind of
record does not have (`modifiedAt`, `isModified` of a folder; `children` of a file) holds a
default that the source never reads.  `contentMissing` says that the record has no usable
`content`: the property is absent, `undefined` or `null`, as in a folder record or in a record
read from a text that leaves it out; `content` is then the empty string.  An assignment of a
string to `content` clears it. -/
structure Entity where
  id : String
  name : String
  content : String
  type : EntityType
  children : List Ref
  createdAt : Nat
  modifiedAt : Nat
  parent : Option Ref
  isModified : Bool
  path : String
  contentMissing : Bool := false
deriving DecidableEq, Repr

/-- The value read through a reference that is not in the heap (never the case for a reference
obtained from the store). -/
def Entity.absent : Entity :=
  { id := "", name := "", content := "", type := .file, children := [], createdAt := 0,
    modifiedAt := 0, parent := none, isModified := false, path := "" }

/-- The lifecycle events of the store, with their arguments. -/
inductive Event where
  | fileAdded (file : Ref)
  | folderAdded (folder : Ref)
  | fileRemoved (file : Ref)
  | folderRemoved (folder : Ref)
  | fileRenamed (file : Ref) (oldName : String)
  | folderRenamed (folder : Ref) (oldName : String)
  | fileMoved (file : Ref) (targetFolder : Option Ref)
  | folderMoved (folder : Ref) (targetFolder : Option Ref)
  | fileContentChanged (file : Ref)
  | fileSaved (file : Ref)
  | dataImported
  | dataCleared
deriving DecidableEq, Repr

/-- A JavaScript `Map` from id strings to object references, in insertion order. -/
abbrev IdMap := List (String × Ref)

/-- `Map.prototype.get`; `none` is `undefined`. -/
def IdMap.get (m : IdMap) (k : String) : Option Ref :=
  match m with
  | [] => none
  | (k', v) :: rest => if k' = k then some v else IdMap.get rest k

/-- `Map.prototype.set`: an existing key keeps its position and takes the new value, a new key
is appended. -/
def IdMap.set (m : IdMap) (k : String) (v : Ref) : IdMap :=
  match m with
  | [] => [(k, v)]
  | (k', v') :: rest => if k' = k then (k, v) :: rest else (k', v') :: IdMap.set rest k v

/-- `Map.prototype.delete`. -/
def IdMap.delete (m : IdMap) (k : String) : IdMap :=
  m.filter (fun kv => decide (kv.1 ≠ k))

/-- The state of a `FileManager` instance together with the object heap it points into. -/
structure FileManager where
  heap : List Entity
  files : IdMap
  folders : IdMap
  nextId : Nat
  emitted : List Event
deriving DecidableEq, Repr

namespace FileManager

/-- The state after the constructor when the storage key is absent. -/
def empty : FileManager :=
  { heap := [], files := [], folders := [], nextId := 1, emitted := [] }

/-- The object behind a reference. -/
def obj (s : FileManager) (r : Ref) : Entity :=
  (s.heap[r]?).getD Entity.absent

/-- In-place mutation of the object behind a reference. -/
def modifyObj (s : FileManager) (r : Ref) (f : Entity → Entity) : FileManager :=
  { s with heap := s.heap.modify f r }

/-- Allocation of a fresh object; returns its reference. -/
def alloc (s : FileManager) (e : Entity) : Ref × FileManager :=
  (s.heap.length, { s with heap := s.heap ++ [e] })

/-- The `children` array of the object behind `r`. -/
def children (s : FileManager) (r : Ref) : List Ref := (s.obj r).children

/-- The `parent` field of the object behind `r`. -/
def parentOf (s : FileManager) (r : Ref) : Option Ref := (s.obj r).parent

/-- The method `emit(event, ...args)`: the event is delivered to the subscribers of its channel;
recorded in the trace. -/
def emit (s : FileManager) (e : Event) : FileManager :=
  { s with emitted := s.emitted ++ [e] }

/-- The method `saveToStorage()`: serialises a snapshot into the external key-value store inside
a `try`/`catch`; whether or not the write succeeds the instance itself is left as it is. -/
def saveToStorage (s : FileManager) : FileManager := s

/-- The method `generateId()`: `item_${this.nextId++}_${Date.now()}`.  The counter is a natural
number here; in the program it is a double, on which `nextId++` is exact below `2 ^ 53`. -/
def generateId (s : FileManager) (now : Nat) : String × FileManager :=
  ("item_" ++ toString s.nextId ++ "_" ++ toString now, { s with nextId := s.nextId + 1 })

/-- The path of a new or re-parented entry:
`parentFolder ? parentFolder.path + "/" + name : name`. -/
def pathUnder (s : FileManager) (parentFolder : Option Ref) (name : String) : String :=
  match parentFolder with
  | some p => (s.obj p).path ++ "/" ++ name
  | none => name

/-- The statement `parentFolder.children.push(x)`.  The program passes a folder record; on a file
record, which has no `children`, the statement would throw. -/
def pushChild (s : FileManager) (parentFolder : Ref) (x : Ref) : FileManager :=
  s.modifyObj parentFolder (fun e => { e with children := e.children ++ [x] })

/-- The method `createFile(name, content, parentFolder)`.  `now` is the reading of `Date.now()`
in `generateId`, `created` and `modified` those of the two `new Date()`. -/
def createFile (s : FileManager) (name content : String) (parentFolder : Option Ref)
    (now created modified : Nat) : Ref × FileManager :=
  let (id, s) := s.generateId now
  let (file, s) := s.alloc
    { id := id, name := name, content := content, type := .file, children := [],
      createdAt := created, modifiedAt := modified, parent := parentFolder,
      isModified := false, path := s.pathUnder parentFolder name }
  let s := { s with files := s.files.set id file }
  let s := match parentFolder with
    | some p => s.pushChild p file
    | none => s
  let s := s.saveToStorage
  let s := s.emit (.fileAdded file)
  (file, s)

/-- The method `createFolder(name, parentFolder)`. -/
def createFolder (s : FileManager) (name : String) (parentFolder : Option Ref)
    (now created : Nat) : Ref × FileManager :=
  let (id, s) := s.generateId now
  let (folder, s) := s.alloc
    { id := id, name := name, content := "", type := .folder, children := [],
      createdAt := created, modifiedAt := 0, parent := parentFolder,
      isModified := false, path := s.pathUnder parentFolder name, contentMissing := true }
  let s := { s with folders := s.folders.set id folder }
  let s := match parentFolder with
    | some p => s.pushChild p folder
    | none => s
  let s := s.saveToStorage
  let s := s.emit (.folderAdded folder)
  (folder, s)

/-- The method `getFile(id)`. -/
def getFile (s : FileManager) (id : String) : Option Ref := s.files.get id

/-- The method `getFolder(id)`. -/
def getFolder (s : FileManager) (id : String) : Option Ref := s.folders.get id

/-- The method `getFiles()`: `Array.from(this.files.values())`. -/
def getFiles (s : FileManager) : List Ref := s.files.map Prod.snd

/-- The method `getFolders()`. -/
def getFolders (s : FileManager) : List Ref := s.folders.map Prod.snd

/-- The method `getRootFiles()`: the files whose `parent` is falsy. -/
def getRootFiles (s : FileManager) : List Ref :=
  s.getFiles.filter (fun file => (s.parentOf file).isNone)

/-- The method `getRootFolders()`. -/
def getRootFolders (s : FileManager) : List Ref :=
  s.getFolders.filter (fun folder => (s.parentOf folder).isNone)

/-- The block shared by the remove and move methods:
`if (x.parent) { const index = x.parent.children.indexOf(x);
                 if (index > -1) { x.parent.children.splice(index, 1); } }`.
`List.indexOf` answers the length of the list where JavaScript answers `-1`. -/
def detach (s : FileManager) (x : Ref) : FileManager :=
  match s.parentOf x with
  | some p =>
    let index := (s.children p).indexOf x
    if index < (s.children p).length then
      s.modifyObj p (fun e => { e with children := e.children.eraseIdx index })
    else s
  | none => s

/-- The method `removeFile(file)`. -/
def removeFile (s : FileManager) (file : Ref) : FileManager :=
  let s := s.detach file
  let s := { s with files := s.files.delete (s.obj file).id }
  let s := s.saveToStorage
  s.emit (.fileRemoved file)

/-- The call `folder.children.forEach(cb)` (`Array.prototype.forEach`): the length is read once
before the first call; then, for each index `k` below it in turn, the element that the array
holds at `k` at that moment is passed to `cb`, and an index that the array no longer has is
skipped.  `remaining` counts the indices still to visit. -/
def forEachChild (cb : Ref → FileManager → Option FileManager) (folder : Ref) :
    (remaining : Nat) → (k : Nat) → FileManager → Option FileManager
  | 0, _, s => some s
  | remaining + 1, k, s =>
    match (s.children folder)[k]? with
    | some child => (cb child s).bind (forEachChild cb folder remaining (k + 1))
    | none => forEachChild cb folder remaining (k + 1) s

/-- The method `removeFolder(folder)`.  The recursion is bounded by `fuel`; `none` means that
the bound was reached. -/
def removeFolder : (fuel : Nat) → FileManager → Ref → Option FileManager
  | 0, _, _ => none
  | fuel + 1, s, folder =>
    let visited := forEachChild
      (fun child s =>
        if (s.obj child).type = .file then some (s.removeFile child)
        else removeFolder fuel s child)
      folder (s.children folder).length 0 s
    visited.map fun s =>
      let s := s.detach folder
      let s := { s with folders := s.folders.delete (s.obj folder).id }
      let s := s.saveToStorage
      s.emit (.folderRemoved folder)

/-- The method `renameFile(file, newName)`; `now` is the reading of `new Date()`.  The method
returns `file` itself. -/
def renameFile (s : FileManager) (file : Ref) (newName : String) (now : Nat) : FileManager :=
  let oldName := (s.obj file).name
  let s := s.modifyObj file (fun e => { e with name := newName })
  let s := s.modifyObj file (fun e => { e with modifiedAt := now })
  let s := s.modifyObj file (fun e => { e with path := s.pathUnder (s.parentOf file) newName })
  let s := s.saveToStorage
  s.emit (.fileRenamed file oldName)

/-- The method `updateChildrenPaths(folder)`.  The recursion is bounded by `fuel`; `none` means
that the bound was reached. -/
def updateChildrenPaths : (fuel : Nat) → FileManager → Ref → Option FileManager
  | 0, _, _ => none
  | fuel + 1, s, folder =>
    forEachChild
      (fun child s =>
        let s := s.modifyObj child
          (fun e => { e with path := (s.obj folder).path ++ "/" ++ (s.obj child).name })
        if (s.obj child).type = .folder then updateChildrenPaths fuel s child else some s)
      folder (s.children folder).length 0 s

/-- The method `renameFolder(folder, newName)`; `fuel` bounds the recursion of
`updateChildrenPaths`.  The method returns `folder` itself. -/
def renameFolder (fuel : Nat) (s : FileManager) (folder : Ref) (newName : String) :
    Option FileManager :=
  let oldName := (s.obj folder).name
  let s := s.modifyObj folder (fun e => { e with name := newName })
  let s := s.modifyObj folder (fun e => { e with path := s.pathUnder (s.parentOf folder) newName })
  (updateChildrenPaths fuel s folder).map fun s =>
    let s := s.saveToStorage
    s.emit (.folderRenamed folder oldName)

/-- The block shared by `moveFile` and `moveFolder` after the detachment:
`x.parent = targetFolder;
 if (targetFolder) { targetFolder.children.push(x); x.path = targetFolder.path + "/" + x.name; }
 else { x.path = x.name; }`. -/
def attach (s : FileManager) (x : Ref) (targetFolder : Option Ref) : FileManager :=
  let s := s.modifyObj x (fun e => { e with parent := targetFolder })
  match targetFolder with
  | some t =>
    let s := s.pushChild t x
    s.modifyObj x (fun e => { e with path := (s.obj t).path ++ "/" ++ (s.obj x).name })
  | none => s.modifyObj x (fun e => { e with path := (s.obj x).name })

/-- The method `moveFile(file, targetFolder)`.  The method returns `file` itself. -/
def moveFile (s : FileManager) (file : Ref) (targetFolder : Option Ref) : FileManager :=
  let s := s.detach file
  let s := s.attach file targetFolder
  let s := s.saveToStorage
  s.emit (.fileMoved file targetFolder)

/-- The method `moveFolder(folder, targetFolder)`; `fuel` bounds the recursion of
`updateChildrenPaths`.  The method returns `folder` itself. -/
def moveFolder (fuel : Nat) (s : FileManager) (folder : Ref) (targetFolder : Option Ref) :
    Option FileManager :=
  let s := s.detach folder
  let s := s.attach folder targetFolder
  (updateChildrenPaths fuel s folder).map fun s =>
    let s := s.saveToStorage
    s.emit (.folderMoved folder targetFolder)

/-- The method `updateFileContent(file, content)`; `now` is the reading of `new Date()`. -/
def updateFileContent (s : FileManager) (file : Ref) (content : String) (now : Nat) :
    FileManager :=
  let s := s.modifyObj file (fun e => { e with content := content, contentMissing := false })
  let s := s.modifyObj file (fun e => { e with modifiedAt := now })
  let s := s.modifyObj file (fun e => { e with isModified := true })
  let s := s.saveToStorage
  s.emit (.fileContentChanged file)

/-- The method `markFileAsSaved(file)`. -/
def markFileAsSaved (s : FileManager) (file : Ref) : FileManager :=
  let s := s.modifyObj file (fun e => { e with isModified := false })
  let s := s.saveToStorage
  s.emit (.fileSaved file)

end FileManager

/-! ## Strings -/

/-- Whether `needle` occurs in `hay` as a contiguous block, scanning the start positions from
the left. -/
def includesChars (hay needle : List Char) : Bool :=
  match hay with
  | [] => needle.isEmpty
  | c :: rest => needle.isPrefixOf (c :: rest) || includesChars rest needle

/-- `String.prototype.includes`. -/
def jsIncludes (hay needle : String) : Bool := includesChars hay.data needle.data

/-- The pieces of `cs` between the occurrences of the separator; `cur` is the piece being
read, reversed. -/
def splitChars (sep : Char) : List Char → List Char → List (List Char)
  | [], cur => [cur.reverse]
  | c :: rest, cur =>
    if c = sep then cur.reverse :: splitChars sep rest [] else splitChars sep rest (c :: cur)

/-- `String.prototype.split` with a one-character separator. -/
def jsSplit (s : String) (sep : Char) : List String :=
  (splitChars sep s.data []).map String.mk

/-- `Array.prototype.join`. -/
def jsJoin (parts : List String) (sep : String) : String :=
  match parts with
  | [] => ""
  | [p] => p
  | p :: q :: rest => p ++ sep ++ jsJoin (q :: rest) sep

/-- Lower-casing of the letters `A`-`Z`, the part of `String.prototype.toLowerCase` that the
examples use. -/
def asciiLower (s : String) : String := String.mk (s.data.map Char.toLower)

namespace FileManager

/-- `Array.prototype.filter` with a callback that may throw: the callback is called on the
elements in order, and a throw (`none`) ends the call. -/
def jsFilter (p : Ref → Option Bool) : List Ref → Option (List Ref)
  | [] => some []
  | x :: rest =>
    match p x with
    | none => none
    | some keep => (jsFilter p rest).map fun kept => if keep then x :: kept else kept

/-- The method `searchFiles(query)`.  `toLowerCase` is `String.prototype.toLowerCase`, a
built-in of the language.  The operator `||` reads `file.content` only when the name does not
match, and `file.content.toLowerCase()` throws a `TypeError` (`none`) on a record without
content. -/
def searchFiles (toLowerCase : String → String) (s : FileManager) (query : String) :
    Option (List Ref) :=
  let allFiles := s.getFiles
  let lowerQuery := toLowerCase query
  jsFilter
    (fun file =>
      if jsIncludes (toLowerCase (s.obj file).name) lowerQuery then some true
      else if (s.obj file).contentMissing then none
      else some (jsIncludes (toLowerCase (s.obj file).content) lowerQuery))
    allFiles

/-- The expression `parent ? parent.children : this.getRootFiles()`. -/
def fileScope (s : FileManager) (parent : Option Ref) : List Ref :=
  match parent with
  | some p => s.children p
  | none => s.getRootFiles

/-- The expression `parent ? parent.children : this.getRootFolders()`. -/
def folderScope (s : FileManager) (parent : Option Ref) : List Ref :=
  match parent with
  | some p => s.children p
  | none => s.getRootFolders

/-- The method `fileNameExists(name, parent)`. -/
def fileNameExists (s : FileManager) (name : String) (parent : Option Ref) : Bool :=
  let siblings := s.fileScope parent
  siblings.any fun item => decide ((s.obj item).name = name) && decide ((s.obj item).type = .file)

/-- The method `folderNameExists(name, parent)`. -/
def folderNameExists (s : FileManager) (name : String) (parent : Option Ref) : Bool :=
  let siblings := s.folderScope parent
  siblings.any fun item =>
    decide ((s.obj item).name = name) && decide ((s.obj item).type = .folder)

/-- The name assigned in the body of the loop of `generateUniqueFileName`. -/
def fileCandidate (baseName : String) (counter : Nat) : String :=
  let parts := jsSplit baseName '.'
  if parts.length > 1 then
    let ext := parts.getLast?.getD ""
    let parts := parts.dropLast
    let nameWithoutExt := jsJoin parts "."
    nameWithoutExt ++ " (" ++ toString counter ++ ")." ++ ext
  else
    baseName ++ " (" ++ toString counter ++ ")"

/-- The `while` loop of `generateUniqueFileName`, from the state `(counter, name)`; `fuel`
bounds the number of evaluations of the loop condition and `none` means that it was used up. -/
def generateUniqueFileNameLoop (s : FileManager) (baseName : String) (parent : Option Ref) :
    (fuel : Nat) → (counter : Nat) → (name : String) → Option String
  | 0, _, _ => none
  | fuel + 1, counter, name =>
    if s.fileNameExists name parent then
      generateUniqueFileNameLoop s baseName parent fuel (counter + 1)
        (fileCandidate baseName counter)
    else some name

/-- The method `generateUniqueFileName(baseName, parent)`. -/
def generateUniqueFileName (fuel : Nat) (s : FileManager) (baseName : String)
    (parent : Option Ref) : Option String :=
  generateUniqueFileNameLoop s baseName parent fuel 1 baseName

/-- The name assigned in the body of the loop of `generateUniqueFolderName`. -/
def folderCandidate (baseName : String) (counter : Nat) : String :=
  baseName ++ " (" ++ toString counter ++ ")"

/-- The `while` loop of `generateUniqueFolderName`, from the state `(counter, name)`. -/
def generateUniqueFolderNameLoop (s : FileManager) (baseName : String) (parent : Option Ref) :
    (fuel : Nat) → (counter : Nat) → (name : String) → Option String
  | 0, _, _ => none
  | fuel + 1, counter, name =>
    if s.folderNameExists name parent then
      generateUniqueFolderNameLoop s baseName parent fuel (counter + 1)
        (folderCandidate baseName counter)
    else some name

/-- The method `generateUniqueFolderName(baseName, parent)`. -/
def generateUniqueFolderName (fuel : Nat) (s : FileManager) (baseName : String)
    (parent : Option Ref) : Option String :=
  generateUniqueFolderNameLoop s baseName parent fuel 1 baseName

end FileManager

/-! ## Snapshots -/

/-- A value that the `forEach` of the `files` or `folders` field of a snapshot passes to the
callback, as the parameter pattern `([id, record])` sees it: a pair, or a value that cannot be
destructured (a number, `null`), on which the pattern throws. -/
inductive SnapshotEntry where
  | pair (id : String) (record : Ref)
  | notIterable
deriving DecidableEq, Repr

/-- The `files` or `folders` field of a snapshot: falsy (absent, `null`, `0`, ...); an array; a
truthy value that is no array but has a method `forEach`, such as a `Set` or a `Map`, with the
values that this method passes to the callback, in order (a `forEach` that throws by itself
after some values counts as passing one more value, which cannot be destructured); or any other
truthy value, on which the call `field.forEach(...)` throws. -/
inductive SnapshotField where
  | falsy
  | array (entries : List SnapshotEntry)
  | collection (entries : List SnapshotEntry)
  | notArray
deriving DecidableEq, Repr

/-- The argument of `importData` when it is neither `null` nor `undefined`, as the reads
`data.files`, `data.folders` and `data.nextId` find it: an object, or a primitive such as `5`,
which has none of the three properties.  `nextId` is `none` when the property is absent. -/
structure Snapshot where
  files : SnapshotField
  folders : SnapshotField
  nextId : Option Nat
  exportedAt : Nat
deriving DecidableEq, Repr

/-- The call `field.forEach(([id, x]) => { map.set(id, x); })` on a field whose `forEach`
passes `entries`.  The flag is `false` when a destructuring threw; the map then holds what was
set before. -/
def importEntries : List SnapshotEntry → IdMap → IdMap × Bool
  | [], m => (m, true)
  | .pair id record :: rest, m => importEntries rest (m.set id record)
  | .notIterable :: _, m => (m, false)

/-- The statement `if (field) { field.forEach(([id, x]) => { map.set(id, x); }); }`, with the
same flag. -/
def importField (field : SnapshotField) (m : IdMap) : IdMap × Bool :=
  match field with
  | .falsy => (m, true)
  | .array entries => importEntries entries m
  | .collection entries => importEntries entries m
  | .notArray => (m, false)

namespace FileManager

/-- The method `exportData()`; `now` is the reading of `new Date()`. -/
def exportData (s : FileManager) (now : Nat) : Snapshot :=
  { files := .array (s.files.map fun kv => .pair kv.1 kv.2),
    folders := .array (s.folders.map fun kv => .pair kv.1 kv.2),
    nextId := some s.nextId,
    exportedAt := now }

/-- The method `importData(data)`; `none` is a `null` or `undefined` argument.  An exception in
the `try` block leads to the `catch`, which returns `false` with the state as it is then. -/
def importData (s : FileManager) (data : Option Snapshot) : Bool × FileManager :=
  let s := { s with files := [] }
  let s := { s with folders := [] }
  match data with
  | none => (false, s)
  | some data =>
    match importField data.files s.files with
    | (files, false) => (false, { s with files := files })
    | (files, true) =>
      let s := { s with files := files }
      match importField data.folders s.folders with
      | (folders, false) => (false, { s with folders := folders })
      | (folders, true) =>
        let s := { s with folders := folders }
        let s := match data.nextId with
          | some n => if n ≠ 0 then { s with nextId := n } else s
          | none => s
        let s := s.saveToStorage
        let s := s.emit .dataImported
        (true, s)

/-- The method `clearAll()`. -/
def clearAll (s : FileManager) : FileManager :=
  let s := { s with files := [] }
  let s := { s with folders := [] }
  let s := { s with nextId := 1 }
  let s := s.saveToStorage
  s.emit .dataCleared

end FileManager

/-! ## Visits of `updateChildrenPaths`

The method once more, with a log to which every call of the callback of the loop appends the
child it is called on. -/

namespace FileManager

/-- The loop `forEachChild`, for a callback that carries the log along. -/
def forEachChildLog (cb : Ref → FileManager × List Ref → Option (FileManager × List Ref))
    (folder : Ref) :
    (remaining : Nat) → (k : Nat) → FileManager × List Ref → Option (FileManager × List Ref)
  | 0, _, σ => some σ
  | remaining + 1, k, σ =>
    match (σ.1.children folder)[k]? with
    | some child => (cb child σ).bind (forEachChildLog cb folder remaining (k + 1))
    | none => forEachChildLog cb folder remaining (k + 1) σ

/-- The method `updateChildrenPaths(folder)` with the log of the children visited. -/
def updateChildrenPathsLog :
    (fuel : Nat) → FileManager × List Ref → Ref → Option (FileManager × List Ref)
  | 0, _, _ => none
  | fuel + 1, σ, folder =>
    forEachChildLog
      (fun child σ =>
        let log := σ.2 ++ [child]
        let s := σ.1.modifyObj child
          (fun e => { e with path := (σ.1.obj folder).path ++ "/" ++ (σ.1.obj child).name })
        if (s.obj child).type = .folder then updateChildrenPathsLog fuel (s, log) child
        else some (s, log))
      folder (σ.1.children folder).length 0 σ

end FileManager

/-! ## Exhaustion of the stack

`updateChildrenPaths` and `moveFolder` once more, keeping the state that a call leaves behind
when the recursion goes deeper than the stack allows: the `RangeError` is an `Except.error`
that carries the state at the throw, since the assignments made before it stay. -/

namespace FileManager

/-- The state in which a call ends, by a return or by a throw. -/
def leftState (r : Except FileManager FileManager) : FileManager :=
  match r with
  | .ok s => s
  | .error s => s

/-- The loop `forEachChild` for a callback that may throw: the throw ends the loop. -/
def forEachChildStack (cb : Ref → FileManager → Except FileManager FileManager)
    (folder : Ref) : (remaining : Nat) → (k : Nat) → FileManager → Except FileManager FileManager
  | 0, _, s => .ok s
  | remaining + 1, k, s =>
    match (s.children folder)[k]? with
    | some child =>
      match cb child s with
      | .ok s => forEachChildStack cb folder remaining (k + 1) s
      | .error s => .error s
    | none => forEachChildStack cb folder remaining (k + 1) s

/-- The method `updateChildrenPaths(folder)` on a stack that has room for `depth` nested calls
of the method; a call beyond that throws. -/
def updateChildrenPathsStack : (depth : Nat) → FileManager → Ref → Except FileManager FileManager
  | 0, s, _ => .error s
  | depth + 1, s, folder =>
    forEachChildStack
      (fun child s =>
        let s := s.modifyObj child
          (fun e => { e with path := (s.obj folder).path ++ "/" ++ (s.obj child).name })
        if (s.obj child).type = .folder then updateChildrenPathsStack depth s child else .ok s)
      folder (s.children folder).length 0 s

/-- The method `moveFolder(folder, targetFolder)` on such a stack: a throw of
`updateChildrenPaths` leaves the method before `saveToStorage` and `emit`. -/
def moveFolderStack (depth : Nat) (s : FileManager) (folder : Ref) (targetFolder : Option Ref) :
    Except FileManager FileManager :=
  let s := s.detach folder
  let s := s.attach folder targetFolder
  match updateChildrenPathsStack depth s folder with
  | .ok s =>
    let s := s.saveToStorage
    .ok (s.emit (.folderMoved folder targetFolder))
  | .error s => .error s

end FileManager

/-! ## Persistence

The methods `saveToStorage` and `loadFromStorage` with the key-value store `localStorage` in
view, and the constructor.  A thrown exception is an `Except.error`; a `try`/`catch` turns it
into a normal result. -/

/-- How the statement `localStorage.setItem('codeEditor_data', JSON.stringify(data))` ends:
the text is stored, or one of the two calls throws (a cyclic value, a full or disabled
store). -/
inductive WriteOutcome where
  | stored
  | throws
deriving DecidableEq, Repr

/-- The key-value store and the console: the snapshot last written under the key, with the
heap it was serialised from, and the lines written by `console.error`. -/
structure Backing where
  blob : Option (Snapshot × List Entity)
  errors : List String
deriving DecidableEq, Repr

/-- The statement `localStorage.setItem('codeEditor_data', JSON.stringify(data))`. -/
def Backing.setItem (b : Backing) (data : Snapshot) (heap : List Entity)
    (outcome : WriteOutcome) : Except String Backing :=
  match outcome with
  | .stored => .ok { b with blob := some (data, heap) }
  | .throws => .error "setItem"

/-- What `localStorage.getItem('codeEditor_data')` and `JSON.parse` make of the key: the read
itself throws; the key is absent (`null`, or an empty text, which is falsy too); the text does
not parse; or the text parses to `data` (`none` for `null`), the parse having appended `records`
to the heap. -/
inductive StoredItem where
  | unreadable
  | absent
  | unparsable
  | parsed (records : List Entity) (data : Option Snapshot)
deriving DecidableEq, Repr

/-- An instance of `FileManager` together with the key-value store it writes to. -/
structure Persisted where
  store : FileManager
  backing : Backing
deriving DecidableEq, Repr

namespace Persisted

/-- The method `saveToStorage()`: the `try` block builds the snapshot and writes it; the `catch`
block logs the exception.  `now` is the reading of `new Date()` in `exportData`. -/
def saveToStorage (w : Persisted) (now : Nat) (outcome : WriteOutcome) :
    Except String Persisted :=
  match w.backing.setItem (w.store.exportData now) w.store.heap outcome with
  | .ok b => .ok { w with backing := b }
  | .error e =>
    .ok { w with backing :=
      { w.backing with errors := w.backing.errors ++ ["Failed to save to storage: " ++ e] } }

/-- The method `createFile(name, content, parentFolder)`, as `FileManager.createFile`, with the
write to the key-value store. -/
def createFile (w : Persisted) (name content : String) (parentFolder : Option Ref)
    (now created modified saved : Nat) (outcome : WriteOutcome) :
    Except String (Ref × Persisted) := do
  let (id, s) := w.store.generateId now
  let (file, s) := s.alloc
    { id := id, name := name, content := content, type := .file, children := [],
      createdAt := created, modifiedAt := modified, parent := parentFolder,
      isModified := false, path := s.pathUnder parentFolder name }
  let s := { s with files := s.files.set id file }
  let s := match parentFolder with
    | some p => s.pushChild p file
    | none => s
  let w ← saveToStorage { w with store := s } saved outcome
  let w := { w with store := w.store.emit (.fileAdded file) }
  pure (file, w)

/-- The method `createFolder(name, parentFolder)`. -/
def createFolder (w : Persisted) (name : String) (parentFolder : Option Ref)
    (now created saved : Nat) (outcome : WriteOutcome) : Except String (Ref × Persisted) := do
  let (id, s) := w.store.generateId now
  let (folder, s) := s.alloc
    { id := id, name := name, content := "", type := .folder, children := [],
      createdAt := created, modifiedAt := 0, parent := parentFolder,
      isModified := false, path := s.pathUnder parentFolder name, contentMissing := true }
  let s := { s with folders := s.folders.set id folder }
  let s := match parentFolder with
    | some p => s.pushChild p folder
    | none => s
  let w ← saveToStorage { w with store := s } saved outcome
  let w := { w with store := w.store.emit (.folderAdded folder) }
  pure (folder, w)

/-- The method `removeFile(file)`. -/
def removeFile (w : Persisted) (file : Ref) (saved : Nat) (outcome : WriteOutcome) :
    Except String Persisted := do
  let s := w.store.detach file
  let s := { s with files := s.files.delete (s.obj file).id }
  let w ← saveToStorage { w with store := s } saved outcome
  pure { w with store := w.store.emit (.fileRemoved file) }

/-- The method `renameFile(file, newName)`; it returns `file`. -/
def renameFile (w : Persisted) (file : Ref) (newName : String) (now saved : Nat)
    (outcome : WriteOutcome) : Except String Persisted := do
  let s := w.store
  let oldName := (s.obj file).name
  let s := s.modifyObj file (fun e => { e with name := newName })
  let s := s.modifyObj file (fun e => { e with modifiedAt := now })
  let s := s.modifyObj file (fun e => { e with path := s.pathUnder (s.parentOf file) newName })
  let w ← saveToStorage { w with store := s } saved outcome
  pure { w with store := w.store.emit (.fileRenamed file oldName) }

/-- The method `moveFile(file, targetFolder)`; it returns `file`. -/
def moveFile (w : Persisted) (file : Ref) (targetFolder : Option Ref) (saved : Nat)
    (outcome : WriteOutcome) : Except String Persisted := do
  let s := w.store.detach file
  let s := s.attach file targetFolder
  let w ← saveToStorage { w with store := s } saved outcome
  pure { w with store := w.store.emit (.fileMoved file targetFolder) }

/-- The method `updateFileContent(file, content)`; it returns `file`. -/
def updateFileContent (w : Persisted) (file : Ref) (content : String) (now saved : Nat)
    (outcome : WriteOutcome) : Except String Persisted := do
  let s := w.store.modifyObj file (fun e => { e with content := content, contentMissing := false })
  let s := s.modifyObj file (fun e => { e with modifiedAt := now })
  let s := s.modifyObj file (fun e => { e with isModified := true })
  let w ← saveToStorage { w with store := s } saved outcome
  pure { w with store := w.store.emit (.fileContentChanged file) }

/-- The method `markFileAsSaved(file)`. -/
def markFileAsSaved (w : Persisted) (file : Ref) (saved : Nat) (outcome : WriteOutcome) :
    Except String Persisted := do
  let s := w.store.modifyObj file (fun e => { e with isModified := false })
  let w ← saveToStorage { w with store := s } saved outcome
  pure { w with store := w.store.emit (.fileSaved file) }

end Persisted

namespace FileManager

/-- The `try` block of `loadFromStorage()`:
`const data = localStorage.getItem('codeEditor_data');
 if (data) { const parsedData = JSON.parse(data); this.importData(parsedData); }`.
The result of `importData` is dropped. -/
def loadFromStorageTry (s : FileManager) (item : StoredItem) : Except String FileManager :=
  match item with
  | .unreadable => .error "getItem"
  | .absent => .ok s
  | .unparsable => .error "JSON.parse"
  | .parsed records data =>
    let s := { s with heap := s.heap ++ records }
    .ok (s.importData data).2

/-- The method `loadFromStorage()`: the `catch` block logs the exception. -/
def loadFromStorage (s : FileManager) (item : StoredItem) : Except String FileManager :=
  match s.loadFromStorageTry item with
  | .ok s => .ok s
  | .error _ => .ok s

/-- The method `init()`. -/
def init (s : FileManager) (item : StoredItem) : Except String FileManager :=
  s.loadFromStorage item

/-- The constructor, `new FileManager()`, run while the key-value store holds `item`. -/
def construct (item : StoredItem) : Except String FileManager :=
  let s : FileManager := { heap := [], files := [], folders := [], nextId := 1, emitted := [] }
  s.init item

end FileManager

/-! ## Well-formed stores -/

namespace FileManager

/-- A well-formed store: both maps have pairwise distinct keys and map the id of a live record
of the right kind to it; the elements of a `children` array are live, pairwise distinct and
have the holder of the array as their `parent`; a file holds no children; and the `parent` of a
stored entry is a live folder that has the entry among its `children`. -/
structure WellFormed (s : FileManager) : Prop where
  files_keys : (s.files.map Prod.fst).Nodup
  folders_keys : (s.folders.map Prod.fst).Nodup
  files_ok : ∀ kv ∈ s.files,
    kv.2 < s.heap.length ∧ (s.obj kv.2).id = kv.1 ∧ (s.obj kv.2).type = .file
  folders_ok : ∀ kv ∈ s.folders,
    kv.2 < s.heap.length ∧ (s.obj kv.2).id = kv.1 ∧ (s.obj kv.2).type = .folder
  children_ok : ∀ p, p < s.heap.length → ∀ c ∈ s.children p,
    c < s.heap.length ∧ s.parentOf c = some p
  children_nodup : ∀ p, p < s.heap.length → (s.children p).Nodup
  file_leaf : ∀ r, r < s.heap.length → (s.obj r).type = .file → s.children r = []
  parent_ok : ∀ kv ∈ s.files ++ s.folders, ∀ p ∈ s.parentOf kv.2,
    p < s.heap.length ∧ (s.obj p).type = .folder ∧ kv.2 ∈ s.children p

/-- The containment relation has no cycle: `rank` strictly decreases from a record to each
element of its `children`. -/
def Acyclic (rank : Ref → Nat) (s : FileManager) : Prop :=
  ∀ p, p < s.heap.length → ∀ c ∈ s.children p, rank c < rank p

/-- `Desc s a d`: the record `d` is a descendant of `a`, at any depth, along `children`. -/
inductive Desc (s : FileManager) (a : Ref) : Ref → Prop where
  | child {c : Ref} : c ∈ s.children a → Desc s a c
  | step {p c : Ref} : Desc s a p → c ∈ s.children p → Desc s a c

/-- `PathsOnly s s'`: the state `s'` differs from `s` in `path` fields at most. -/
def PathsOnly (s s' : FileManager) : Prop :=
  s'.files = s.files ∧ s'.folders = s.folders ∧ s'.nextId = s.nextId ∧
    s'.emitted = s.emitted ∧ s'.heap.length = s.heap.length ∧
    ∀ r, s'.obj r = { s.obj r with path := (s'.obj r).path }

/-- The part of well-formedness and acyclicity that concerns `F` and the records below it:
a file among them holds no children, and the elements of their `children` arrays are live, have
the holder as `parent` and a smaller `rank`. -/
def SubtreeOk (rank : Ref → Nat) (s : FileManager) (F : Ref) : Prop :=
  ∀ p, (p = F ∨ Desc s F p) →
    ((s.obj p).type = .file → s.children p = []) ∧
    ∀ c ∈ s.children p, c < s.heap.length ∧ s.parentOf c = some p ∧ rank c < rank p

/-- `PathOk s s' d`: in `s'` the path of `d` is the path of its parent, `/`, and its name
(parent and name as in `s`). -/
def PathOk (s s' : FileManager) (d : Ref) : Prop :=
  ∃ q, s.parentOf d = some q ∧ (s'.obj d).path = (s'.obj q).path ++ "/" ++ (s.obj d).name

/-- `Anc s e a`: the record `a` is an ancestor of `e`, reached from `e` through `parent` in one
step or more. -/
inductive Anc (s : FileManager) : Ref → Ref → Prop where
  | parent {e p : Ref} : s.parentOf e = some p → Anc s e p
  | step {e p a : Ref} : s.parentOf e = some p → Anc s p a → Anc s e a

/-- `Reach s a d`: the folder `d` is reached from `a` along `children` through folders only,
in one step or more; these are the records that the recursion of `updateChildrenPaths(a)`
enters. -/
inductive Reach (s : FileManager) : Ref → Ref → Prop where
  | edge {a c : Ref} : c ∈ s.children a → (s.obj c).type = .folder → Reach s a c
  | cons {a c d : Ref} : c ∈ s.children a → (s.obj c).type = .folder → Reach s c d → Reach s a d

/-- The path equation at `e`: when `e` has a parent, `e.path` is the parent's path, `/`, and
`e.name`. -/
def PathEq (s : FileManager) (e : Ref) : Prop :=
  ∀ p ∈ s.parentOf e, (s.obj e).path = (s.obj p).path ++ "/" ++ (s.obj e).name

end FileManager

/-! ## The containment invariant -/

namespace FileManager

/-- Invariant I1: every stored entry with a parent `P` occurs exactly once in `P.children` and
in the `children` of no other stored folder, and every element of the `children` of a stored
folder has that folder as its `parent`. -/
def I1 (s : FileManager) : Prop :=
  (∀ c ∈ s.getFiles ++ s.getFolders, ∀ P ∈ s.parentOf c,
    (s.children P).count c = 1 ∧ ∀ Q ∈ s.getFolders, Q ≠ P → c ∉ s.children Q) ∧
  (∀ p ∈ s.getFolders, ∀ c ∈ s.children p, s.parentOf c = some p)

/-- The representation of a store that its own operations maintain: each map holds live records
of its kind under their ids, and the `children` of a stored folder are live records. -/
structure MapsOk (s : FileManager) : Prop where
  files_ok : ∀ kv ∈ s.files,
    kv.2 < s.heap.length ∧ (s.obj kv.2).id = kv.1 ∧ (s.obj kv.2).type = .file
  folders_ok : ∀ kv ∈ s.folders,
    kv.2 < s.heap.length ∧ (s.obj kv.2).id = kv.1 ∧ (s.obj kv.2).type = .folder
  children_live : ∀ p ∈ s.getFolders, ∀ c ∈ s.children p, c < s.heap.length

end FileManager

/-! ## Subscribers

The methods `on` and `emit` touch nothing but the field `eventListeners`, a plain object
created by `{}` that maps a channel name to an array of callbacks.  A callback is represented
by an identifier; it is taken to return normally and to leave `eventListeners` alone. -/

/-- The names under which a plain object finds a property of `Object.prototype` (a function, or
the prototype itself for `__proto__`) when it has no own property of that name. -/
def objectPrototypeKeys : List String :=
  ["constructor", "__defineGetter__", "__defineSetter__", "hasOwnProperty",
    "__lookupGetter__", "__lookupSetter__", "isPrototypeOf", "propertyIsEnumerable",
    "toString", "valueOf", "__proto__", "toLocaleString"]

/-- The value of the expression `this.eventListeners[event]`: `undefined`, an array of
callbacks, or an inherited property, which is truthy and has neither `push` nor `forEach`. -/
inductive Listeners (κ : Type) where
  | undefined
  | array (callbacks : List κ)
  | inherited
deriving DecidableEq, Repr

/-- The field `eventListeners`: the own properties of the object, in insertion order. -/
structure EventBus (κ : Type) where
  own : List (String × List κ)
deriving DecidableEq, Repr

namespace EventBus

variable {κ α : Type}

/-- The value `{}` that the constructor assigns. -/
def empty : EventBus κ := { own := [] }

/-- The expression `this.eventListeners[event]`. -/
def lookup (b : EventBus κ) (event : String) : Listeners κ :=
  match b.own.lookup event with
  | some callbacks => .array callbacks
  | none => if event ∈ objectPrototypeKeys then .inherited else .undefined

/-- The assignment `this.eventListeners[event] = callbacks` of an own property. -/
def assign : List (String × List κ) → String → List κ → List (String × List κ)
  | [], event, callbacks => [(event, callbacks)]
  | (e, cs) :: rest, event, callbacks =>
    if e = event then (event, callbacks) :: rest else (e, cs) :: assign rest event callbacks

/-- The method `on(event, callback)` (the name `on` is reserved here); `none` is the
`TypeError` of calling `push` on a value that has none. -/
def onEvent (b : EventBus κ) (event : String) (callback : κ) : Option (EventBus κ) :=
  let b := match b.lookup event with
    | .undefined => { b with own := assign b.own event [] }
    | _ => b
  match b.lookup event with
  | .array callbacks => some { b with own := assign b.own event (callbacks ++ [callback]) }
  | _ => none

/-- The method `emit(event, ...args)`: the calls `callback(...args)` made, in order; `none` is
the `TypeError` of calling `forEach` on a value that has none. -/
def emit (b : EventBus κ) (event : String) (args : α) : Option (List (κ × α)) :=
  match b.lookup event with
  | .undefined => some []
  | .array callbacks => some (callbacks.map fun callback => (callback, args))
  | .inherited => none

/-- A sequence of `on` calls, each given as the pair of its arguments. -/
def onAll (b : EventBus κ) (registrations : List (String × κ)) : Option (EventBus κ) :=
  registrations.foldlM (fun b r => b.onEvent r.1 r.2) b

end EventBus

/-! ## Views

The tree view (`src/fileExplorer.js`) and the tabs view (`src/editor.js`).  Both hold references
to the records of the store.  The page and the text widget are external: of a method only what it
does to the fields of the two views and to the records is kept, and a method that writes to the
page alone is the identity.  The answer of a `confirm` dialog and the text typed into the widget
are arguments. -/

/-- The tab data built by `openFile`; `model` is the text of the buffer of the tab. -/
structure Tab where
  id : String
  file : Ref
  isModified : Bool
  model : String
deriving DecidableEq, Repr

/-- The events emitted by the two views, with their arguments. -/
inductive ViewEvent where
  | fileSelect (file : Ref)
  | fileChange (file : Ref)
  | tabClose (file : Ref)
deriving DecidableEq, Repr

/-- The application (`CodeEditor` in `src/main.js`): the store, the fields `selectedFile` and
`expandedFolders` of its `FileExplorer`, and the fields `openTabs` and `activeTab` of its
`Editor`.  The active tab is named by its key in `openTabs`, which is the `id` of the tab. -/
structure CodeEditor where
  fileManager : FileManager
  selectedFile : Option Ref
  expandedFolders : List String
  openTabs : List (String × Tab)
  activeTab : Option String
  viewEmitted : List ViewEvent
deriving DecidableEq, Repr

namespace CodeEditor

/-- The method `emit` of a view, recorded as a trace. -/
def emitView (a : CodeEditor) (e : ViewEvent) : CodeEditor :=
  { a with viewEmitted := a.viewEmitted ++ [e] }

/-- `this.openTabs.get(fileId)`. -/
def getTab (a : CodeEditor) (fileId : String) : Option Tab := a.openTabs.lookup fileId

/-- `this.openTabs.set(fileId, tab)`. -/
def setTab : List (String × Tab) → String → Tab → List (String × Tab)
  | [], fileId, tab => [(fileId, tab)]
  | (k, v) :: rest, fileId, tab =>
    if k = fileId then (fileId, tab) :: rest else (k, v) :: setTab rest fileId tab

/-- In-place mutation of the tab stored under a key. -/
def modifyTab (a : CodeEditor) (fileId : String) (f : Tab → Tab) : CodeEditor :=
  { a with openTabs := a.openTabs.map fun kv => if kv.1 = fileId then (kv.1, f kv.2) else kv }

end CodeEditor

namespace FileExplorer

/-- The method `render()`: reads the store and rewrites the page. -/
def render (a : CodeEditor) : CodeEditor := a

/-- The method `updateFileDisplay(file)`: reads the record and rewrites its line of the page. -/
def updateFileDisplay (a : CodeEditor) (_file : Ref) : CodeEditor := a

/-- The method `toggleFolder(folderId)`. -/
def toggleFolder (a : CodeEditor) (folderId : String) : CodeEditor :=
  let a :=
    if folderId ∈ a.expandedFolders then
      { a with expandedFolders := a.expandedFolders.filter (fun x => x ≠ folderId) }
    else { a with expandedFolders := a.expandedFolders ++ [folderId] }
  render a

/-- The method `selectFile(fileId)`. -/
def selectFile (a : CodeEditor) (fileId : String) : CodeEditor :=
  match a.fileManager.getFile fileId with
  | some file =>
    let a := { a with selectedFile := some file }
    a.emitView (.fileSelect file)
  | none => a

/-- The method `markFileAsModified(file)`: `file.isModified = true; this.updateFileDisplay(file)`. -/
def markFileAsModified (a : CodeEditor) (file : Ref) : CodeEditor :=
  let a := { a with
    fileManager := a.fileManager.modifyObj file (fun e => { e with isModified := true }) }
  updateFileDisplay a file

/-- The method `unmarkFileAsModified(file)`:
`file.isModified = false; this.updateFileDisplay(file)`. -/
def unmarkFileAsModified (a : CodeEditor) (file : Ref) : CodeEditor :=
  let a := { a with
    fileManager := a.fileManager.modifyObj file (fun e => { e with isModified := false }) }
  updateFileDisplay a file

/-- The method `refresh()`. -/
def refresh (a : CodeEditor) : CodeEditor := render a

/-- The method `clearSelection()`. -/
def clearSelection (a : CodeEditor) : CodeEditor := { a with selectedFile := none }

/-- The method `focusFile(file)`. -/
def focusFile (a : CodeEditor) (file : Ref) : CodeEditor :=
  selectFile a (a.fileManager.obj file).id

/-- The method `expandToFile(file)`. -/
def expandToFile (a : CodeEditor) (file : Ref) : CodeEditor :=
  match a.fileManager.parentOf file with
  | some p =>
    let id := (a.fileManager.obj p).id
    let a :=
      if id ∈ a.expandedFolders then a
      else { a with expandedFolders := a.expandedFolders ++ [id] }
    render a
  | none => a

/-- The method `filterFiles(searchTerm)`: reads the store and rewrites the page. -/
def filterFiles (a : CodeEditor) (_searchTerm : String) : CodeEditor := a

end FileExplorer

namespace Editor

/-- The method `switchToTab(fileId)`. -/
def switchToTab (a : CodeEditor) (fileId : String) : CodeEditor :=
  match a.getTab fileId with
  | none => a
  | some tab => { a with activeTab := some tab.id }

/-- The method `openFile(file)`. -/
def openFile (a : CodeEditor) (file : Ref) : CodeEditor :=
  let id := (a.fileManager.obj file).id
  if (a.getTab id).isSome then switchToTab a id
  else
    let tab : Tab :=
      { id := id, file := file, isModified := false, model := (a.fileManager.obj file).content }
    let a := { a with openTabs := CodeEditor.setTab a.openTabs id tab }
    switchToTab a id

/-- The method `markTabAsModified(tab)`, the tab given by its key. -/
def markTabAsModified (a : CodeEditor) (tab : String) : CodeEditor :=
  match a.getTab tab with
  | some t => if t.isModified then a else a.modifyTab tab (fun t => { t with isModified := true })
  | none => a

/-- The method `markTabAsSaved(tab)`, the tab given by its key. -/
def markTabAsSaved (a : CodeEditor) (tab : String) : CodeEditor :=
  a.modifyTab tab (fun t => { t with isModified := false })

/-- The handler of `onDidChangeModelContent`, run when the text of the active buffer has become
`text`: `this.markTabAsModified(this.activeTab); this.emit('fileChange', this.activeTab.file)`. -/
def onDidChangeModelContent (a : CodeEditor) (text : String) : CodeEditor :=
  match a.activeTab with
  | some key =>
    match a.getTab key with
    | some t =>
      let a := a.modifyTab key (fun t => { t with model := text })
      let a := markTabAsModified a key
      a.emitView (.fileChange t.file)
    | none => a
  | none => a

/-- The method `saveFile(file)`:
`const tab = this.openTabs.get(file.id); if (!tab) return;
 const content = tab.model.getValue(); file.content = content;
 this.markTabAsSaved(tab); this.downloadFile(file);`. -/
def saveFile (a : CodeEditor) (file : Ref) : CodeEditor :=
  match a.getTab (a.fileManager.obj file).id with
  | none => a
  | some tab =>
    let content := tab.model
    let a := { a with
      fileManager := a.fileManager.modifyObj file (fun e => { e with content := content, contentMissing := false }) }
    markTabAsSaved a tab.id

/-- The method `saveCurrentFile()`. -/
def saveCurrentFile (a : CodeEditor) : CodeEditor :=
  match a.activeTab with
  | some key =>
    match a.getTab key with
    | some t => saveFile a t.file
    | none => a
  | none => a

/-- The method `closeTab(fileId)`; `shouldSave` is the answer of the `confirm` dialog. -/
def closeTab (a : CodeEditor) (fileId : String) (shouldSave : Bool) : CodeEditor :=
  match a.getTab fileId with
  | none => a
  | some tab =>
    let a := if tab.isModified && shouldSave then saveFile a tab.file else a
    let a := { a with openTabs := a.openTabs.filter (fun kv => kv.1 ≠ fileId) }
    let a := a.emitView (.tabClose tab.file)
    if a.activeTab = some fileId then
      let a := { a with activeTab := none }
      match a.openTabs with
      | (_, first) :: _ => switchToTab a first.id
      | [] => a
    else a

/-- The method `closeCurrentTab()`. -/
def closeCurrentTab (a : CodeEditor) (shouldSave : Bool) : CodeEditor :=
  match a.activeTab with
  | some key => closeTab a key shouldSave
  | none => a

/-- The method `closeFile(file)`. -/
def closeFile (a : CodeEditor) (file : Ref) (shouldSave : Bool) : CodeEditor :=
  closeTab a (a.fileManager.obj file).id shouldSave

/-- The method `updateFileTab(file)`: reads the record and rewrites the label of its tab. -/
def updateFileTab (a : CodeEditor) (_file : Ref) : CodeEditor := a

end Editor

/-- A call of a method of one of the two views, with its arguments. -/
inductive ViewOp where
  | render
  | toggleFolder (folderId : String)
  | selectFile (fileId : String)
  | markFileAsModified (file : Ref)
  | unmarkFileAsModified (file : Ref)
  | refresh
  | clearSelection
  | focusFile (file : Ref)
  | expandToFile (file : Ref)
  | filterFiles (searchTerm : String)
  | openFile (file : Ref)
  | switchToTab (fileId : String)
  | closeTab (fileId : String) (shouldSave : Bool)
  | closeCurrentTab (shouldSave : Bool)
  | closeFile (file : Ref) (shouldSave : Bool)
  | markTabAsModified (tab : String)
  | markTabAsSaved (tab : String)
  | onDidChangeModelContent (text : String)
  | saveCurrentFile
  | saveFile (file : Ref)
  | updateFileTab (file : Ref)
deriving DecidableEq, Repr

/-- The effect of a call of a view method. -/
def CodeEditor.step (a : CodeEditor) : ViewOp → CodeEditor
  | .render => FileExplorer.render a
  | .toggleFolder folderId => FileExplorer.toggleFolder a folderId
  | .selectFile fileId => FileExplorer.selectFile a fileId
  | .markFileAsModified file => FileExplorer.markFileAsModified a file
  | .unmarkFileAsModified file => FileExplorer.unmarkFileAsModified a file
  | .refresh => FileExplorer.refresh a
  | .clearSelection => FileExplorer.clearSelection a
  | .focusFile file => FileExplorer.focusFile a file
  | .expandToFile file => FileExplorer.expandToFile a file
  | .filterFiles searchTerm => FileExplorer.filterFiles a searchTerm
  | .openFile file => Editor.openFile a file
  | .switchToTab fileId => Editor.switchToTab a fileId
  | .closeTab fileId shouldSave => Editor.closeTab a fileId shouldSave
  | .closeCurrentTab shouldSave => Editor.closeCurrentTab a shouldSave
  | .closeFile file shouldSave => Editor.closeFile a file shouldSave
  | .markTabAsModified tab => Editor.markTabAsModified a tab
  | .markTabAsSaved tab => Editor.markTabAsSaved a tab
  | .onDidChangeModelContent text => Editor.onDidChangeModelContent a text
  | .saveCurrentFile => Editor.saveCurrentFile a
  | .saveFile file => Editor.saveFile a file
  | .updateFileTab file => Editor.updateFileTab a file

/-- Whether a call assigns to `isModified` of the record `r`. -/
def ViewOp.setsIsModified (op : ViewOp) (r : Ref) : Bool :=
  match op with
  | .markFileAsModified file => file = r
  | .unmarkFileAsModified file => file = r
  | _ => false

/-- Whether a call can reach the assignment `file.content = content` of `saveFile`. -/
def ViewOp.savesContent (op : ViewOp) : Bool :=
  match op with
  | .saveFile _ => true
  | .saveCurrentFile => true
  | .closeTab _ shouldSave => shouldSave
  | .closeCurrentTab shouldSave => shouldSave
  | .closeFile _ shouldSave => shouldSave
  | _ => false

/-! ## Sequences of creations -/

/-- A call of `createFile` or of `createFolder`, with its arguments and the readings of the
clock. -/
inductive CreateCall where
  | file (name content : String) (parentFolder : Option Ref) (now created modified : Nat)
  | folder (name : String) (parentFolder : Option Ref) (now created : Nat)
deriving DecidableEq, Repr

namespace FileManager

/-- The calls made one after the other; the first component lists the `id` of the record that
each call returned, read right after the call. -/
def createAll : FileManager → List CreateCall → List String × FileManager
  | s, [] => ([], s)
  | s, .file name content parentFolder now created modified :: rest =>
    let r := s.createFile name content parentFolder now created modified
    let rs := createAll r.2 rest
    ((r.2.obj r.1).id :: rs.1, rs.2)
  | s, .folder name parentFolder now created :: rest =>
    let r := s.createFolder name parentFolder now created
    let rs := createAll r.2 rest
    ((r.2.obj r.1).id :: rs.1, rs.2)

end FileManager

namespace FileManager

/-- Every key of the `files` map was built by `generateId` from a value of the counter below
the present `nextId`.  The store after the constructor has no key; `createFile` enters a key
built from `nextId` and increments it. -/
def KeysBelow (s : FileManager) : Prop :=
  ∀ kv ∈ s.files, ∃ n t : Nat, n < s.nextId ∧
    kv.1 = "item_" ++ toString n ++ "_" ++ toString t

end FileManager

/-! ## Statistics and language hints

`getStats` and `getFileTypeStats` of `src/fileManager.js` and `getLanguageFromExtension` of
`src/editor.js`.  The last two read a plain object created by an object literal, so a key that
the object does not own is looked up in `Object.prototype`. -/

/-- `String.prototype.length`: the number of UTF-16 code units. -/
def jsLength (s : String) : Nat :=
  (s.data.map fun c => if c.toNat < 65536 then 1 else 2).sum

/-- The expression `name.split('.').pop()`; `none` is `undefined`. -/
def lastPiece (name : String) : Option String := (jsSplit name '.').getLast?

/-- The assignment `obj[key] = value` of an own property of a plain object, whose own
properties are kept in insertion order. -/
def setProperty {β : Type} : List (String × β) → String → β → List (String × β)
  | [], key, value => [(key, value)]
  | (k, v) :: rest, key, value =>
    if k = key then (key, value) :: rest else (k, v) :: setProperty rest key value

/-- A value held by the object `stats` of `getFileTypeStats`: a number, or the string that `+ 1`
makes of an inherited function, which is the text of that function followed by one `1` for
every addition. -/
inductive TypeCount where
  | count (n : Nat)
  | text (ones : Nat)
deriving DecidableEq, Repr

/-- The object that `getStats()` returns. -/
structure Stats where
  totalFiles : Nat
  totalFolders : Nat
  modifiedFiles : Nat
  totalSize : Nat
  fileTypes : List (String × TypeCount)
deriving DecidableEq, Repr

/-- The value of `getLanguageFromExtension`: a string, or the property of `Object.prototype`
found under the key (a function, or the prototype itself), which is no string. -/
inductive LanguageHint where
  | name (text : String)
  | inherited (key : String)
deriving DecidableEq, Repr

namespace FileManager

/-- The expression `file.name.split('.').pop()?.toLowerCase() || 'unknown'`. -/
def extensionKey (toLowerCase : String → String) (name : String) : String :=
  match (lastPiece name).map toLowerCase with
  | some ext => if ext = "" then "unknown" else ext
  | none => "unknown"

/-- The statement `stats[ext] = (stats[ext] || 0) + 1`.  On a key that `stats` does not own the
read finds `undefined` or an inherited property; the sum of an inherited function and `1` is a
string.  The key `__proto__` is an accessor of the prototype: the read finds the prototype, and
the write of a string through the accessor changes nothing. -/
def countExtension (stats : List (String × TypeCount)) (ext : String) :
    List (String × TypeCount) :=
  if ext = "__proto__" then stats
  else
    match stats.lookup ext with
    | some (.count n) => setProperty stats ext (.count (n + 1))
    | some (.text ones) => setProperty stats ext (.text (ones + 1))
    | none =>
      if ext ∈ objectPrototypeKeys then setProperty stats ext (.text 1)
      else setProperty stats ext (.count 1)

/-- The method `getFileTypeStats(files)`. -/
def getFileTypeStats (toLowerCase : String → String) (s : FileManager) (files : List Ref) :
    List (String × TypeCount) :=
  files.foldl (fun stats file => countExtension stats (extensionKey toLowerCase (s.obj file).name))
    []

/-- The expression `file.content || ''`: the empty string for a record without content and for
an empty content. -/
def contentOrEmpty (e : Entity) : String :=
  if e.contentMissing then "" else if e.content = "" then "" else e.content

/-- The method `getStats()`. -/
def getStats (toLowerCase : String → String) (s : FileManager) : Stats :=
  let files := s.getFiles
  let folders := s.getFolders
  { totalFiles := files.length,
    totalFolders := folders.length,
    modifiedFiles := (files.filter fun f => (s.obj f).isModified).length,
    totalSize := files.foldl (fun size file => size + jsLength (contentOrEmpty (s.obj file))) 0,
    fileTypes := s.getFileTypeStats toLowerCase files }

end FileManager

namespace Editor

/-- The object literal `languages` of `getLanguageFromExtension`. -/
def languages : List (String × String) :=
  [("html", "html"), ("css", "css"), ("js", "javascript"), ("json", "json"),
    ("md", "markdown"), ("txt", "plaintext")]

/-- The method `getLanguageFromExtension(fileName)`.  An `undefined` extension would be read as
the key `undefined`. -/
def getLanguageFromExtension (toLowerCase : String → String) (fileName : String) : LanguageHint :=
  let ext := ((lastPiece fileName).map toLowerCase).getD "undefined"
  match languages.lookup ext with
  | some language => if language = "" then .name "plaintext" else .name language
  | none => if ext ∈ objectPrototypeKeys then .inherited ext else .name "plaintext"

end Editor

/-! ## Scenarios -/

/-- The store of the removal scenario: folder `a` holding file `x.js` and folder `b`, with `b`
holding file `y.js`.  References: `a = 0`, `x.js = 1`, `b = 2`, `y.js = 3`. -/
def removalScenario : FileManager :=
  let (a, s) := FileManager.empty.createFolder "a" none 100 100
  let (_, s) := s.createFile "x.js" "" (some a) 101 101 101
  let (b, s) := s.createFolder "b" (some a) 102 102
  let (_, s) := s.createFile "y.js" "" (some b) 103 103 103
  s

/-- The store of the search scenario: root files `Hint.txt` (reference `0`, content `nothing`)
and `note.txt` (reference `1`, content `say hi`). -/
def searchScenario : FileManager :=
  let (_, s) := FileManager.empty.createFile "Hint.txt" "nothing" none 100 100 100
  let (_, s) := s.createFile "note.txt" "say hi" none 101 101 101
  s

/-- The store of the naming scenario: root folder `parent` (reference `0`) holding the files
`a.txt` (`1`) and `a (1).txt` (`2`) and the folder `lib` (`3`). -/
def namingScenario : FileManager :=
  let (parent, s) := FileManager.empty.createFolder "parent" none 100 100
  let (_, s) := s.createFile "a.txt" "" (some parent) 101 101 101
  let (_, s) := s.createFile "a (1).txt" "" (some parent) 102 102 102
  let (_, s) := s.createFolder "lib" (some parent) 103 103
  s

/-- The store of the move scenario: root file `index.html` (reference `0`) and root folder
`src` (reference `1`). -/
def moveScenario : FileManager :=
  let (_, s) := FileManager.empty.createFile "index.html" "<h1>Hi</h1>" none 100 100 100
  let (_, s) := s.createFolder "src" none 101 101
  s

/-- The store of the path scenario: root folder `src` (reference `0`) holding the file
`index.html` (reference `1`). -/
def pathScenario : FileManager :=
  let (src, s) := FileManager.empty.createFolder "src" none 100 100
  let (_, s) := s.createFile "index.html" "<h1>Hi</h1>" (some src) 101 101 101
  s

/-- The store of the nested scenario: folder `a` (reference `0`) holding file `x.js` (`1`) and
folder `b` (`2`), `b` holding file `y.js` (`3`), and a second root folder `dst` (`4`). -/
def nestedScenario : FileManager :=
  let (a, s) := FileManager.empty.createFolder "a" none 100 100
  let (_, s) := s.createFile "x.js" "" (some a) 101 101 101
  let (b, s) := s.createFolder "b" (some a) 102 102
  let (_, s) := s.createFile "y.js" "" (some b) 103 103 103
  let (_, s) := s.createFolder "dst" none 104 104
  s

/-- A rank for the nested scenario: `dst` above `a`, and `a` above its contents. -/
def nestedRank (r : Ref) : Nat := if r = 4 then 10 else 5 - r

/-- A snapshot whose `files` and `folders` fields are both absent. -/
def fieldlessSnapshot : Snapshot :=
  { files := .falsy, folders := .falsy, nextId := none, exportedAt := 0 }

/-- A snapshot whose second `files` entry cannot be destructured; the first entry maps the id
`k` to the record behind reference `1`. -/
def brokenSnapshot : Snapshot :=
  { files := .array [.pair "k" 1, .notIterable], folders := .array [], nextId := some 9,
    exportedAt := 0 }

/-- The application with the search scenario as its store and nothing selected or open. -/
def viewScenario : CodeEditor :=
  { fileManager := searchScenario, selectedFile := none, expandedFolders := [], openTabs := [],
    activeTab := none, viewEmitted := [] }

/-- The store of the statistics scenario: the root files `a.js`, `B.JS`, `c.constructor`,
`Makefile`, `d.` and `e.__proto__` (references `0` to `5`), the second one modified. -/
def statsScenario : FileManager :=
  let (_, s) := FileManager.empty.createFile "a.js" "let a" none 100 100 100
  let (b, s) := s.createFile "B.JS" "" none 101 101 101
  let (_, s) := s.createFile "c.constructor" "" none 102 102 102
  let (_, s) := s.createFile "Makefile" "all:" none 103 103 103
  let (_, s) := s.createFile "d." "" none 104 104 104
  let (_, s) := s.createFile "e.__proto__" "" none 105 105 105
  s.updateFileContent b "B" 106

/-- The store of the version scenario: the root folder `v1.0` (reference `0`) and the root file
`v1.0` (reference `1`). -/
def versionScenario : FileManager :=
  let (_, s) := FileManager.empty.createFolder "v1.0" none 100 100
  let (_, s) := s.createFile "v1.0" "" none 101 101 101
  s

/-- A stored text that parses to a snapshot with a file entry `k` for a record named `a.txt`
followed by an entry that cannot be destructured. -/
def brokenItem : StoredItem :=
  .parsed
    [{ id := "k", name := "a.txt", content := "", type := .file, children := [], createdAt := 1,
       modifiedAt := 1, parent := none, isModified := false, path := "a.txt" }]
    (some { files := .array [.pair "k" 0, .notIterable], folders := .array [], nextId := some 9,
            exportedAt := 0 })

/-- The store of the collision scenario: `createFile("a.txt")` at the reading `100` of the
clock, `exportData()`, `clearAll()`, and `importData` of the exported `files` alone, without
`nextId`.  The file `a.txt` (reference `0`) is stored under `item_1_100` and `nextId` is `1`. -/
def collidingScenario : FileManager :=
  let (_, s) := FileManager.empty.createFile "a.txt" "" none 100 100 100
  let snapshot := { s.exportData 100 with nextId := none, folders := .falsy }
  let s := s.clearAll
  (s.importData (some snapshot)).2

/-- A stored text that parses to a snapshot with two file records: `a.txt` with the content
`abc`, and `b.txt` without the property `content`. -/
def contentlessItem : StoredItem :=
  .parsed
    [{ id := "k1", name := "a.txt", content := "abc", type := .file, children := [],
       createdAt := 1, modifiedAt := 1, parent := none, isModified := false, path := "a.txt" },
     { id := "k2", name := "b.txt", content := "", type := .file, children := [],
       createdAt := 2, modifiedAt := 2, parent := none, isModified := false, path := "b.txt",
       contentMissing := true }]
    (some { files := .array [.pair "k1" 0, .pair "k2" 1], folders := .array [],
            nextId := some 3, exportedAt := 0 })

/-! ## Basic facts about the heap -/

namespace FileManager

@[simp] theorem modifyObj_files (s : FileManager) (r : Ref) (f : Entity → Entity) :
    (s.modifyObj r f).files = s.files := rfl

@[simp] theorem modifyObj_folders (s : FileManager) (r : Ref) (f : Entity → Entity) :
    (s.modifyObj r f).folders = s.folders := rfl

@[simp] theorem modifyObj_nextId (s : FileManager) (r : Ref) (f : Entity → Entity) :
    (s.modifyObj r f).nextId = s.nextId := rfl

@[simp] theorem modifyObj_emitted (s : FileManager) (r : Ref) (f : Entity → Entity) :
    (s.modifyObj r f).emitted = s.emitted := rfl

@[simp] theorem modifyObj_heap_length (s : FileManager) (r : Ref) (f : Entity → Entity) :
    (s.modifyObj r f).heap.length = s.heap.length := by
  simp [modifyObj]

theorem obj_modifyObj_self (s : FileManager) (r : Ref) (f : Entity → Entity)
    (h : r < s.heap.length) : (s.modifyObj r f).obj r = f (s.obj r) := by
  simp [obj, modifyObj, List.getElem?_modify, List.getElem?_eq_getElem h]

theorem obj_modifyObj_of_ne (s : FileManager) {r r' : Ref} (f : Entity → Entity)
    (h : r ≠ r') : (s.modifyObj r f).obj r' = s.obj r' := by
  simp [obj, modifyObj, List.getElem?_modify_ne _ _ h]

theorem obj_modifyObj (s : FileManager) (r r' : Ref) (f : Entity → Entity)
    (h : r < s.heap.length) :
    (s.modifyObj r f).obj r' = if r = r' then f (s.obj r') else s.obj r' := by
  by_cases e : r = r'
  · subst e; simp [obj_modifyObj_self _ _ _ h]
  · simp [e, obj_modifyObj_of_ne _ _ e]

@[simp] theorem emit_obj (s : FileManager) (e : Event) (r : Ref) : (s.emit e).obj r = s.obj r :=
  rfl

@[simp] theorem saveToStorage_eq (s : FileManager) : s.saveToStorage = s := rfl

end FileManager

/-! ## Saving -/

/-- C6: `markFileAsSaved` clears `isModified` and touches nothing else of the file, a second call
changes nothing of the file any more, and after `updateFileContent(f, c)` followed by
`markFileAsSaved(f)` the file has content `c` and `isModified` false. -/
theorem markFileAsSaved_idempotent (s : FileManager) (f : Ref) (c : String) (now : Nat)
    (hf : f < s.heap.length) :
    (s.markFileAsSaved f).obj f = { s.obj f with isModified := false } ∧
    ((s.markFileAsSaved f).markFileAsSaved f).obj f = (s.markFileAsSaved f).obj f ∧
    (((s.markFileAsSaved f).markFileAsSaved f).obj f).isModified = false ∧
    (((s.updateFileContent f c now).markFileAsSaved f).obj f).isModified = false ∧
    (((s.updateFileContent f c now).markFileAsSaved f).obj f).content = c := by
  have h1 : ∀ t : FileManager, f < t.heap.length →
      (t.markFileAsSaved f).obj f = { t.obj f with isModified := false } := by
    intro t ht
    simp [FileManager.markFileAsSaved, FileManager.obj_modifyObj_self _ _ _ ht]
  have hl : f < (s.markFileAsSaved f).heap.length := by
    simpa [FileManager.markFileAsSaved, FileManager.emit] using hf
  have hu : f < (s.updateFileContent f c now).heap.length := by
    simpa [FileManager.updateFileContent, FileManager.emit] using hf
  refine ⟨h1 s hf, ?_, ?_, ?_, ?_⟩
  · rw [h1 _ hl, h1 s hf]
  · rw [h1 _ hl]
  · rw [h1 _ hu]
  · rw [h1 _ hu]
    simp [FileManager.updateFileContent, FileManager.obj_modifyObj_self, hf]

/-- The hypothesis of `markFileAsSaved_idempotent` holds for the file `note.txt` of the search
scenario. -/
theorem markFileAsSaved_idempotent_witness :
    1 < searchScenario.heap.length ∧
    ((searchScenario.markFileAsSaved 1).obj 1 =
        { searchScenario.obj 1 with isModified := false } ∧
      ((searchScenario.markFileAsSaved 1).markFileAsSaved 1).obj 1 =
        (searchScenario.markFileAsSaved 1).obj 1 ∧
      (((searchScenario.markFileAsSaved 1).markFileAsSaved 1).obj 1).isModified = false ∧
      (((searchScenario.updateFileContent 1 "x" 7).markFileAsSaved 1).obj 1).isModified = false ∧
      (((searchScenario.updateFileContent 1 "x" 7).markFileAsSaved 1).obj 1).content = "x") :=
  ⟨by decide, markFileAsSaved_idempotent searchScenario 1 "x" 7 (by decide)⟩

/-! ## Search -/

theorem includesChars_iff (hay needle : List Char) :
    includesChars hay needle = true ↔ needle <:+: hay := by
  induction hay with
  | nil => simp [includesChars, List.isEmpty_iff]
  | cons c rest ih =>
    rw [includesChars, Bool.or_eq_true, ih, List.infix_cons_iff, List.isPrefixOf_iff_prefix]

theorem jsIncludes_iff (hay needle : String) :
    jsIncludes hay needle = true ↔ needle.data <:+: hay.data :=
  includesChars_iff _ _

namespace FileManager

theorem jsFilter_of_total (p : Ref → Option Bool) (f : Ref → Bool) (l : List Ref)
    (h : ∀ x ∈ l, p x = some (f x)) : jsFilter p l = some (l.filter f) := by
  induction l with
  | nil => rfl
  | cons x rest ih =>
    rw [jsFilter, h x (List.mem_cons_self _ _),
      ih (fun y hy => h y (List.mem_cons_of_mem _ hy))]
    cases hf : f x <;> simp [List.filter, hf]

theorem jsFilter_of_throw (p : Ref → Option Bool) (l : List Ref)
    (h : ∃ x ∈ l, p x = none) : jsFilter p l = none := by
  induction l with
  | nil =>
    obtain ⟨x, hx, _⟩ := h
    cases hx
  | cons x rest ih =>
    rw [jsFilter]
    cases hp : p x with
    | none => rfl
    | some keep =>
      obtain ⟨y, hy, hpy⟩ := h
      rcases List.mem_cons.mp hy with e | hy'
      · rw [e, hp] at hpy
        cases hpy
      · simp only []
        rw [ih ⟨y, hy', hpy⟩]
        rfl

end FileManager

/-- C9, as amended: on a store in which every stored file has a content, `searchFiles(q)`
returns the sequence `getFiles()` restricted, in storage order, to the files whose lower-cased
name or lower-cased content has the lower-cased query as a contiguous block; in the scenario of
`Hint.txt` and `note.txt` the query `hi` returns both, in that order.  In general the call
returns that sequence when every stored file without content has a matching name, and throws
otherwise; whatever it returns is a subsequence of `getFiles()` made of the matching files. -/
theorem searchFiles_eq_filter (toLowerCase : String → String) (s : FileManager) (q : String) :
    ((∀ file ∈ s.getFiles, (s.obj file).contentMissing = false) →
      s.searchFiles toLowerCase q =
        some (s.getFiles.filter (fun file => decide
          ((toLowerCase q).data <:+: (toLowerCase (s.obj file).name).data ∨
           (toLowerCase q).data <:+: (toLowerCase (s.obj file).content).data)))) ∧
    s.searchFiles toLowerCase q =
      (if ∀ file ∈ s.getFiles, (s.obj file).contentMissing = true →
          (toLowerCase q).data <:+: (toLowerCase (s.obj file).name).data then
        some (s.getFiles.filter (fun file => decide
          ((toLowerCase q).data <:+: (toLowerCase (s.obj file).name).data ∨
           ((s.obj file).contentMissing = false ∧
            (toLowerCase q).data <:+: (toLowerCase (s.obj file).content).data))))
      else none) ∧
    (∀ found, s.searchFiles toLowerCase q = some found →
      found.Sublist s.getFiles ∧
      ∀ file, file ∈ found ↔
        file ∈ s.getFiles ∧
          ((toLowerCase q).data <:+: (toLowerCase (s.obj file).name).data ∨
           ((s.obj file).contentMissing = false ∧
            (toLowerCase q).data <:+: (toLowerCase (s.obj file).content).data))) ∧
    searchScenario.searchFiles asciiLower "hi" = some [0, 1] := by
  have hgen : s.searchFiles toLowerCase q =
      (if ∀ file ∈ s.getFiles, (s.obj file).contentMissing = true →
          (toLowerCase q).data <:+: (toLowerCase (s.obj file).name).data then
        some (s.getFiles.filter (fun file => decide
          ((toLowerCase q).data <:+: (toLowerCase (s.obj file).name).data ∨
           ((s.obj file).contentMissing = false ∧
            (toLowerCase q).data <:+: (toLowerCase (s.obj file).content).data))))
      else none) := by
    unfold FileManager.searchFiles
    dsimp only
    split
    · rename_i hall
      apply FileManager.jsFilter_of_total
      intro x hx
      by_cases hn : jsIncludes (toLowerCase (s.obj x).name) (toLowerCase q) = true
      · rw [if_pos hn]
        simp [(jsIncludes_iff _ _).mp hn]
      · rw [if_neg hn]
        have hn' : ¬ (toLowerCase q).data <:+: (toLowerCase (s.obj x).name).data :=
          fun h => hn ((jsIncludes_iff _ _).mpr h)
        have hm : (s.obj x).contentMissing = false := by
          cases hmx : (s.obj x).contentMissing
          · rfl
          · exact absurd (hall x hx hmx) hn'
        rw [hm]
        simp only [Bool.false_eq_true, if_false, Option.some.injEq]
        rw [Bool.eq_iff_iff]
        simp [jsIncludes_iff, hn']
    · rename_i hall
      push_neg at hall
      obtain ⟨x, hx, hmx, hn⟩ := hall
      apply FileManager.jsFilter_of_throw
      refine ⟨x, hx, ?_⟩
      have hn' : ¬ jsIncludes (toLowerCase (s.obj x).name) (toLowerCase q) = true :=
        fun h => hn ((jsIncludes_iff _ _).mp h)
      rw [if_neg hn', if_pos hmx]
  refine ⟨?_, hgen, ?_, by decide⟩
  · intro hall
    rw [hgen, if_pos (fun file hf hm => by rw [hall file hf] at hm; cases hm)]
    congr 1
    apply List.filter_congr
    intro file hf
    simp [hall file hf]
  · intro found hfound
    rw [hgen] at hfound
    split at hfound
    · cases hfound
      refine ⟨List.filter_sublist _, fun file => ?_⟩
      simp [List.mem_filter]
    · cases hfound

/-- C9, counterexample to the claim as stated: in the store constructed from a text with the
files `a.txt`, of content `abc`, and `b.txt`, without content, the content of `a.txt` contains
the query `abc`, and `searchFiles("abc")` throws instead of returning `a.txt`: the name `b.txt`
does not match and `b.txt` has no content to lower-case.  The query `txt`, which both names
contain, returns both files. -/
theorem searchFiles_throws_without_content :
    (FileManager.construct contentlessItem).toOption.map
        (fun s => (s.getFiles, (s.obj 0).content, (s.obj 1).contentMissing)) =
      some ([0, 1], "abc", true) ∧
    (FileManager.construct contentlessItem).toOption.map
        (fun s => s.searchFiles asciiLower "abc") = some none ∧
    (FileManager.construct contentlessItem).toOption.map
        (fun s => s.searchFiles asciiLower "txt") = some (some [0, 1]) :=
  ⟨by decide, by decide, by decide⟩

/-! ## Export and import -/

theorem IdMap.set_of_not_mem (m : IdMap) (k : String) (v : Ref)
    (h : k ∉ m.map Prod.fst) : IdMap.set m k v = m ++ [(k, v)] := by
  induction m with
  | nil => rfl
  | cons kv rest ih =>
    obtain ⟨k', v'⟩ := kv
    simp only [List.map_cons, List.mem_cons, not_or] at h
    have hne : ¬ k' = k := fun e => h.1 e.symm
    simp [IdMap.set, hne, ih h.2]

theorem importEntries_pairs (m acc : IdMap)
    (h : ((acc ++ m).map Prod.fst).Nodup) :
    importEntries (m.map fun kv => SnapshotEntry.pair kv.1 kv.2) acc = (acc ++ m, true) := by
  induction m generalizing acc with
  | nil => simp [importEntries]
  | cons kv rest ih =>
    have hk : kv.1 ∉ acc.map Prod.fst := by
      intro hmem
      rw [List.map_append, List.nodup_append] at h
      exact h.2.2 hmem (by simp)
    simp only [List.map_cons, importEntries]
    rw [IdMap.set_of_not_mem _ _ _ hk, ih]
    · simp
    · simpa using h

/-- C5: on a store whose two maps have pairwise distinct keys (as every `Map` has),
`importData(exportData())` returns `true` and leaves the heap objects, both maps with their
enumeration order, and `nextId` as they were; the only trace is the `dataImported` event. -/
theorem importData_exportData (s : FileManager) (now : Nat)
    (hfiles : (s.files.map Prod.fst).Nodup) (hfolders : (s.folders.map Prod.fst).Nodup) :
    s.importData (some (s.exportData now)) = (true, s.emit .dataImported) ∧
    (s.importData (some (s.exportData now))).2.getFiles = s.getFiles ∧
    (s.importData (some (s.exportData now))).2.getFolders = s.getFolders ∧
    (s.importData (some (s.exportData now))).2.files = s.files ∧
    (s.importData (some (s.exportData now))).2.folders = s.folders ∧
    (s.importData (some (s.exportData now))).2.nextId = s.nextId ∧
    ∀ r, (s.importData (some (s.exportData now))).2.obj r = s.obj r := by
  have key : s.importData (some (s.exportData now)) = (true, s.emit .dataImported) := by
    have h1 := importEntries_pairs s.files [] (by simpa using hfiles)
    have h2 := importEntries_pairs s.folders [] (by simpa using hfolders)
    simp only [List.nil_append] at h1 h2
    simp only [FileManager.importData, FileManager.exportData, importField, h1, h2]
    by_cases hn : s.nextId = 0 <;> simp [hn, FileManager.emit]
  rw [key]
  exact ⟨rfl, rfl, rfl, rfl, rfl, rfl, fun _ => rfl⟩

/-- The hypotheses of `importData_exportData` hold in the removal scenario (two files, two
folders, nested). -/
theorem importData_exportData_witness :
    (removalScenario.files.map Prod.fst).Nodup ∧
    (removalScenario.folders.map Prod.fst).Nodup ∧
    removalScenario.importData (some (removalScenario.exportData 500)) =
      (true, removalScenario.emit .dataImported) :=
  ⟨by decide, by decide,
    (importData_exportData removalScenario 500 (by decide) (by decide)).1⟩

/-! ## Decimal numerals -/

theorem digitChar_toNat (d : Nat) (h : d < 10) : (Nat.digitChar d).toNat - 48 = d := by
  interval_cases d <;> rfl

theorem foldl_toDigitsCore (fuel : Nat) : ∀ (n : Nat) (ds : List Char), n < fuel →
    (Nat.toDigitsCore 10 fuel n ds).foldl (fun a c => a * 10 + (c.toNat - 48)) 0 =
      ds.foldl (fun a c => a * 10 + (c.toNat - 48)) n := by
  induction fuel with
  | zero => intro n ds h; omega
  | succ fuel ih =>
    intro n ds h
    rw [Nat.toDigitsCore]
    by_cases h0 : n / 10 = 0
    · simp only [h0, if_true, List.foldl_cons, Nat.zero_mul, Nat.zero_add]
      rw [digitChar_toNat _ (Nat.mod_lt _ (by decide))]
      congr 1
      omega
    · simp only [h0, if_false]
      rw [ih _ _ (by omega), List.foldl_cons, digitChar_toNat _ (Nat.mod_lt _ (by decide))]
      congr 1
      omega

theorem toDigits_injective : Function.Injective (Nat.toDigits 10) := by
  intro n m h
  have hn := foldl_toDigitsCore (n + 1) n [] (by omega)
  have hm := foldl_toDigitsCore (m + 1) m [] (by omega)
  simp only [List.foldl_nil] at hn hm
  rw [← hn, ← hm]
  exact congrArg _ h

theorem toString_nat_injective {n m : Nat} (h : toString n = toString m) : n = m := by
  apply toDigits_injective
  have := congrArg String.data h
  simpa [toString, Nat.repr, List.asString] using this

theorem append_toString_injective (pre post : String) {n m : Nat}
    (h : pre ++ toString n ++ post = pre ++ toString m ++ post) : n = m := by
  apply toString_nat_injective
  have := congrArg String.data h
  simp only [String.data_append] at this
  have h1 := List.append_cancel_right this
  have h2 := List.append_cancel_left h1
  exact String.ext h2

/-! ## Splitting and joining -/

theorem splitChars_ne_nil (sep : Char) (cs cur : List Char) : splitChars sep cs cur ≠ [] := by
  induction cs generalizing cur with
  | nil => simp [splitChars]
  | cons c rest ih =>
    rw [splitChars]
    split
    · simp
    · exact ih _

theorem splitChars_of_not_mem (sep : Char) (cs cur : List Char) (h : sep ∉ cs) :
    splitChars sep cs cur = [cur.reverse ++ cs] := by
  induction cs generalizing cur with
  | nil => simp [splitChars]
  | cons c rest ih =>
    simp only [List.mem_cons, not_or] at h
    have hc : ¬ c = sep := fun e => h.1 e.symm
    rw [splitChars, if_neg hc, ih _ h.2]
    simp

theorem splitChars_append_sep (sep : Char) (xs ys cur : List Char) :
    splitChars sep (xs ++ sep :: ys) cur = splitChars sep xs cur ++ splitChars sep ys [] := by
  induction xs generalizing cur with
  | nil => simp [splitChars]
  | cons c rest ih =>
    by_cases hc : c = sep
    · simp [splitChars, hc, ih]
    · simp [splitChars, hc, ih]

theorem jsJoin_cons (p : String) (l : List String) (sep : String) (h : l ≠ []) :
    jsJoin (p :: l) sep = p ++ sep ++ jsJoin l sep := by
  cases l with
  | nil => exact absurd rfl h
  | cons q rest => rfl

theorem jsJoin_splitChars (sep : Char) (cs cur : List Char) :
    jsJoin ((splitChars sep cs cur).map String.mk) (String.singleton sep) =
      String.mk (cur.reverse ++ cs) := by
  induction cs generalizing cur with
  | nil => simp [splitChars, jsJoin]
  | cons c rest ih =>
    by_cases hc : c = sep
    · rw [splitChars, if_pos hc, List.map_cons,
        jsJoin_cons _ _ _ (by simpa using splitChars_ne_nil sep rest []), ih]
      apply String.ext
      simp [hc, String.singleton]
    · rw [splitChars, if_neg hc, ih]
      simp

theorem jsSplit_of_not_mem (b : String) (sep : Char) (h : sep ∉ b.data) :
    jsSplit b sep = [b] := by
  simp [jsSplit, splitChars_of_not_mem sep b.data [] h]

theorem jsSplit_append (stem ext : String) (sep : Char) (h : sep ∉ ext.data) :
    jsSplit (stem ++ String.singleton sep ++ ext) sep = jsSplit stem sep ++ [ext] := by
  have : (stem ++ String.singleton sep ++ ext).data = stem.data ++ sep :: ext.data := by
    simp [String.singleton]
  simp [jsSplit, this, splitChars_append_sep, splitChars_of_not_mem sep ext.data [] h]

theorem jsJoin_jsSplit (b : String) (sep : Char) :
    jsJoin (jsSplit b sep) (String.singleton sep) = b := by
  have := jsJoin_splitChars sep b.data []
  simpa [jsSplit] using this

theorem exists_last_dot (cs : List Char) (sep : Char) (h : sep ∈ cs) :
    ∃ xs ys, cs = xs ++ sep :: ys ∧ sep ∉ ys := by
  induction cs with
  | nil => simp at h
  | cons c rest ih =>
    by_cases hr : sep ∈ rest
    · obtain ⟨xs, ys, e, hy⟩ := ih hr
      exact ⟨c :: xs, ys, by simp [e], hy⟩
    · have hc : sep = c := by simpa [hr] using h
      exact ⟨[], rest, by simp [hc], hr⟩

namespace FileManager

theorem fileCandidate_of_no_dot (b : String) (n : Nat) (h : '.' ∉ b.data) :
    fileCandidate b n = b ++ " (" ++ toString n ++ ")" := by
  simp [fileCandidate, jsSplit_of_not_mem b '.' h]

theorem fileCandidate_of_dot (stem ext : String) (n : Nat) (h : '.' ∉ ext.data) :
    fileCandidate (stem ++ "." ++ ext) n = stem ++ " (" ++ toString n ++ ")." ++ ext := by
  have hs : jsSplit (stem ++ "." ++ ext) '.' = jsSplit stem '.' ++ [ext] :=
    jsSplit_append stem ext '.' h
  have hne : jsSplit stem '.' ≠ [] := by
    simpa [jsSplit] using splitChars_ne_nil '.' stem.data []
  have hlen : (jsSplit stem '.' ++ [ext]).length > 1 := by
    have := List.length_pos.mpr hne
    simp only [List.length_append, List.length_singleton]
    omega
  have hj : jsJoin (jsSplit stem '.') "." = stem := jsJoin_jsSplit stem '.'
  simp only [fileCandidate, hs, hlen, if_true, List.dropLast_concat, List.getLast?_append,
    List.getLast?_singleton, hj]
  rfl

theorem fileCandidate_shape (b : String) :
    ∃ pre post : String, ∀ n, fileCandidate b n = pre ++ toString n ++ post := by
  by_cases h : (jsSplit b '.').length > 1
  · refine ⟨jsJoin (jsSplit b '.').dropLast "." ++ " (",
      ")." ++ (jsSplit b '.').getLast?.getD "", fun n => ?_⟩
    simp [fileCandidate, h, String.append_assoc]
  · refine ⟨b ++ " (", ")", fun n => ?_⟩
    simp [fileCandidate, h]

theorem fileCandidate_injective (b : String) : Function.Injective (fileCandidate b) := by
  obtain ⟨pre, post, h⟩ := fileCandidate_shape b
  intro n m e
  rw [h n, h m] at e
  exact append_toString_injective pre post e

theorem folderCandidate_injective (b : String) : Function.Injective (folderCandidate b) := by
  intro n m e
  exact append_toString_injective (b ++ " (") ")" e

end FileManager

/-! ## The renaming loops -/

/-- A loop of the shape `while (taken(name)) { name = cand(counter); counter++; }` that finds
`cand (c + d)` free after `d` taken candidates returns it, given `d + 2` evaluations of the
condition. -/
theorem renamingLoop_finds (taken : String → Bool) (cand : Nat → String)
    (loop : Nat → Nat → String → Option String)
    (hloop : ∀ fuel c x, loop (fuel + 1) c x =
      if taken x then loop fuel (c + 1) (cand c) else some x) :
    ∀ (d c : Nat) (x : String) (fuel : Nat), taken x = true →
      (∀ m, c ≤ m → m < c + d → taken (cand m) = true) → taken (cand (c + d)) = false →
      d + 2 ≤ fuel → loop fuel c x = some (cand (c + d)) := by
  intro d
  induction d with
  | zero =>
    intro c x fuel hx _ hfree hfuel
    obtain ⟨f, rfl⟩ : ∃ f, fuel = f + 2 := ⟨fuel - 2, by omega⟩
    rw [hloop, if_pos hx, hloop]
    simp only [Nat.add_zero] at hfree
    simp [hfree]
  | succ d ih =>
    intro c x fuel hx hall hfree hfuel
    obtain ⟨f, rfl⟩ : ∃ f, fuel = f + 1 := ⟨fuel - 1, by omega⟩
    rw [hloop, if_pos hx]
    have := ih (c + 1) (cand c) f (hall c (le_refl _) (by omega))
      (fun m h1 h2 => hall m (by omega) (by omega))
      (by rw [show c + 1 + d = c + (d + 1) by omega]; exact hfree) (by omega)
    rw [this, show c + 1 + d = c + (d + 1) by omega]

/-- Among the candidates `1 .. k + 1` of an injective numbering, one is outside a list of `k`
names. -/
theorem exists_free_candidate (names : List String) (cand : Nat → String)
    (hinj : Function.Injective cand) :
    ∃ n, 1 ≤ n ∧ n ≤ names.length + 1 ∧ cand n ∉ names := by
  by_contra hcon
  push_neg at hcon
  have hsub : (List.range (names.length + 1)).map (fun i => cand (i + 1)) ⊆ names := by
    intro x hx
    obtain ⟨i, hi, rfl⟩ := List.mem_map.mp hx
    exact hcon (i + 1) (by omega) (by have := List.mem_range.mp hi; omega)
  have hnd : ((List.range (names.length + 1)).map (fun i => cand (i + 1))).Nodup :=
    (List.nodup_range _).map (fun a b e => by have := hinj e; omega)
  have := (hnd.subperm hsub).length_le
  simp at this

/-- The least free candidate of a renaming loop over a scope of `k` entries is found within
`k + 2` evaluations of the condition. -/
theorem renamingLoop_spec (taken : String → Bool) (cand : Nat → String)
    (loop : Nat → Nat → String → Option String) (names : List String)
    (hloop : ∀ fuel c x, loop (fuel + 1) c x =
      if taken x then loop fuel (c + 1) (cand c) else some x)
    (hnames : ∀ x, taken x = true → x ∈ names) (hinj : Function.Injective cand)
    (b : String) (fuel : Nat) (hfuel : names.length + 2 ≤ fuel) :
    (taken b = false → loop fuel 1 b = some b) ∧
    (taken b = true → ∃ n, 1 ≤ n ∧ n ≤ names.length + 1 ∧ loop fuel 1 b = some (cand n) ∧
      taken (cand n) = false ∧ ∀ m, 1 ≤ m → m < n → taken (cand m) = true) := by
  obtain ⟨f, rfl⟩ : ∃ f, fuel = f + 1 := ⟨fuel - 1, by omega⟩
  constructor
  · intro hb
    rw [hloop]
    simp [hb]
  · intro hb
    have hex : ∃ n, 1 ≤ n ∧ taken (cand n) = false := by
      obtain ⟨n, h1, _, h3⟩ := exists_free_candidate names cand hinj
      refine ⟨n, h1, ?_⟩
      cases h : taken (cand n)
      · rfl
      · exact absurd (hnames _ h) h3
    classical
    have hfind := Nat.find_spec hex
    have hmin : ∀ m, 1 ≤ m → m < Nat.find hex → taken (cand m) = true := by
      intro m h1 h2
      have := Nat.find_min hex h2
      cases h : taken (cand m)
      · exact absurd ⟨h1, h⟩ this
      · rfl
    have hle : Nat.find hex ≤ names.length + 1 := by
      obtain ⟨n, h1, h2, h3⟩ := exists_free_candidate names cand hinj
      refine le_trans (Nat.find_le ⟨h1, ?_⟩) h2
      cases h : taken (cand n)
      · rfl
      · exact absurd (hnames _ h) h3
    refine ⟨Nat.find hex, hfind.1, hle, ?_, hfind.2, hmin⟩
    have := renamingLoop_finds taken cand loop hloop (Nat.find hex - 1) 1 b (f + 1) hb
      (fun m h1 h2 => hmin m h1 (by omega))
      (by rw [show 1 + (Nat.find hex - 1) = Nat.find hex by omega]; exact hfind.2) (by omega)
    rw [this, show 1 + (Nat.find hex - 1) = Nat.find hex by omega]

/-- A renaming loop only ever returns a name that is not taken. -/
theorem renamingLoop_free (taken : String → Bool) (cand : Nat → String)
    (loop : Nat → Nat → String → Option String)
    (hzero : ∀ c x, loop 0 c x = none)
    (hloop : ∀ fuel c x, loop (fuel + 1) c x =
      if taken x then loop fuel (c + 1) (cand c) else some x) :
    ∀ (fuel c : Nat) (x r : String), loop fuel c x = some r → taken r = false := by
  intro fuel
  induction fuel with
  | zero => intro c x r h; simp [hzero] at h
  | succ fuel ih =>
    intro c x r h
    rw [hloop] at h
    by_cases hx : taken x = true
    · rw [if_pos hx] at h
      exact ih _ _ _ h
    · rw [if_neg hx] at h
      cases h
      simpa using hx

namespace FileManager

theorem fileNameExists_iff (s : FileManager) (x : String) (p : Option Ref) :
    s.fileNameExists x p = true ↔
      ∃ item ∈ s.fileScope p, (s.obj item).type = .file ∧ (s.obj item).name = x := by
  simp only [fileNameExists, List.any_eq_true, Bool.and_eq_true, decide_eq_true_eq]
  constructor
  · rintro ⟨item, h1, h2, h3⟩; exact ⟨item, h1, h3, h2⟩
  · rintro ⟨item, h1, h2, h3⟩; exact ⟨item, h1, h3, h2⟩

theorem folderNameExists_iff (s : FileManager) (x : String) (p : Option Ref) :
    s.folderNameExists x p = true ↔
      ∃ item ∈ s.folderScope p, (s.obj item).type = .folder ∧ (s.obj item).name = x := by
  simp only [folderNameExists, List.any_eq_true, Bool.and_eq_true, decide_eq_true_eq]
  constructor
  · rintro ⟨item, h1, h2, h3⟩; exact ⟨item, h1, h3, h2⟩
  · rintro ⟨item, h1, h2, h3⟩; exact ⟨item, h1, h3, h2⟩

theorem fileNameExists_mem_names (s : FileManager) (p : Option Ref) (x : String)
    (h : s.fileNameExists x p = true) : x ∈ (s.fileScope p).map (fun item => (s.obj item).name) := by
  obtain ⟨item, h1, _, h3⟩ := (fileNameExists_iff s x p).mp h
  exact List.mem_map.mpr ⟨item, h1, h3⟩

theorem folderNameExists_mem_names (s : FileManager) (p : Option Ref) (x : String)
    (h : s.folderNameExists x p = true) :
    x ∈ (s.folderScope p).map (fun item => (s.obj item).name) := by
  obtain ⟨item, h1, _, h3⟩ := (folderNameExists_iff s x p).mp h
  exact List.mem_map.mpr ⟨item, h1, h3⟩

end FileManager

/-! ## Unique names -/

/-- C7: with enough evaluations of the loop condition for the size of the scope,
`generateUniqueFileName(b, p)` returns `b` when no sibling file is named `b`, and otherwise the
candidate of the least counter `n >= 1` that no sibling file is named after; the candidate of
`n` is `b + " (n)"` when `b` has no `.`, and `stem + " (n)." + ext` when `b` is
`stem + "." + ext` with no `.` in `ext`. -/
theorem generateUniqueFileName_least (s : FileManager) (b : String) (p : Option Ref)
    (fuel : Nat) (hfuel : (s.fileScope p).length + 2 ≤ fuel) :
    (∀ x, s.fileNameExists x p = true ↔
      ∃ item ∈ s.fileScope p, (s.obj item).type = .file ∧ (s.obj item).name = x) ∧
    (s.fileNameExists b p = false → s.generateUniqueFileName fuel b p = some b) ∧
    (s.fileNameExists b p = true →
      ∃ n, 1 ≤ n ∧ s.generateUniqueFileName fuel b p = some (FileManager.fileCandidate b n) ∧
        s.fileNameExists (FileManager.fileCandidate b n) p = false ∧
        ∀ m, 1 ≤ m → m < n → s.fileNameExists (FileManager.fileCandidate b m) p = true) ∧
    ('.' ∉ b.data → ∀ n, FileManager.fileCandidate b n = b ++ " (" ++ toString n ++ ")") ∧
    ('.' ∈ b.data → ∃ stem ext : String, b = stem ++ "." ++ ext ∧ '.' ∉ ext.data ∧
      ∀ n, FileManager.fileCandidate b n = stem ++ " (" ++ toString n ++ ")." ++ ext) := by
  have hspec := renamingLoop_spec (fun x => s.fileNameExists x p) (FileManager.fileCandidate b)
    (s.generateUniqueFileNameLoop b p) ((s.fileScope p).map (fun item => (s.obj item).name))
    (fun _ _ _ => rfl) (fun x h => s.fileNameExists_mem_names p x h)
    (FileManager.fileCandidate_injective b) b fuel (by simpa using hfuel)
  refine ⟨fun x => s.fileNameExists_iff x p, hspec.1, ?_, ?_, ?_⟩
  · intro hb
    obtain ⟨n, h1, _, h3, h4, h5⟩ := hspec.2 hb
    exact ⟨n, h1, h3, h4, h5⟩
  · intro h n
    exact FileManager.fileCandidate_of_no_dot b n h
  · intro h
    obtain ⟨xs, ys, e, hy⟩ := exists_last_dot b.data '.' h
    have hb : b = String.mk xs ++ "." ++ String.mk ys := by
      apply String.ext
      simp [e]
    refine ⟨String.mk xs, String.mk ys, hb, hy, fun n => ?_⟩
    rw [hb]
    exact FileManager.fileCandidate_of_dot _ _ n hy

/-- The naming scenario satisfies the hypothesis of `generateUniqueFileName_least` with five
evaluations; with `a.txt` and `a (1).txt` present the result is `a (2).txt`. -/
theorem generateUniqueFileName_least_witness :
    (namingScenario.fileScope (some 0)).length + 2 ≤ 5 ∧
    (namingScenario.fileNameExists "a.txt" (some 0) = true →
      ∃ n, 1 ≤ n ∧ namingScenario.generateUniqueFileName 5 "a.txt" (some 0) =
          some (FileManager.fileCandidate "a.txt" n) ∧
        namingScenario.fileNameExists (FileManager.fileCandidate "a.txt" n) (some 0) = false ∧
        ∀ m, 1 ≤ m → m < n →
          namingScenario.fileNameExists (FileManager.fileCandidate "a.txt" m) (some 0) = true) ∧
    namingScenario.generateUniqueFileName 5 "a.txt" (some 0) = some "a (2).txt" :=
  ⟨by decide,
    (generateUniqueFileName_least namingScenario "a.txt" (some 0) 5 (by decide)).2.2.1,
    by decide⟩

/-- C8: with enough evaluations of the loop condition for the size of the scope, both
generators return a name, and a name returned by either (whatever the bound) does not collide:
`fileNameExists`, respectively `folderNameExists`, is false for it in the same scope. -/
theorem generateUnique_never_collides (s : FileManager) (b : String) (p : Option Ref)
    (fuel : Nat) (hfile : (s.fileScope p).length + 2 ≤ fuel)
    (hfolder : (s.folderScope p).length + 2 ≤ fuel) :
    (∃ r, s.generateUniqueFileName fuel b p = some r ∧ s.fileNameExists r p = false) ∧
    (∃ r, s.generateUniqueFolderName fuel b p = some r ∧ s.folderNameExists r p = false) ∧
    (∀ fuel' r, s.generateUniqueFileName fuel' b p = some r → s.fileNameExists r p = false) ∧
    (∀ fuel' r, s.generateUniqueFolderName fuel' b p = some r →
      s.folderNameExists r p = false) := by
  have hfree1 := renamingLoop_free (fun x => s.fileNameExists x p) (FileManager.fileCandidate b)
    (s.generateUniqueFileNameLoop b p) (fun _ _ => rfl) (fun _ _ _ => rfl)
  have hfree2 := renamingLoop_free (fun x => s.folderNameExists x p)
    (FileManager.folderCandidate b) (s.generateUniqueFolderNameLoop b p) (fun _ _ => rfl)
    (fun _ _ _ => rfl)
  have hspec1 := renamingLoop_spec (fun x => s.fileNameExists x p) (FileManager.fileCandidate b)
    (s.generateUniqueFileNameLoop b p) ((s.fileScope p).map (fun item => (s.obj item).name))
    (fun _ _ _ => rfl) (fun x h => s.fileNameExists_mem_names p x h)
    (FileManager.fileCandidate_injective b) b fuel (by simpa using hfile)
  have hspec2 := renamingLoop_spec (fun x => s.folderNameExists x p)
    (FileManager.folderCandidate b) (s.generateUniqueFolderNameLoop b p)
    ((s.folderScope p).map (fun item => (s.obj item).name))
    (fun _ _ _ => rfl) (fun x h => s.folderNameExists_mem_names p x h)
    (FileManager.folderCandidate_injective b) b fuel (by simpa using hfolder)
  refine ⟨?_, ?_, fun fuel' r h => hfree1 fuel' 1 b r h, fun fuel' r h => hfree2 fuel' 1 b r h⟩
  · cases hb : s.fileNameExists b p
    · exact ⟨b, hspec1.1 hb, hb⟩
    · obtain ⟨n, _, _, h3, h4, _⟩ := hspec1.2 hb
      exact ⟨_, h3, h4⟩
  · cases hb : s.folderNameExists b p
    · exact ⟨b, hspec2.1 hb, hb⟩
    · obtain ⟨n, _, _, h3, h4, _⟩ := hspec2.2 hb
      exact ⟨_, h3, h4⟩

/-- The naming scenario satisfies the hypotheses of `generateUnique_never_collides` with five
evaluations; the file name found for `a.txt` and the folder name found for `lib`, which is
`lib (1)`, do not collide. -/
theorem generateUnique_never_collides_witness :
    (namingScenario.fileScope (some 0)).length + 2 ≤ 5 ∧
    (namingScenario.folderScope (some 0)).length + 2 ≤ 5 ∧
    (∃ r, namingScenario.generateUniqueFileName 5 "a.txt" (some 0) = some r ∧
      namingScenario.fileNameExists r (some 0) = false) ∧
    (∃ r, namingScenario.generateUniqueFolderName 5 "lib" (some 0) = some r ∧
      namingScenario.folderNameExists r (some 0) = false) ∧
    namingScenario.generateUniqueFolderName 5 "lib" (some 0) = some "lib (1)" :=
  ⟨by decide, by decide,
    (generateUnique_never_collides namingScenario "a.txt" (some 0) 5 (by decide) (by decide)).1,
    (generateUnique_never_collides namingScenario "lib" (some 0) 5 (by decide) (by decide)).2.1,
    by decide⟩

/-! ## Removal of a file -/

namespace FileManager

theorem modifyObj_congr (s : FileManager) (p : Ref) (f g : Entity → Entity)
    (h : p < s.heap.length → f (s.obj p) = g (s.obj p)) : s.modifyObj p f = s.modifyObj p g := by
  have : s.heap.modify f p = s.heap.modify g p := by
    apply List.ext_getElem?
    intro i
    rw [List.getElem?_modify, List.getElem?_modify]
    by_cases hi : p = i
    · subst hi
      by_cases hp : p < s.heap.length
      · have := h hp
        simp only [obj, List.getElem?_eq_getElem hp, Option.getD_some] at this
        simp [List.getElem?_eq_getElem hp, this]
      · simp [List.getElem?_eq_none (Nat.le_of_not_lt hp)]
    · simp [hi]
  simp [modifyObj, this]

theorem modifyObj_of_fixed (s : FileManager) (p : Ref) (f : Entity → Entity)
    (h : p < s.heap.length → f (s.obj p) = s.obj p) : s.modifyObj p f = s := by
  rw [modifyObj_congr s p f id h]
  simp [modifyObj]

theorem obj_of_not_live (s : FileManager) (r : Ref) (h : ¬ r < s.heap.length) :
    s.obj r = Entity.absent := by
  simp [obj, List.getElem?_eq_none (Nat.le_of_not_lt h)]

/-- The detachment block removes the first occurrence of `x` from the `children` of its
parent. -/
theorem detach_eq (s : FileManager) (x : Ref) :
    s.detach x = match s.parentOf x with
      | some p => s.modifyObj p (fun e => { e with children := e.children.erase x })
      | none => s := by
  unfold detach
  cases hp : s.parentOf x with
  | none => rfl
  | some p =>
    simp only
    split
    · apply modifyObj_congr
      intro _
      simp [children, List.eraseIdx_indexOf_eq_erase]
    · rename_i hlt
      symm
      apply modifyObj_of_fixed
      intro _
      have hnot : x ∉ s.children p := fun hm => hlt (List.indexOf_lt_length.mpr hm)
      have : (s.obj p).children.erase x = (s.obj p).children := List.erase_of_not_mem hnot
      rw [this]

@[simp] theorem detach_files (s : FileManager) (x : Ref) : (s.detach x).files = s.files := by
  rw [detach_eq]; split <;> rfl

@[simp] theorem detach_folders (s : FileManager) (x : Ref) :
    (s.detach x).folders = s.folders := by
  rw [detach_eq]; split <;> rfl

@[simp] theorem detach_nextId (s : FileManager) (x : Ref) : (s.detach x).nextId = s.nextId := by
  rw [detach_eq]; split <;> rfl

@[simp] theorem detach_emitted (s : FileManager) (x : Ref) :
    (s.detach x).emitted = s.emitted := by
  rw [detach_eq]; split <;> rfl

@[simp] theorem detach_heap_length (s : FileManager) (x : Ref) :
    (s.detach x).heap.length = s.heap.length := by
  rw [detach_eq]; split <;> simp

theorem detach_obj_of_ne (s : FileManager) (x r : Ref) (h : s.parentOf x ≠ some r) :
    (s.detach x).obj r = s.obj r := by
  rw [detach_eq]
  split
  · rename_i p hp
    exact obj_modifyObj_of_ne _ _ (fun e => h (by rw [hp, e]))
  · rfl

theorem detach_obj_parent (s : FileManager) (x p : Ref) (h : s.parentOf x = some p) :
    (s.detach x).obj p = { s.obj p with children := (s.children p).erase x } := by
  rw [detach_eq, h]
  by_cases hp : p < s.heap.length
  · simp [obj_modifyObj_self _ _ _ hp, children]
  · simp only [modifyObj_of_fixed s p _ (fun h' => absurd h' hp)]
    simp [children, obj_of_not_live s p hp, Entity.absent]

theorem IdMap_get_delete (m : IdMap) (k : String) : IdMap.get (IdMap.delete m k) k = none := by
  induction m with
  | nil => rfl
  | cons kv rest ih =>
    obtain ⟨k', v⟩ := kv
    by_cases h : k' = k
    · simpa [IdMap.delete, List.filter_cons, h] using ih
    · simpa [IdMap.delete, List.filter_cons, h, IdMap.get] using ih

theorem IdMap_get_of_mem (m : IdMap) (k : String) (v : Ref)
    (hnd : (m.map Prod.fst).Nodup) (h : (k, v) ∈ m) : IdMap.get m k = some v := by
  induction m with
  | nil => simp at h
  | cons kv rest ih =>
    obtain ⟨k', v'⟩ := kv
    simp only [List.map_cons, List.nodup_cons] at hnd
    rcases List.mem_cons.mp h with e | hmem
    · cases e; simp [IdMap.get]
    · have hne : ¬ k' = k := by
        rintro rfl
        exact hnd.1 (List.mem_map.mpr ⟨(k', v), hmem, rfl⟩)
      simp [IdMap.get, hne, ih hnd.2 hmem]

theorem IdMap_delete_keys_nodup (m : IdMap) (k : String) (hnd : (m.map Prod.fst).Nodup) :
    ((IdMap.delete m k).map Prod.fst).Nodup :=
  (List.filter_sublist _).map Prod.fst |>.nodup hnd

/-- In a well-formed store the entry of a stored file is the only one under its id. -/
theorem WellFormed.file_key_iff {s : FileManager} (hwf : s.WellFormed) {f : Ref}
    (hf : f ∈ s.getFiles) {kv : String × Ref} (hkv : kv ∈ s.files) :
    kv.1 ≠ (s.obj f).id ↔ kv.2 ≠ f := by
  obtain ⟨kf, hkf, rfl⟩ := List.mem_map.mp hf
  have h1 := (hwf.files_ok kf hkf).2.1
  have h2 := (hwf.files_ok kv hkv).2.1
  constructor
  · intro hne e
    apply hne
    rw [← h2, e]
  · intro hne e
    apply hne
    have hk : kv.1 = kf.1 := by rw [e, h1]
    have := List.inj_on_of_nodup_map hwf.files_keys hkv hkf hk
    rw [this]

end FileManager

namespace FileManager

theorem removeFile_eq (s : FileManager) (f : Ref) (h : s.parentOf f ≠ some f) :
    s.removeFile f =
      { s.detach f with
        files := IdMap.delete s.files (s.obj f).id
        emitted := s.emitted ++ [.fileRemoved f] } := by
  simp [removeFile, emit, detach_obj_of_ne s f f h]

/-- A stored file of a well-formed store is not its own parent. -/
theorem WellFormed.file_parent_ne {s : FileManager} (hwf : s.WellFormed) {f : Ref}
    (hf : f ∈ s.getFiles) {g : Ref} (hg : g ∈ s.getFiles) : s.parentOf f ≠ some g := by
  obtain ⟨kf, hkf, rfl⟩ := List.mem_map.mp hf
  obtain ⟨kg, hkg, rfl⟩ := List.mem_map.mp hg
  intro hp
  have h1 := (hwf.parent_ok kf (List.mem_append_left _ hkf) kg.2 hp).2.1
  have h2 := (hwf.files_ok kg hkg).2.2
  rw [h2] at h1
  cases h1

end FileManager

/-- C10: in a well-formed store, after `removeFile(f)` of a stored file `f`: `getFile(f.id)`
finds nothing and `f` is no longer enumerated; `f` does not occur in the children of its former
parent, whose other children keep their order and whose other fields are unchanged; the other
stored files are still stored, in the same order, under their ids and with the same fields; the
folders map, every record other than the former parent, and `nextId` are unchanged. -/
theorem removeFile_frame (s : FileManager) (f : Ref) (hwf : s.WellFormed)
    (hf : f ∈ s.getFiles) :
    (s.removeFile f).getFile (s.obj f).id = none ∧
    f ∉ (s.removeFile f).getFiles ∧
    (∀ p, s.parentOf f = some p →
      f ∉ (s.removeFile f).children p ∧
      (s.removeFile f).children p = (s.children p).filter (fun c => c != f) ∧
      (s.removeFile f).obj p = { s.obj p with children := (s.removeFile f).children p }) ∧
    (s.removeFile f).files = s.files.filter (fun kv => kv.2 != f) ∧
    (∀ g ∈ s.getFiles, g ≠ f →
      g ∈ (s.removeFile f).getFiles ∧ (s.removeFile f).getFile (s.obj g).id = some g ∧
      (s.removeFile f).obj g = s.obj g) ∧
    (s.removeFile f).folders = s.folders ∧
    (∀ r, s.parentOf f ≠ some r → (s.removeFile f).obj r = s.obj r) ∧
    (s.removeFile f).nextId = s.nextId ∧
    (s.removeFile f).heap.length = s.heap.length := by
  have hself : s.parentOf f ≠ some f := hwf.file_parent_ne hf hf
  have hfiles : (s.removeFile f).files = s.files.filter (fun kv => kv.2 != f) := by
    rw [FileManager.removeFile_eq s f hself]
    show IdMap.delete s.files (s.obj f).id = _
    unfold IdMap.delete
    apply List.filter_congr
    intro kv hkv
    rw [Bool.eq_iff_iff]
    simpa using hwf.file_key_iff hf hkv
  have hobj : ∀ r, (s.removeFile f).obj r = (s.detach f).obj r := by
    intro r; rw [FileManager.removeFile_eq s f hself]; rfl
  have hget : ∀ k, (s.removeFile f).getFile k = IdMap.get (IdMap.delete s.files (s.obj f).id) k := by
    intro k; rw [FileManager.removeFile_eq s f hself]; rfl
  refine ⟨?_, ?_, ?_, hfiles, ?_, ?_, ?_, ?_, ?_⟩
  · rw [hget]; exact FileManager.IdMap_get_delete _ _
  · simp [FileManager.getFiles, hfiles]
  · intro p hp
    have hc : (s.removeFile f).children p = (s.children p).erase f := by
      simp [FileManager.children, hobj, FileManager.detach_obj_parent s f p hp]
    obtain ⟨kf, hkf, rfl⟩ := List.mem_map.mp hf
    have hlive := (hwf.parent_ok kf (List.mem_append_left _ hkf) p hp).1
    have hnd := hwf.children_nodup p hlive
    refine ⟨?_, ?_, ?_⟩
    · rw [hc]; exact hnd.not_mem_erase
    · rw [hc]; exact hnd.erase_eq_filter _
    · rw [hc, hobj, FileManager.detach_obj_parent s kf.2 p hp]
  · intro g hg hne
    have hgp : s.parentOf f ≠ some g := hwf.file_parent_ne hf hg
    obtain ⟨kg, hkg, rfl⟩ := List.mem_map.mp hg
    have hmem : kg ∈ (s.removeFile f).files := by
      rw [hfiles]
      exact List.mem_filter.mpr ⟨hkg, by simpa using hne⟩
    refine ⟨List.mem_map.mpr ⟨kg, hmem, rfl⟩, ?_, ?_⟩
    · rw [hget]
      apply FileManager.IdMap_get_of_mem _ _ _
        (FileManager.IdMap_delete_keys_nodup _ _ hwf.files_keys)
      rw [(hwf.files_ok kg hkg).2.1]
      rw [hfiles] at hmem
      unfold IdMap.delete
      refine List.mem_filter.mpr ⟨hkg, ?_⟩
      simpa using (hwf.file_key_iff hf hkg).mpr hne
    · rw [hobj]; exact FileManager.detach_obj_of_ne s f kg.2 hgp
  · rw [FileManager.removeFile_eq s f hself]; simp
  · intro r hr
    rw [hobj]; exact FileManager.detach_obj_of_ne s f r hr
  · rw [FileManager.removeFile_eq s f hself]; simp
  · rw [FileManager.removeFile_eq s f hself]; simp

theorem removalScenario_wellFormed : removalScenario.WellFormed :=
  ⟨by decide, by decide, by decide, by decide, by decide, by decide, by decide, by decide⟩

theorem removalScenario_acyclic : removalScenario.Acyclic (fun r => 4 - r) := by
  unfold FileManager.Acyclic
  decide

/-- The removal scenario is well formed and `x.js` (reference `1`) is stored in it; removing it
leaves `a` with the single child `b`. -/
theorem removeFile_frame_witness :
    removalScenario.WellFormed ∧ 1 ∈ removalScenario.getFiles ∧
    (removalScenario.removeFile 1).getFile (removalScenario.obj 1).id = none ∧
    (removalScenario.removeFile 1).children 0 = [2] :=
  ⟨removalScenario_wellFormed, by decide,
    (removeFile_frame removalScenario 1 removalScenario_wellFormed (by decide)).1, by decide⟩

/-! ## Moving a file -/

namespace FileManager

@[simp] theorem attach_files (s : FileManager) (x : Ref) (t : Option Ref) :
    (s.attach x t).files = s.files := by
  cases t <;> rfl

@[simp] theorem attach_folders (s : FileManager) (x : Ref) (t : Option Ref) :
    (s.attach x t).folders = s.folders := by
  cases t <;> rfl

@[simp] theorem attach_nextId (s : FileManager) (x : Ref) (t : Option Ref) :
    (s.attach x t).nextId = s.nextId := by
  cases t <;> rfl

@[simp] theorem attach_emitted (s : FileManager) (x : Ref) (t : Option Ref) :
    (s.attach x t).emitted = s.emitted := by
  cases t <;> rfl

@[simp] theorem attach_heap_length (s : FileManager) (x : Ref) (t : Option Ref) :
    (s.attach x t).heap.length = s.heap.length := by
  cases t <;> simp [attach, pushChild]

theorem attach_none_obj (s : FileManager) (x r : Ref) (hx : x < s.heap.length) :
    (s.attach x none).obj r =
      if x = r then { s.obj x with parent := none, path := (s.obj x).name } else s.obj r := by
  by_cases e : x = r
  · subst e
    simp [attach, obj_modifyObj_self, hx]
  · simp [attach, obj_modifyObj_of_ne _ _ e, e]

theorem attach_some_obj (s : FileManager) (x t r : Ref) (hx : x < s.heap.length)
    (ht : t < s.heap.length) (hne : t ≠ x) :
    (s.attach x (some t)).obj r =
      if r = x then
        { s.obj x with parent := some t, path := (s.obj t).path ++ "/" ++ (s.obj x).name }
      else if r = t then { s.obj t with children := (s.obj t).children ++ [x] }
      else s.obj r := by
  have hne' : x ≠ t := fun e => hne e.symm
  by_cases e : r = x
  · subst e
    simp [attach, pushChild, obj_modifyObj_self, obj_modifyObj_of_ne _ _ hne,
      obj_modifyObj_of_ne _ _ hne', hx, ht]
  · have e' : x ≠ r := fun h => e h.symm
    by_cases e2 : r = t
    · subst e2
      simp [attach, pushChild, obj_modifyObj_self, obj_modifyObj_of_ne _ _ e', hx, ht, e]
    · have e2' : t ≠ r := fun h => e2 h.symm
      simp [attach, pushChild, obj_modifyObj_of_ne _ _ e', obj_modifyObj_of_ne _ _ e2', e, e2]

theorem moveFile_obj (s : FileManager) (f : Ref) (t : Option Ref) (r : Ref) :
    (s.moveFile f t).obj r = ((s.detach f).attach f t).obj r := rfl

end FileManager

namespace FileManager

theorem WellFormed.file_facts {s : FileManager} (hwf : s.WellFormed) {f : Ref}
    (hf : f ∈ s.getFiles) :
    f < s.heap.length ∧ (s.obj f).type = .file ∧ (s.obj f).id ∈ s.files.map Prod.fst ∧
      ((s.obj f).id, f) ∈ s.files ∧
      ∀ p, s.parentOf f = some p →
        p < s.heap.length ∧ (s.obj p).type = .folder ∧ f ∈ s.children p := by
  obtain ⟨kf, hkf, rfl⟩ := List.mem_map.mp hf
  obtain ⟨h1, h2, h3⟩ := hwf.files_ok kf hkf
  refine ⟨h1, h3, List.mem_map.mpr ⟨kf, hkf, h2.symm⟩, by rw [h2]; exact hkf, fun p hp => ?_⟩
  exact hwf.parent_ok kf (List.mem_append_left _ hkf) p hp

theorem WellFormed.folder_facts {s : FileManager} (hwf : s.WellFormed) {t : Ref}
    (ht : t ∈ s.getFolders) :
    t < s.heap.length ∧ (s.obj t).type = .folder ∧ ((s.obj t).id, t) ∈ s.folders ∧
      ∀ p, s.parentOf t = some p →
        p < s.heap.length ∧ (s.obj p).type = .folder ∧ t ∈ s.children p := by
  obtain ⟨kt, hkt, rfl⟩ := List.mem_map.mp ht
  obtain ⟨h1, h2, h3⟩ := hwf.folders_ok kt hkt
  refine ⟨h1, h3, by rw [h2]; exact hkt, fun p hp => ?_⟩
  exact hwf.parent_ok kt (List.mem_append_right _ hkt) p hp

/-- The children of a record after the detachment of `x`, in a well-formed store. -/
theorem WellFormed.detach_children {s : FileManager} (hwf : s.WellFormed) (x r : Ref)
    (hr : r < s.heap.length) :
    (s.detach x).children r = (s.children r).filter (fun c => c != x) := by
  by_cases hp : s.parentOf x = some r
  · simp only [children, detach_obj_parent s x r hp]
    exact (hwf.children_nodup r hr).erase_eq_filter _
  · simp only [children, detach_obj_of_ne s x r hp]
    symm
    rw [List.filter_eq_self]
    intro c hc
    have : c ≠ x := by
      rintro rfl
      exact hp (hwf.children_ok r hr c hc).2
    simpa using this

end FileManager

/-- C4, as amended: in a well-formed store, after `moveFile(f, T)` of a stored file `f` to a
target `T` that is a stored folder or none, `f.parent` is `T` and `f.path` is
`T.path + "/" + f.name` (`f.name` when `T` is none) while every other field of `f` is as
before; when `T` is a folder its children are its former children without `f`, in their order,
followed by `f`; a former parent other than `T` no longer has `f` among its children; and the
files map is unchanged, so `f` is still stored under its id. -/
theorem moveFile_spec (s : FileManager) (f : Ref) (T : Option Ref) (hwf : s.WellFormed)
    (hf : f ∈ s.getFiles) (hT : ∀ t ∈ T, t ∈ s.getFolders) :
    (s.moveFile f T).obj f =
      { s.obj f with parent := T, path := (s.moveFile f T).pathUnder T (s.obj f).name } ∧
    (∀ t ∈ T, (s.moveFile f T).children t = (s.children t).filter (fun c => c != f) ++ [f] ∧
      ((s.moveFile f T).children t).getLast? = some f ∧
      (s.moveFile f T).obj t = { s.obj t with children := (s.moveFile f T).children t }) ∧
    (∀ p, s.parentOf f = some p → T ≠ some p →
      f ∉ (s.moveFile f T).children p ∧
      (s.moveFile f T).children p = (s.children p).filter (fun c => c != f)) ∧
    (s.moveFile f T).files = s.files ∧
    (s.moveFile f T).getFile (s.obj f).id = some f ∧
    f ∈ (s.moveFile f T).getFiles := by
  obtain ⟨hlive, htype, _, hmem, hpar⟩ := hwf.file_facts hf
  have hlive1 : f < (s.detach f).heap.length := by simpa using hlive
  have hself : s.parentOf f ≠ some f := hwf.file_parent_ne hf hf
  have hf1 : (s.detach f).obj f = s.obj f := FileManager.detach_obj_of_ne s f f hself
  have hfiles : (s.moveFile f T).files = s.files := by simp [FileManager.moveFile, FileManager.emit]
  have hold : ∀ p, s.parentOf f = some p → T ≠ some p →
      (s.moveFile f T).children p = (s.children p).filter (fun c => c != f) := by
    intro p hp hTp
    have hpl := (hpar p hp).1
    have hpf : p ≠ f := fun e => hself (e ▸ hp)
    rw [← hwf.detach_children f p hpl]
    unfold FileManager.children
    rw [FileManager.moveFile_obj]
    cases T with
    | none => rw [FileManager.attach_none_obj _ _ _ hlive1, if_neg (fun e => hpf e.symm)]
    | some t =>
      obtain ⟨htl, htt, _⟩ := hwf.folder_facts (hT t rfl)
      have htf : t ≠ f := by rintro rfl; rw [htype] at htt; cases htt
      rw [FileManager.attach_some_obj _ _ _ _ hlive1 (by simpa using htl) htf, if_neg hpf,
        if_neg (fun e => hTp (by rw [e]))]
  refine ⟨?_, ?_, ?_, hfiles, ?_, ?_⟩
  · cases T with
    | none =>
      rw [FileManager.moveFile_obj, FileManager.attach_none_obj _ _ _ hlive1, if_pos rfl, hf1]
      rfl
    | some t =>
      obtain ⟨htl, htt, _⟩ := hwf.folder_facts (hT t rfl)
      have htf : t ≠ f := by rintro rfl; rw [htype] at htt; cases htt
      have htl1 : t < (s.detach f).heap.length := by simpa using htl
      rw [FileManager.moveFile_obj, FileManager.attach_some_obj _ _ _ _ hlive1 htl1 htf,
        if_pos rfl, hf1]
      simp only [FileManager.pathUnder, FileManager.moveFile_obj,
        FileManager.attach_some_obj _ _ _ _ hlive1 htl1 htf, if_neg htf, if_true]
  · intro t ht
    cases ht
    obtain ⟨htl, htt, _⟩ := hwf.folder_facts (hT t rfl)
    have htf : t ≠ f := by rintro rfl; rw [htype] at htt; cases htt
    have htl1 : t < (s.detach f).heap.length := by simpa using htl
    have hobj : (s.moveFile f (some t)).obj t =
        { (s.detach f).obj t with children := (s.detach f).children t ++ [f] } := by
      rw [FileManager.moveFile_obj, FileManager.attach_some_obj _ _ _ _ hlive1 htl1 htf,
        if_neg htf, if_pos rfl]
      rfl
    have hch : (s.moveFile f (some t)).children t =
        (s.children t).filter (fun c => c != f) ++ [f] := by
      rw [← hwf.detach_children f t htl]
      simp [FileManager.children, hobj]
    refine ⟨hch, by rw [hch]; simp, ?_⟩
    rw [hch, hobj, hwf.detach_children f t htl]
    by_cases hp : s.parentOf f = some t
    · rw [FileManager.detach_obj_parent s f t hp]
    · rw [FileManager.detach_obj_of_ne s f t hp]
  · intro p hp hTp
    rw [hold p hp hTp]
    exact ⟨by simp [List.mem_filter], rfl⟩
  · show IdMap.get (s.moveFile f T).files _ = _
    rw [hfiles]
    exact FileManager.IdMap_get_of_mem _ _ _ hwf.files_keys hmem
  · simpa [FileManager.getFiles, hfiles] using hf

theorem moveScenario_wellFormed : moveScenario.WellFormed :=
  ⟨by decide, by decide, by decide, by decide, by decide, by decide, by decide, by decide⟩

theorem pathScenario_wellFormed : pathScenario.WellFormed :=
  ⟨by decide, by decide, by decide, by decide, by decide, by decide, by decide, by decide⟩

/-- The move scenario satisfies the hypotheses of `moveFile_spec`; the root file `index.html`
moved into the root folder `src` has the path `src/index.html`. -/
theorem moveFile_spec_witness :
    moveScenario.WellFormed ∧ 0 ∈ moveScenario.getFiles ∧
    (∀ t ∈ some 1, t ∈ moveScenario.getFolders) ∧
    (moveScenario.moveFile 0 (some 1)).obj 0 =
      { moveScenario.obj 0 with
        parent := some 1
        path := (moveScenario.moveFile 0 (some 1)).pathUnder (some 1)
          (moveScenario.obj 0).name } ∧
    ((moveScenario.moveFile 0 (some 1)).obj 0).path = "src/index.html" :=
  ⟨moveScenario_wellFormed, by decide, by decide,
    (moveFile_spec moveScenario 0 (some 1) moveScenario_wellFormed (by decide) (by decide)).1,
    by decide⟩

/-- C4, counterexample to the claim as stated: in the path scenario the file `index.html` is
stored with the stored folder `src` as its parent, and after `moveFile(index.html, src)` it is
still among the children of that former parent. -/
theorem moveFile_same_parent_counterexample :
    pathScenario.WellFormed ∧ 1 ∈ pathScenario.getFiles ∧ 0 ∈ pathScenario.getFolders ∧
    pathScenario.parentOf 1 = some 0 ∧
    1 ∈ (pathScenario.moveFile 1 (some 0)).children 0 :=
  ⟨pathScenario_wellFormed, by decide, by decide, by decide, by decide⟩

/-! ## Recomputation of paths -/

namespace FileManager

theorem Desc.trans_child {s : FileManager} {a c d : Ref} (hc : c ∈ s.children a)
    (h : Desc s c d) : Desc s a d := by
  induction h with
  | child h => exact .step (.child hc) h
  | step _ h ih => exact .step ih h

theorem Desc.exists_child {s : FileManager} {a d : Ref} (h : Desc s a d) :
    ∃ c ∈ s.children a, d = c ∨ Desc s c d := by
  induction h with
  | child h => exact ⟨_, h, Or.inl rfl⟩
  | step _ h ih =>
    obtain ⟨c, hc, hd⟩ := ih
    rcases hd with rfl | hd
    · exact ⟨_, hc, Or.inr (.child h)⟩
    · exact ⟨c, hc, Or.inr (.step hd h)⟩

theorem Desc.exists_holder {s : FileManager} {a d : Ref} (h : Desc s a d) :
    ∃ q, (q = a ∨ Desc s a q) ∧ d ∈ s.children q := by
  cases h with
  | child h => exact ⟨a, Or.inl rfl, h⟩
  | step hp h => exact ⟨_, Or.inr hp, h⟩

theorem Desc.congr {s s' : FileManager} {a : Ref}
    (h : ∀ p, (p = a ∨ Desc s a p) → s'.children p = s.children p) {d : Ref} :
    Desc s' a d ↔ Desc s a d := by
  constructor
  · intro hd
    induction hd with
    | child hc => exact .child (by rwa [h a (Or.inl rfl)] at hc)
    | step _ hc ih => exact .step ih (by rwa [h _ (Or.inr ih)] at hc)
  · intro hd
    induction hd with
    | child hc => exact .child (by rwa [h a (Or.inl rfl)])
    | step hp hc ih => exact .step ih (by rwa [h _ (Or.inr hp)])

theorem SubtreeOk.rank_lt {rank : Ref → Nat} {s : FileManager} {F : Ref}
    (h : SubtreeOk rank s F) {d : Ref} (hd : Desc s F d) : rank d < rank F := by
  induction hd with
  | child hc => exact ((h F (Or.inl rfl)).2 _ hc).2.2
  | step hp hc ih => exact lt_trans ((h _ (Or.inr hp)).2 _ hc).2.2 ih

theorem SubtreeOk.not_desc_self {rank : Ref → Nat} {s : FileManager} {F : Ref}
    (h : SubtreeOk rank s F) : ¬ Desc s F F := fun hd => lt_irrefl _ (h.rank_lt hd)

theorem SubtreeOk.child {rank : Ref → Nat} {s : FileManager} {F c : Ref}
    (h : SubtreeOk rank s F) (hc : c ∈ s.children F) : SubtreeOk rank s c := by
  intro p hp
  rcases hp with rfl | hp
  · exact h _ (Or.inr (.child hc))
  · exact h _ (Or.inr (hp.trans_child hc))

theorem SubtreeOk.parent_of_desc {rank : Ref → Nat} {s : FileManager} {F : Ref}
    (h : SubtreeOk rank s F) {d : Ref} (hd : Desc s F d) :
    ∃ q, (q = F ∨ Desc s F q) ∧ d ∈ s.children q ∧ s.parentOf d = some q := by
  obtain ⟨q, hq, hmem⟩ := hd.exists_holder
  exact ⟨q, hq, hmem, ((h q hq).2 d hmem).2.1⟩

theorem PathsOnly.refl (s : FileManager) : PathsOnly s s :=
  ⟨rfl, rfl, rfl, rfl, rfl, fun _ => rfl⟩

theorem PathsOnly.trans {s s' s'' : FileManager} (h : PathsOnly s s') (h' : PathsOnly s' s'') :
    PathsOnly s s'' := by
  obtain ⟨a1, a2, a3, a4, a5, a6⟩ := h
  obtain ⟨b1, b2, b3, b4, b5, b6⟩ := h'
  refine ⟨b1.trans a1, b2.trans a2, b3.trans a3, b4.trans a4, b5.trans a5, fun r => ?_⟩
  rw [b6 r, a6 r]

theorem PathsOnly.children {s s' : FileManager} (h : PathsOnly s s') (r : Ref) :
    s'.children r = s.children r := by
  unfold FileManager.children; rw [h.2.2.2.2.2 r]

theorem PathsOnly.parentOf {s s' : FileManager} (h : PathsOnly s s') (r : Ref) :
    s'.parentOf r = s.parentOf r := by
  unfold FileManager.parentOf; rw [h.2.2.2.2.2 r]

theorem PathsOnly.name {s s' : FileManager} (h : PathsOnly s s') (r : Ref) :
    (s'.obj r).name = (s.obj r).name := by
  rw [h.2.2.2.2.2 r]

theorem PathsOnly.type {s s' : FileManager} (h : PathsOnly s s') (r : Ref) :
    (s'.obj r).type = (s.obj r).type := by
  rw [h.2.2.2.2.2 r]

theorem PathsOnly.desc {s s' : FileManager} (h : PathsOnly s s') {a d : Ref} :
    Desc s' a d ↔ Desc s a d :=
  Desc.congr (fun p _ => h.children p)

theorem PathsOnly.keeps_subtreeOk {rank : Ref → Nat} {s s' : FileManager} (h : PathsOnly s s')
    {F : Ref} (hF : SubtreeOk rank s F) : SubtreeOk rank s' F := by
  intro p hp
  have hp' : p = F ∨ Desc s F p := hp.imp id h.desc.mp
  obtain ⟨h1, h2⟩ := hF p hp'
  rw [h.type, h.children]
  refine ⟨h1, fun c hc => ?_⟩
  rw [h.parentOf, h.2.2.2.2.1]
  exact h2 c hc

/-- Setting the `path` of a record changes `path` fields only. -/
theorem pathsOnly_modifyObj_path (s : FileManager) (r : Ref) (v : String) :
    PathsOnly s (s.modifyObj r (fun e => { e with path := v })) := by
  refine ⟨rfl, rfl, rfl, rfl, by simp, fun r' => ?_⟩
  by_cases hl : r < s.heap.length
  · rw [obj_modifyObj _ _ _ _ hl]
    split <;> rfl
  · rw [modifyObj_of_fixed _ _ _ (fun h => absurd h hl)]

/-- The loop of `forEachChild` over an array that the callback leaves alone: an invariant
indexed by the position is carried through all positions. -/
theorem forEachChild_invariant (cb : Ref → FileManager → Option FileManager) (folder : Ref)
    (cs : List Ref) (Inv : Nat → FileManager → Prop)
    (hch : ∀ k s, Inv k s → s.children folder = cs)
    (hstep : ∀ k s c, Inv k s → cs[k]? = some c → ∃ s', cb c s = some s' ∧ Inv (k + 1) s') :
    ∀ (n k : Nat) (s : FileManager), Inv k s → k + n = cs.length →
      ∃ s', forEachChild cb folder n k s = some s' ∧ Inv (k + n) s' := by
  intro n
  induction n with
  | zero => intro k s h _; exact ⟨s, rfl, h⟩
  | succ n ih =>
    intro k s h hlen
    have hk : k < cs.length := by omega
    have hget : cs[k]? = some cs[k] := List.getElem?_eq_getElem hk
    obtain ⟨s1, h1, hinv⟩ := hstep k s _ h hget
    obtain ⟨s', h2, hinv'⟩ := ih (k + 1) s1 hinv (by omega)
    refine ⟨s', ?_, by rwa [show k + (n + 1) = k + 1 + n by omega]⟩
    rw [forEachChild, hch k s h, hget]
    simp only [h1, Option.some_bind]
    exact h2

end FileManager

namespace FileManager

/-- The unfolding of `updateChildrenPaths` for a positive bound. -/
theorem updateChildrenPaths_succ (fuel : Nat) (s : FileManager) (folder : Ref) :
    updateChildrenPaths (fuel + 1) s folder =
      forEachChild
        (fun child s =>
          if ((s.modifyObj child (fun e =>
                { e with path := (s.obj folder).path ++ "/" ++ (s.obj child).name })).obj
              child).type = .folder
          then updateChildrenPaths fuel (s.modifyObj child (fun e =>
                { e with path := (s.obj folder).path ++ "/" ++ (s.obj child).name })) child
          else some (s.modifyObj child (fun e =>
                { e with path := (s.obj folder).path ++ "/" ++ (s.obj child).name })))
        folder (s.children folder).length 0 s := rfl

/-- One round of the loop of `updateChildrenPaths`, for a child `c` of `F`, given the result
for the recursive calls. -/
theorem updateChildrenPaths_round (rank : Ref → Nat) (fuel : Nat)
    (ih : ∀ (s : FileManager) (F : Ref), SubtreeOk rank s F → rank F < fuel →
      ∃ s', updateChildrenPaths fuel s F = some s' ∧ PathsOnly s s' ∧
        (∀ r, ¬ Desc s F r → (s'.obj r).path = (s.obj r).path) ∧
        (∀ d, Desc s F d → PathOk s s' d))
    (s0 s : FileManager) (F c : Ref) (hok : SubtreeOk rank s0 F) (hP : PathsOnly s0 s)
    (hc : c ∈ s0.children F) (hfuel : rank F < fuel + 1) :
    ∃ s2,
      (if ((s.modifyObj c (fun e =>
                { e with path := (s.obj F).path ++ "/" ++ (s.obj c).name })).obj c).type = .folder
        then updateChildrenPaths fuel (s.modifyObj c (fun e =>
                { e with path := (s.obj F).path ++ "/" ++ (s.obj c).name })) c
        else some (s.modifyObj c (fun e =>
                { e with path := (s.obj F).path ++ "/" ++ (s.obj c).name }))) = some s2 ∧
      PathsOnly s s2 ∧
      (∀ r, r ≠ c → ¬ Desc s0 c r → (s2.obj r).path = (s.obj r).path) ∧
      (∀ d, (d = c ∨ Desc s0 c d) → PathOk s0 s2 d) := by
  obtain ⟨hcl, hcp, hcr⟩ := (hok F (Or.inl rfl)).2 c hc
  have hokc : SubtreeOk rank s0 c := hok.child hc
  have hcF : F ≠ c := by rintro rfl; exact lt_irrefl _ hcr
  have hcl' : c < s.heap.length := by rw [hP.2.2.2.2.1]; exact hcl
  generalize hs1 : s.modifyObj c (fun e =>
    { e with path := (s.obj F).path ++ "/" ++ (s.obj c).name }) = s1
  have hP1 : PathsOnly s s1 := by rw [← hs1]; exact pathsOnly_modifyObj_path _ _ _
  have hP01 : PathsOnly s0 s1 := hP.trans hP1
  have hpc : (s1.obj c).path = (s1.obj F).path ++ "/" ++ (s0.obj c).name := by
    rw [← hs1, obj_modifyObj_self _ _ _ hcl', obj_modifyObj_of_ne _ _ (Ne.symm hcF), hP.name]
  have hother : ∀ r, r ≠ c → (s1.obj r).path = (s.obj r).path := by
    intro r hr; rw [← hs1, obj_modifyObj_of_ne _ _ (Ne.symm hr)]
  -- the recursive call, or nothing for a file
  have hrec : ∃ s2,
      (if (s1.obj c).type = .folder then updateChildrenPaths fuel s1 c else some s1) = some s2 ∧
      PathsOnly s1 s2 ∧ (∀ r, ¬ Desc s0 c r → (s2.obj r).path = (s1.obj r).path) ∧
      (∀ d, Desc s0 c d → PathOk s0 s2 d) := by
    by_cases hty : (s1.obj c).type = .folder
    · obtain ⟨s2, h1, h2, h3, h4⟩ := ih s1 c (hP01.keeps_subtreeOk hokc) (by omega)
      refine ⟨s2, by rw [if_pos hty]; exact h1, h2, fun r hr => h3 r (fun h => hr (hP01.desc.mp h)),
        fun d hd => ?_⟩
      obtain ⟨q, hq1, hq2⟩ := h4 d (hP01.desc.mpr hd)
      exact ⟨q, by rw [← hP01.parentOf]; exact hq1, by rw [hq2, hP01.name]⟩
    · refine ⟨s1, by rw [if_neg hty], PathsOnly.refl _, fun _ _ => rfl, fun d hd => ?_⟩
      exfalso
      have hfile : (s0.obj c).type = .file := by
        rw [hP01.type] at hty
        cases h : (s0.obj c).type
        · rfl
        · exact absurd h hty
      obtain ⟨c', hc', _⟩ := hd.exists_child
      rw [(hokc c (Or.inl rfl)).1 hfile] at hc'
      cases hc'
  obtain ⟨s2, h1, hP12, hout, hin⟩ := hrec
  refine ⟨s2, h1, hP1.trans hP12, fun r hr hnd => by rw [hout r hnd, hother r hr], ?_⟩
  intro d hd
  rcases hd with rfl | hd
  · refine ⟨F, hcp, ?_⟩
    rw [hout d hokc.not_desc_self, hpc,
      hout F (fun h => lt_irrefl _ (lt_trans (hokc.rank_lt h) hcr))]
  · exact hin d hd

end FileManager

namespace FileManager

/-- On a subtree that is well formed and acyclic, `updateChildrenPaths(F)` returns, given a
bound above the rank of `F`; it changes `path` fields only, and only of descendants of `F`;
and afterwards the path of every descendant is the path of its parent, `/`, and its name. -/
theorem updateChildrenPaths_spec (rank : Ref → Nat) :
    ∀ (fuel : Nat) (s : FileManager) (F : Ref), SubtreeOk rank s F → rank F < fuel →
      ∃ s', updateChildrenPaths fuel s F = some s' ∧ PathsOnly s s' ∧
        (∀ r, ¬ Desc s F r → (s'.obj r).path = (s.obj r).path) ∧
        (∀ d, Desc s F d → PathOk s s' d) := by
  intro fuel
  induction fuel with
  | zero => intro s F _ h; omega
  | succ fuel ih =>
    intro s0 F hok hfuel
    have hinv := forEachChild_invariant
      (fun child s =>
        if ((s.modifyObj child (fun e =>
              { e with path := (s.obj F).path ++ "/" ++ (s.obj child).name })).obj
            child).type = .folder
        then updateChildrenPaths fuel (s.modifyObj child (fun e =>
              { e with path := (s.obj F).path ++ "/" ++ (s.obj child).name })) child
        else some (s.modifyObj child (fun e =>
              { e with path := (s.obj F).path ++ "/" ++ (s.obj child).name })))
      F (s0.children F)
      (fun k s => PathsOnly s0 s ∧
        (∀ r, ¬ Desc s0 F r → (s.obj r).path = (s0.obj r).path) ∧
        (∀ i c, i < k → (s0.children F)[i]? = some c →
          ∀ d, (d = c ∨ Desc s0 c d) → PathOk s0 s d))
      (fun k s h => h.1.children F)
      (by
        intro k s c ⟨hP, hout, hdone⟩ hget
        have hc : c ∈ s0.children F := List.getElem?_mem hget
        obtain ⟨s2, h1, hP2, hout2, hin2⟩ :=
          updateChildrenPaths_round rank fuel ih s0 s F c hok hP hc hfuel
        refine ⟨s2, h1, hP.trans hP2, fun r hr => ?_, fun i c' hi hget' d hd => ?_⟩
        · rw [hout2 r (by rintro rfl; exact hr (.child hc))
            (fun h => hr (h.trans_child hc)), hout r hr]
        · by_cases hdc : d = c ∨ Desc s0 c d
          · exact hin2 d hdc
          · have hne : d ≠ c := fun e => hdc (Or.inl e)
            have hnd : ¬ Desc s0 c d := fun e => hdc (Or.inr e)
            have hik : i < k := by
              rcases Nat.lt_succ_iff_lt_or_eq.mp hi with h | h
              · exact h
              · subst h
                rw [hget] at hget'
                cases hget'
                exact absurd hd hdc
            have hc' : c' ∈ s0.children F := List.getElem?_mem hget'
            have hdF : Desc s0 F d := by
              rcases hd with rfl | hd
              · exact .child hc'
              · exact hd.trans_child hc'
            obtain ⟨q, hq1, hq2⟩ := hdone i c' hik hget' d hd
            obtain ⟨q', _, hmem, hq'⟩ := hok.parent_of_desc hdF
            have hqq : q = q' := by rw [hq1] at hq'; exact Option.some.inj hq'
            subst hqq
            refine ⟨q, hq1, ?_⟩
            rw [hout2 d hne hnd, hq2, hout2 q (by rintro rfl; exact hnd (.child hmem))
              (fun h => hnd (.step h hmem))])
      (s0.children F).length 0 s0
      ⟨PathsOnly.refl _, fun _ _ => rfl, fun i c hi => absurd hi (Nat.not_lt_zero _)⟩
      (by simp)
    obtain ⟨s', h1, hP, hout, hdone⟩ := hinv
    refine ⟨s', by rw [updateChildrenPaths_succ]; exact h1, hP, hout, fun d hd => ?_⟩
    obtain ⟨c, hc, hdc⟩ := hd.exists_child
    obtain ⟨i, hi, hget⟩ := List.getElem_of_mem hc
    exact hdone i c (by simpa using hi) (by rw [List.getElem?_eq_getElem hi, hget]) d hdc

end FileManager

namespace FileManager

/-- `SubtreeOk` only depends on the kinds and `children` of `F` and the records below it, and
on the `parent` of the latter. -/
theorem SubtreeOk.transport {rank : Ref → Nat} {s s' : FileManager} {F : Ref}
    (h : SubtreeOk rank s F) (hlen : s'.heap.length = s.heap.length)
    (hch : ∀ p, (p = F ∨ Desc s F p) →
      s'.children p = s.children p ∧ (s'.obj p).type = (s.obj p).type)
    (hpar : ∀ d, Desc s F d → s'.parentOf d = s.parentOf d) : SubtreeOk rank s' F := by
  have hdesc : ∀ {d}, Desc s' F d ↔ Desc s F d := Desc.congr (fun p hp => (hch p hp).1)
  intro p hp
  have hp' : p = F ∨ Desc s F p := hp.imp id hdesc.mp
  obtain ⟨h1, h2⟩ := h p hp'
  rw [(hch p hp').1, (hch p hp').2]
  refine ⟨h1, fun c hc => ?_⟩
  have hcd : Desc s F c := by
    rcases hp' with rfl | hp'
    · exact .child hc
    · exact .step hp' hc
  rw [hlen, hpar c hcd]
  exact h2 c hc

/-- In a well-formed acyclic store every live record heads a well-formed acyclic subtree. -/
theorem WellFormed.subtreeOk_of_acyclic {rank : Ref → Nat} {s : FileManager} (hwf : s.WellFormed)
    (hac : s.Acyclic rank) {F : Ref} (hF : F < s.heap.length) : SubtreeOk rank s F := by
  have hlive : ∀ p, (p = F ∨ Desc s F p) → p < s.heap.length := by
    intro p hp
    rcases hp with rfl | hp
    · exact hF
    · induction hp with
      | child hc => exact (hwf.children_ok F hF _ hc).1
      | step _ hc ih => exact (hwf.children_ok _ ih _ hc).1
  intro p hp
  have hpl := hlive p hp
  exact ⟨hwf.file_leaf p hpl, fun c hc =>
    ⟨(hwf.children_ok p hpl c hc).1, (hwf.children_ok p hpl c hc).2, hac p hpl c hc⟩⟩

/-- The result of `updateChildrenPaths`, read in the final state. -/
theorem updateChildrenPaths_final (rank : Ref → Nat) (fuel : Nat) (s : FileManager) (F : Ref)
    (hok : SubtreeOk rank s F) (hfuel : rank F < fuel) :
    ∃ s', updateChildrenPaths fuel s F = some s' ∧ PathsOnly s s' ∧
      (∀ r, ¬ Desc s F r → s'.obj r = s.obj r) ∧
      (∀ d, Desc s F d → ∃ q, s'.parentOf d = some q ∧
        (s'.obj d).path = (s'.obj q).path ++ "/" ++ (s'.obj d).name) := by
  obtain ⟨s', h1, hP, hout, hin⟩ := updateChildrenPaths_spec rank fuel s F hok hfuel
  refine ⟨s', h1, hP, fun r hr => ?_, fun d hd => ?_⟩
  · rw [hP.2.2.2.2.2 r, hout r hr]
  · obtain ⟨q, hq1, hq2⟩ := hin d hd
    exact ⟨q, by rw [hP.parentOf]; exact hq1, by rw [hq2, hP.name]⟩

end FileManager

/-- C2: in a well-formed store whose containment relation is acyclic, `renameFolder(F, n)` of a
stored folder `F` returns (given a bound above the rank of `F`), and afterwards `F.name` is `n`,
`F.path` is `F.parent.path + "/" + n` (`n` without a parent), and the path of every descendant
`D` of `F`, at any depth, is `D.parent.path + "/" + D.name`; the `children` and `parent` of all
records and the names of all records but `F` are as before. -/
theorem renameFolder_paths (rank : Ref → Nat) (s : FileManager) (F : Ref) (n : String)
    (fuel : Nat) (hwf : s.WellFormed) (hac : s.Acyclic rank) (hF : F ∈ s.getFolders)
    (hfuel : rank F < fuel) :
    ∃ s', s.renameFolder fuel F n = some s' ∧
      (s'.obj F).name = n ∧
      (s'.obj F).path = s'.pathUnder (s'.parentOf F) n ∧
      (∀ D, FileManager.Desc s F D → ∃ q, s'.parentOf D = some q ∧
        (s'.obj D).path = (s'.obj q).path ++ "/" ++ (s'.obj D).name) ∧
      (∀ r, s'.children r = s.children r ∧ s'.parentOf r = s.parentOf r) ∧
      (∀ r, r ≠ F → (s'.obj r).name = (s.obj r).name) := by
  obtain ⟨hlive, _, _, hpar⟩ := hwf.folder_facts hF
  have hok : FileManager.SubtreeOk rank s F := hwf.subtreeOk_of_acyclic hac hlive
  -- the state before the recomputation
  generalize hs2 : (s.modifyObj F (fun e => { e with name := n })).modifyObj F
    (fun e => { e with path :=
      (FileManager.pathUnder (s.modifyObj F (fun e => { e with name := n }))
        (FileManager.parentOf (s.modifyObj F (fun e => { e with name := n })) F) n) }) = s2
  have hobj2 : ∀ r, s2.obj r = if F = r then
      { s.obj F with name := n, path := s.pathUnder (s.parentOf F) n } else s.obj r := by
    intro r
    have hself : s.parentOf F ≠ some F := by
      intro h
      exact lt_irrefl _ (hac F hlive F (hpar F h).2.2)
    rw [← hs2]
    by_cases e : F = r
    · subst e
      rw [FileManager.obj_modifyObj_self _ _ _ (by simpa using hlive),
        FileManager.obj_modifyObj_self _ _ _ hlive, if_pos rfl]
      cases hp : s.parentOf F with
      | none =>
        simp [FileManager.pathUnder, FileManager.parentOf,
          FileManager.obj_modifyObj_self _ _ _ hlive, show (s.obj F).parent = none from hp]
      | some P =>
        have hPF : F ≠ P := by rintro rfl; exact hself hp
        simp [FileManager.pathUnder, FileManager.parentOf,
          FileManager.obj_modifyObj_self _ _ _ hlive, show (s.obj F).parent = some P from hp,
          FileManager.obj_modifyObj_of_ne _ _ hPF]
    · rw [FileManager.obj_modifyObj_of_ne _ _ e, FileManager.obj_modifyObj_of_ne _ _ e,
        if_neg e]
  have hch2 : ∀ r, s2.children r = s.children r := by
    intro r; unfold FileManager.children; rw [hobj2]; split
    · rename_i e; subst e; rfl
    · rfl
  have hpar2 : ∀ r, s2.parentOf r = s.parentOf r := by
    intro r; unfold FileManager.parentOf; rw [hobj2]; split
    · rename_i e; subst e; rfl
    · rfl
  have hty2 : ∀ r, (s2.obj r).type = (s.obj r).type := by
    intro r; rw [hobj2]; split
    · rename_i e; subst e; rfl
    · rfl
  have hlen2 : s2.heap.length = s.heap.length := by rw [← hs2]; simp
  have hok2 : FileManager.SubtreeOk rank s2 F :=
    hok.transport hlen2 (fun p _ => ⟨hch2 p, hty2 p⟩) (fun d _ => hpar2 d)
  have hdesc2 : ∀ {d}, FileManager.Desc s2 F d ↔ FileManager.Desc s F d :=
    FileManager.Desc.congr (fun p _ => hch2 p)
  obtain ⟨s3, h1, hP, hout, hin⟩ :=
    FileManager.updateChildrenPaths_final rank fuel s2 F hok2 hfuel
  have hF3 : s3.obj F = s2.obj F := hout F hok2.not_desc_self
  refine ⟨s3.emit (.folderRenamed F (s.obj F).name), ?_, ?_, ?_, ?_, ?_, ?_⟩
  · simp only [FileManager.renameFolder, hs2, h1, Option.map_some']
    rfl
  · rw [FileManager.emit_obj, hF3, hobj2, if_pos rfl]
  · show (s3.obj F).path = FileManager.pathUnder s3 (s3.parentOf F) n
    rw [hF3, hP.parentOf, hpar2, hobj2, if_pos rfl]
    cases hp : s.parentOf F with
    | none => rfl
    | some P =>
      have hPr : rank F < rank P := hac P (hpar P hp).1 F (hpar P hp).2.2
      have hPF : F ≠ P := by rintro rfl; exact lt_irrefl _ hPr
      have hP3 : s3.obj P = s2.obj P :=
        hout P (fun h => lt_irrefl _ (lt_trans (hok2.rank_lt h) hPr))
      simp only [FileManager.pathUnder]
      rw [hP3, hobj2, if_neg hPF]
  · intro D hD
    exact hin D (hdesc2.mpr hD)
  · intro r
    exact ⟨by rw [← hch2 r, ← hP.children r]; rfl, by rw [← hpar2 r, ← hP.parentOf r]; rfl⟩
  · intro r hr
    rw [FileManager.emit_obj, hP.name, hobj2, if_neg (Ne.symm hr)]

theorem pathScenario_acyclic : pathScenario.Acyclic (fun r => 2 - r) := by
  unfold FileManager.Acyclic
  decide

/-- The path scenario satisfies the hypotheses of `renameFolder_paths`; renaming the root
folder `src` to `app` makes the path of the file it holds `app/index.html`. -/
theorem renameFolder_paths_witness :
    pathScenario.WellFormed ∧ pathScenario.Acyclic (fun r => 2 - r) ∧
    0 ∈ pathScenario.getFolders ∧ (fun r => 2 - r) 0 < 5 ∧
    (∃ s', pathScenario.renameFolder 5 0 "app" = some s' ∧
      (s'.obj 0).name = "app" ∧
      (s'.obj 0).path = s'.pathUnder (s'.parentOf 0) "app" ∧
      (∀ D, FileManager.Desc pathScenario 0 D → ∃ q, s'.parentOf D = some q ∧
        (s'.obj D).path = (s'.obj q).path ++ "/" ++ (s'.obj D).name) ∧
      (∀ r, s'.children r = pathScenario.children r ∧
        s'.parentOf r = pathScenario.parentOf r) ∧
      (∀ r, r ≠ 0 → (s'.obj r).name = (pathScenario.obj r).name)) ∧
    (pathScenario.renameFolder 5 0 "app").map (fun s' => (s'.obj 1).path) =
      some "app/index.html" :=
  ⟨pathScenario_wellFormed, pathScenario_acyclic, by decide, by decide,
    renameFolder_paths (fun r => 2 - r) pathScenario 0 "app" 5 pathScenario_wellFormed
      pathScenario_acyclic (by decide) (by decide),
    by decide⟩

/-! ## Moving a folder -/

namespace FileManager

theorem moveFolder_eq (fuel : Nat) (s : FileManager) (F : Ref) (T : Option Ref) :
    s.moveFolder fuel F T =
      (updateChildrenPaths fuel ((s.detach F).attach F T) F).map
        (fun s' => s'.emit (.folderMoved F T)) := rfl

/-- The detachment and attachment of `F` leave alone every record other than `F`, its former
parent and the target. -/
theorem detach_attach_obj_other (s : FileManager) (F : Ref) (T : Option Ref) (r : Ref)
    (hF : F < s.heap.length) (hT : ∀ t ∈ T, t < s.heap.length ∧ t ≠ F)
    (h1 : r ≠ F) (h2 : s.parentOf F ≠ some r) (h3 : T ≠ some r) :
    ((s.detach F).attach F T).obj r = s.obj r := by
  have hF1 : F < (s.detach F).heap.length := by simpa using hF
  cases T with
  | none =>
    rw [attach_none_obj _ _ _ hF1, if_neg (Ne.symm h1), detach_obj_of_ne s F r h2]
  | some t =>
    obtain ⟨htl, htF⟩ := hT t rfl
    rw [attach_some_obj _ _ _ _ hF1 (by simpa using htl) htF, if_neg h1,
      if_neg (fun e => h3 (by rw [e])), detach_obj_of_ne s F r h2]

/-- The detachment and attachment of `F` change its `parent` and `path` only. -/
theorem detach_attach_obj_self (s : FileManager) (F : Ref) (T : Option Ref)
    (hF : F < s.heap.length) (hT : ∀ t ∈ T, t < s.heap.length ∧ t ≠ F)
    (h2 : s.parentOf F ≠ some F) :
    ((s.detach F).attach F T).obj F =
      { s.obj F with parent := T, path := s.pathUnder T (s.obj F).name } := by
  have hF1 : F < (s.detach F).heap.length := by simpa using hF
  have hself : (s.detach F).obj F = s.obj F := detach_obj_of_ne s F F h2
  cases T with
  | none => rw [attach_none_obj _ _ _ hF1, if_pos rfl, hself]; rfl
  | some t =>
    obtain ⟨htl, htF⟩ := hT t rfl
    rw [attach_some_obj _ _ _ _ hF1 (by simpa using htl) htF, if_pos rfl, hself]
    have : ((s.detach F).obj t).path = (s.obj t).path := by
      by_cases hp : s.parentOf F = some t
      · rw [detach_obj_parent s F t hp]
      · rw [detach_obj_of_ne s F t hp]
    simp only [pathUnder, this]

/-- The detachment and attachment of `F` change no `path` but that of `F`. -/
theorem detach_attach_path (s : FileManager) (F : Ref) (T : Option Ref) (r : Ref)
    (hF : F < s.heap.length) (hT : ∀ t ∈ T, t < s.heap.length ∧ t ≠ F) (h1 : r ≠ F) :
    (((s.detach F).attach F T).obj r).path = (s.obj r).path := by
  have hF1 : F < (s.detach F).heap.length := by simpa using hF
  have hd : ((s.detach F).obj r).path = (s.obj r).path := by
    by_cases hp : s.parentOf F = some r
    · rw [detach_obj_parent s F r hp]
    · rw [detach_obj_of_ne s F r hp]
  cases T with
  | none => rw [attach_none_obj _ _ _ hF1, if_neg (Ne.symm h1), hd]
  | some t =>
    obtain ⟨htl, htF⟩ := hT t rfl
    rw [attach_some_obj _ _ _ _ hF1 (by simpa using htl) htF, if_neg h1]
    split
    · rename_i e; subst e; exact hd
    · exact hd

end FileManager

/-- C3: in a well-formed store whose containment relation is acyclic, `moveFolder(F, T)` of a
stored folder `F` to a target `T` that is none or a stored folder, neither `F` nor one of its
descendants, returns (given a bound above the rank of `F`), and afterwards `F.parent` is `T`,
`F.path` is `T.path + "/" + F.name` (`F.name` when `T` is none), and the path of every
descendant `D` of `F`, at any depth, is `D.parent.path + "/" + D.name`; `F` keeps its name and
descendants, and these their names and parents. -/
theorem moveFolder_paths (rank : Ref → Nat) (s : FileManager) (F : Ref) (T : Option Ref)
    (fuel : Nat) (hwf : s.WellFormed) (hac : s.Acyclic rank) (hF : F ∈ s.getFolders)
    (hT : ∀ t ∈ T, t ∈ s.getFolders ∧ t ≠ F ∧ ¬ FileManager.Desc s F t)
    (hfuel : rank F < fuel) :
    ∃ s', s.moveFolder fuel F T = some s' ∧
      s'.parentOf F = T ∧
      (s'.obj F).path = s'.pathUnder T (s'.obj F).name ∧
      (s'.obj F).name = (s.obj F).name ∧
      (∀ D, FileManager.Desc s F D → ∃ q, s'.parentOf D = some q ∧
        (s'.obj D).path = (s'.obj q).path ++ "/" ++ (s'.obj D).name) ∧
      (∀ D, FileManager.Desc s' F D ↔ FileManager.Desc s F D) ∧
      (∀ D, FileManager.Desc s F D →
        s'.parentOf D = s.parentOf D ∧ (s'.obj D).name = (s.obj D).name) := by
  obtain ⟨hlive, _, _, hpar⟩ := hwf.folder_facts hF
  have hok : FileManager.SubtreeOk rank s F := hwf.subtreeOk_of_acyclic hac hlive
  have hT' : ∀ t ∈ T, t < s.heap.length ∧ t ≠ F :=
    fun t ht => ⟨(hwf.folder_facts (hT t ht).1).1, (hT t ht).2.1⟩
  -- the former parent and the target are outside the subtree of `F`
  have hnotP : ∀ p, (p = F ∨ FileManager.Desc s F p) → s.parentOf F ≠ some p := by
    intro p hp h
    have hlt : rank F < rank p := hac p (hpar p h).1 F (hpar p h).2.2
    rcases hp with rfl | hp
    · exact lt_irrefl _ hlt
    · exact lt_irrefl _ (lt_trans (hok.rank_lt hp) hlt)
  have hnotT : ∀ p, (p = F ∨ FileManager.Desc s F p) → T ≠ some p := by
    intro p hp h
    rcases hp with rfl | hp
    · exact (hT p h).2.1 rfl
    · exact (hT p h).2.2 hp
  generalize hs2 : (s.detach F).attach F T = s2
  have hself2 : s2.obj F = { s.obj F with parent := T, path := s.pathUnder T (s.obj F).name } := by
    rw [← hs2]
    exact FileManager.detach_attach_obj_self s F T hlive hT' (hnotP F (Or.inl rfl))
  have hdesc_obj : ∀ d, FileManager.Desc s F d → s2.obj d = s.obj d := by
    intro d hd
    rw [← hs2]
    exact FileManager.detach_attach_obj_other s F T d hlive hT'
      (by rintro rfl; exact hok.not_desc_self hd) (hnotP d (Or.inr hd)) (hnotT d (Or.inr hd))
  have hpath2 : ∀ r, r ≠ F → (s2.obj r).path = (s.obj r).path := by
    intro r hr; rw [← hs2]; exact FileManager.detach_attach_path s F T r hlive hT' hr
  have hsub : ∀ p, (p = F ∨ FileManager.Desc s F p) →
      s2.children p = s.children p ∧ (s2.obj p).type = (s.obj p).type := by
    intro p hp
    rcases hp with rfl | hp
    · unfold FileManager.children; rw [hself2]; exact ⟨rfl, rfl⟩
    · unfold FileManager.children; rw [hdesc_obj p hp]; exact ⟨rfl, rfl⟩
  have hlen2 : s2.heap.length = s.heap.length := by rw [← hs2]; simp
  have hok2 : FileManager.SubtreeOk rank s2 F :=
    hok.transport hlen2 hsub (fun d hd => by unfold FileManager.parentOf; rw [hdesc_obj d hd])
  have hdesc2 : ∀ {d}, FileManager.Desc s2 F d ↔ FileManager.Desc s F d :=
    FileManager.Desc.congr (fun p hp => (hsub p hp).1)
  obtain ⟨s3, h1, hP, hout, hin⟩ :=
    FileManager.updateChildrenPaths_final rank fuel s2 F hok2 hfuel
  have hF3 : s3.obj F = s2.obj F := hout F hok2.not_desc_self
  refine ⟨s3.emit (.folderMoved F T), ?_, ?_, ?_, ?_, ?_, ?_, ?_⟩
  · rw [FileManager.moveFolder_eq, hs2, h1]; rfl
  · show (s3.obj F).parent = T
    rw [hF3, hself2]
  · show (s3.obj F).path = FileManager.pathUnder s3 T (s3.obj F).name
    rw [hF3, hself2]
    cases T with
    | none => rfl
    | some t =>
      have ht3 : s3.obj t = s2.obj t :=
        hout t (fun h => (hT t rfl).2.2 (hdesc2.mp h))
      simp only [FileManager.pathUnder]
      rw [ht3, hpath2 t (hT t rfl).2.1]
  · rw [FileManager.emit_obj, hF3, hself2]
  · intro D hD
    exact hin D (hdesc2.mpr hD)
  · intro D
    have h3 : FileManager.Desc (s3.emit (.folderMoved F T)) F D ↔ FileManager.Desc s3 F D :=
      @FileManager.Desc.congr s3 (s3.emit (.folderMoved F T)) F (fun _ _ => rfl) D
    exact h3.trans (hP.desc.trans hdesc2)
  · intro D hD
    refine ⟨?_, ?_⟩
    · show s3.parentOf D = s.parentOf D
      rw [hP.parentOf]; unfold FileManager.parentOf; rw [hdesc_obj D hD]
    · rw [FileManager.emit_obj, hP.name, hdesc_obj D hD]

theorem nestedScenario_wellFormed : nestedScenario.WellFormed :=
  ⟨by decide, by decide, by decide, by decide, by decide, by decide, by decide, by decide⟩

theorem nestedScenario_acyclic : nestedScenario.Acyclic nestedRank := by
  unfold FileManager.Acyclic
  decide

/-- The nested scenario satisfies the hypotheses of `moveFolder_paths` for the move of `a` into
`dst`; afterwards the paths of `a`, `x.js`, `b` and `y.js` all start with `dst/a`. -/
theorem moveFolder_paths_witness :
    nestedScenario.WellFormed ∧ nestedScenario.Acyclic nestedRank ∧
    0 ∈ nestedScenario.getFolders ∧
    (∀ t ∈ some 4, t ∈ nestedScenario.getFolders ∧ t ≠ 0 ∧
      ¬ FileManager.Desc nestedScenario 0 t) ∧
    nestedRank 0 < 6 ∧
    (∃ s', nestedScenario.moveFolder 6 0 (some 4) = some s' ∧
      s'.parentOf 0 = some 4 ∧
      (s'.obj 0).path = s'.pathUnder (some 4) (s'.obj 0).name ∧
      (s'.obj 0).name = (nestedScenario.obj 0).name ∧
      (∀ D, FileManager.Desc nestedScenario 0 D → ∃ q, s'.parentOf D = some q ∧
        (s'.obj D).path = (s'.obj q).path ++ "/" ++ (s'.obj D).name) ∧
      (∀ D, FileManager.Desc s' 0 D ↔ FileManager.Desc nestedScenario 0 D) ∧
      (∀ D, FileManager.Desc nestedScenario 0 D →
        s'.parentOf D = nestedScenario.parentOf D ∧
        (s'.obj D).name = (nestedScenario.obj D).name)) ∧
    (nestedScenario.moveFolder 6 0 (some 4)).map
        (fun s' => [(s'.obj 0).path, (s'.obj 1).path, (s'.obj 2).path, (s'.obj 3).path]) =
      some ["dst/a", "dst/a/x.js", "dst/a/b", "dst/a/b/y.js"] :=
  have hT : ∀ t ∈ some 4, t ∈ nestedScenario.getFolders ∧ t ≠ 0 ∧
      ¬ FileManager.Desc nestedScenario 0 t := by
    intro t ht
    cases ht
    refine ⟨by decide, by decide, fun h => ?_⟩
    have := (nestedScenario_wellFormed.subtreeOk_of_acyclic nestedScenario_acyclic
      (show 0 < nestedScenario.heap.length by decide)).rank_lt h
    exact absurd this (by decide)
  ⟨nestedScenario_wellFormed, nestedScenario_acyclic, by decide, hT, by decide,
    moveFolder_paths nestedRank nestedScenario 0 (some 4) 6 nestedScenario_wellFormed
      nestedScenario_acyclic (by decide) hT (by decide),
    by decide⟩

/-! ## Removal of a folder -/

/-- C1, evaluated on the scenario of the claim: folder `a` holds file `x.js` and folder `b`,
and `b` holds file `y.js`, so `b` and `y.js` are descendants of `a`.  `removeFolder(a)` returns,
and afterwards the store still enumerates the file `y.js` and the folder `b`, and still finds
both under their ids: removing `x.js` shifts `b` to the index that the loop has just left, so
the loop never visits `b`. -/
theorem removeFolder_skips_shifted_child :
    removalScenario.WellFormed ∧ 0 ∈ removalScenario.getFolders ∧
    FileManager.Desc removalScenario 0 2 ∧ FileManager.Desc removalScenario 0 3 ∧
    (removalScenario.removeFolder 10 0).map
        (fun s' => (s'.getFiles, s'.getFolders,
          s'.getFolder (removalScenario.obj 2).id, s'.getFile (removalScenario.obj 3).id)) =
      some ([3], [2], some 2, some 3) :=
  ⟨removalScenario_wellFormed, by decide, .child (by decide),
    .step (p := 2) (.child (by decide)) (by decide), by decide⟩

/-! ## Orphans -/

/-- C12, evaluated on the removal scenario (folder `a` holds file `x.js` and folder `b`, `b`
holds file `y.js`): the store is well formed and `a` is stored; `removeFolder(a)` returns, and
afterwards the folder `b` is still stored and its `parent` is `a`, which is no longer stored. -/
theorem removeFolder_leaves_orphan :
    removalScenario.WellFormed ∧ 0 ∈ removalScenario.getFolders ∧
    (removalScenario.removeFolder 10 0).map
        (fun s' => (s'.getFolders, s'.parentOf 2, decide (0 ∈ s'.getFolders),
          s'.getFolder (removalScenario.obj 0).id)) =
      some ([2], some 0, false, none) :=
  ⟨removalScenario_wellFormed, by decide, by decide⟩

/-! ## Identifiers -/

/-- C13, evaluated on two failing runs with a clock that reads `100` both times: a fresh
store hands out `item_1_100`; after `clearAll()` the next call of `generateId` hands out
`item_1_100` again, and so does the next call after `importData` of a snapshot exported before
the first call.  The two files created around `clearAll()` carry the same id. -/
theorem generateId_repeats_after_reset :
    (FileManager.empty.generateId 100).1 = "item_1_100" ∧
    ((FileManager.empty.generateId 100).2.clearAll.generateId 100).1 = "item_1_100" ∧
    ((((FileManager.empty.generateId 100).2.importData
        (some (FileManager.empty.exportData 50))).2).generateId 100).1 = "item_1_100" ∧
    (((FileManager.empty.createFile "a.txt" "" none 100 100 100).2.clearAll.createFile
        "b.txt" "" none 100 100 100).2.heap.map (fun e => (e.name, e.id))) =
      [("a.txt", "item_1_100"), ("b.txt", "item_1_100")] :=
  ⟨by decide, by decide, by decide, by decide⟩

/-! ## Import of malformed snapshots -/

/-- The loop over the entries of a field runs to its end exactly when every entry can be
destructured. -/
theorem importEntries_flag (entries : List SnapshotEntry) (m : IdMap) :
    (importEntries entries m).2 = true ↔ ∀ e ∈ entries, e ≠ SnapshotEntry.notIterable := by
  induction entries generalizing m with
  | nil => simp [importEntries]
  | cons e rest ih =>
    cases e with
    | pair id record => simp [importEntries, ih]
    | notIterable => simp [importEntries]

theorem importField_flag (field : SnapshotField) (m : IdMap) :
    (importField field m).2 = true ↔
      (field = .falsy ∨ ∃ entries, (field = .array entries ∨ field = .collection entries) ∧
        ∀ e ∈ entries, e ≠ SnapshotEntry.notIterable) := by
  cases field with
  | falsy => simp [importField]
  | array entries => simp [importField, importEntries_flag]
  | collection entries => simp [importField, importEntries_flag]
  | notArray => simp [importField]

namespace FileManager

theorem importData_true_iff (s : FileManager) (data : Option Snapshot) :
    (s.importData data).1 = true ↔
      ∃ d, data = some d ∧ (importField d.files []).2 = true ∧
        (importField d.folders []).2 = true := by
  cases data with
  | none => simp [importData]
  | some d =>
    simp only [importData, Option.some.injEq, exists_eq_left']
    rcases h1 : importField d.files [] with ⟨files, b1⟩
    cases b1
    · simp
    · rcases h2 : importField d.folders [] with ⟨folders, b2⟩
      cases b2 <;> simp

theorem importData_emitted (s : FileManager) (data : Option Snapshot) :
    (s.importData data).2.emitted =
      if (s.importData data).1 then s.emitted ++ [.dataImported] else s.emitted := by
  cases data with
  | none => simp [importData]
  | some d =>
    simp only [importData]
    rcases h1 : importField d.files [] with ⟨files, b1⟩
    cases b1
    · simp
    · rcases h2 : importField d.folders [] with ⟨folders, b2⟩
      cases b2
      · simp
      · simp only []
        rcases d.nextId with _ | n
        · simp [emit]
        · by_cases hn : n = 0 <;> simp [hn, emit]

end FileManager

/-- C14, as amended: `importData` returns a boolean for every argument (it is a total function,
nothing escapes its `try`).  It returns `true` exactly when the argument is neither `null` nor
`undefined` and each of its `files` and `folders` fields is falsy or is a value with a method
`forEach` (an array, but also a `Set` or a `Map`) that passes to the callback only values that
can be destructured; an object without the two fields and a primitive are among these.  It
returns `false` for `null`, for a truthy field without `forEach`, and for a field whose
`forEach` passes a value that cannot be destructured.  A collection is read like the array of
the values it passes.  The ids and records of the entries play no part. -/
theorem importData_result (s : FileManager) (data : Option Snapshot) :
    ((s.importData data).1 = true ↔
      ∃ d, data = some d ∧
        (d.files = .falsy ∨
          ∃ entries, (d.files = .array entries ∨ d.files = .collection entries) ∧
            ∀ e ∈ entries, e ≠ SnapshotEntry.notIterable) ∧
        (d.folders = .falsy ∨
          ∃ entries, (d.folders = .array entries ∨ d.folders = .collection entries) ∧
            ∀ e ∈ entries, e ≠ SnapshotEntry.notIterable)) ∧
    (s.importData none).1 = false ∧
    (∀ d : Snapshot, d.files = .notArray ∨ d.folders = .notArray →
      (s.importData (some d)).1 = false) ∧
    (∀ (d : Snapshot) (entries : List SnapshotEntry),
      (d.files = .array entries ∨ d.files = .collection entries ∨
        d.folders = .array entries ∨ d.folders = .collection entries) →
      SnapshotEntry.notIterable ∈ entries → (s.importData (some d)).1 = false) ∧
    (∀ (d : Snapshot) (entries : List SnapshotEntry),
      s.importData (some { d with files := .collection entries }) =
        s.importData (some { d with files := .array entries }) ∧
      s.importData (some { d with folders := .collection entries }) =
        s.importData (some { d with folders := .array entries })) := by
  have key := s.importData_true_iff
  simp only [importField_flag] at key
  refine ⟨key data, ?_, ?_, ?_, fun d entries => ⟨rfl, rfl⟩⟩
  · rw [Bool.eq_false_iff]
    intro h
    obtain ⟨d, hd, _⟩ := (key none).mp h
    cases hd
  · intro d hd
    rw [Bool.eq_false_iff]
    intro h
    obtain ⟨d', hd', h1, h2⟩ := (key (some d)).mp h
    cases hd'
    rcases hd with hd | hd
    · rw [hd] at h1; simp at h1
    · rw [hd] at h2; simp at h2
  · intro d entries hd hmem
    rw [Bool.eq_false_iff]
    intro h
    obtain ⟨d', hd', h1, h2⟩ := (key (some d)).mp h
    cases hd'
    rcases hd with hd | hd | hd | hd
    · rw [hd] at h1
      rcases h1 with h1 | ⟨es, he | he, h1⟩
      · cases h1
      · cases he; exact h1 _ hmem rfl
      · cases he
    · rw [hd] at h1
      rcases h1 with h1 | ⟨es, he | he, h1⟩
      · cases h1
      · cases he
      · cases he; exact h1 _ hmem rfl
    · rw [hd] at h2
      rcases h2 with h2 | ⟨es, he | he, h2⟩
      · cases h2
      · cases he; exact h2 _ hmem rfl
      · cases he
    · rw [hd] at h2
      rcases h2 with h2 | ⟨es, he | he, h2⟩
      · cases h2
      · cases he
      · cases he; exact h2 _ hmem rfl

/-- C14, counterexample to the claim as stated: a snapshot whose `files` and `folders` fields
are both absent, hence not lists (an empty object, or the number `5`), is imported with the
result `true`; the store is left empty and the `dataImported` event is emitted.  So is a
snapshot whose `files` field is no list but a `Set` holding one pair: the result is `true` and
the record of the pair is stored under its id. -/
theorem importData_accepts_fieldless_snapshot :
    fieldlessSnapshot.files = .falsy ∧ fieldlessSnapshot.folders = .falsy ∧
    (searchScenario.importData (some fieldlessSnapshot)).1 = true ∧
    (searchScenario.importData (some fieldlessSnapshot)).2.getFiles = [] ∧
    (searchScenario.importData (some fieldlessSnapshot)).2.emitted.getLast? =
      some .dataImported ∧
    (searchScenario.importData
      (some { fieldlessSnapshot with files := .collection [.pair "k" 1] })).1 = true ∧
    (searchScenario.importData
      (some { fieldlessSnapshot with files := .collection [.pair "k" 1] })).2.getFile "k" =
        some 1 :=
  ⟨by decide, by decide, by decide, by decide, by decide, by decide, by decide⟩

/-- C15: `importData` is not atomic.  On the search scenario, which stores two files, the call
on a snapshot whose second `files` entry cannot be destructured returns `false` and
leaves a store that holds neither of the two files but holds the first entry of the snapshot;
and whenever `importData` returns `false`, no event is emitted. -/
theorem importData_not_atomic :
    (∃ (s : FileManager) (d : Snapshot),
      s.files ≠ [] ∧ (s.importData (some d)).1 = false ∧
      (s.importData (some d)).2.files ≠ s.files ∧
      (∀ kv ∈ s.files, kv ∉ (s.importData (some d)).2.files) ∧
      (s.importData (some d)).2.files = [("k", 1)] ∧
      (s.importData (some d)).2.nextId = s.nextId) ∧
    (∀ (s : FileManager) (data : Option Snapshot), (s.importData data).1 = false →
      (s.importData data).2.emitted = s.emitted) := by
  refine ⟨⟨searchScenario, brokenSnapshot, by decide, by decide, by decide, by decide,
    by decide, by decide⟩, fun s data h => ?_⟩
  rw [s.importData_emitted, h]
  rfl

/-! ## Existence checks -/

/-- C16: `fileNameExists(n, p)` is true exactly when some element of `p.children` (some stored
file without parent, when `p` is none) has type `file` and the name `n`, and
`folderNameExists(n, p)` exactly when some element of `p.children` (some stored folder without
parent) has type `folder` and the name `n`.  So an entry of the other kind never counts, and
neither does an entry outside the scope; in the naming scenario the folder `lib` does not make
`fileNameExists` true, the file `a.txt` does not make `folderNameExists` true, and `a.txt`
inside `parent` does not exist at the root. -/
theorem nameExists_iff_sibling_of_kind (s : FileManager) (n : String) (p : Option Ref) :
    (s.fileNameExists n p = true ↔
      ∃ item ∈ s.fileScope p, (s.obj item).type = .file ∧ (s.obj item).name = n) ∧
    (s.folderNameExists n p = true ↔
      ∃ item ∈ s.folderScope p, (s.obj item).type = .folder ∧ (s.obj item).name = n) ∧
    (∀ q, s.fileScope (some q) = s.children q ∧ s.folderScope (some q) = s.children q) ∧
    (∀ item, item ∈ s.fileScope none ↔ item ∈ s.getFiles ∧ s.parentOf item = none) ∧
    (∀ item, item ∈ s.folderScope none ↔ item ∈ s.getFolders ∧ s.parentOf item = none) ∧
    ((∀ item ∈ s.fileScope p, (s.obj item).name = n → (s.obj item).type = .folder) →
      s.fileNameExists n p = false) ∧
    ((∀ item ∈ s.folderScope p, (s.obj item).name = n → (s.obj item).type = .file) →
      s.folderNameExists n p = false) ∧
    (namingScenario.fileNameExists "lib" (some 0) = false ∧
      namingScenario.folderNameExists "lib" (some 0) = true ∧
      namingScenario.folderNameExists "a.txt" (some 0) = false ∧
      namingScenario.fileNameExists "a.txt" (some 0) = true ∧
      namingScenario.fileNameExists "a.txt" none = false) := by
  refine ⟨s.fileNameExists_iff n p, s.folderNameExists_iff n p, fun q => ⟨rfl, rfl⟩, ?_, ?_,
    ?_, ?_, by decide⟩
  · intro item
    simp [FileManager.fileScope, FileManager.getRootFiles, List.mem_filter]
  · intro item
    simp [FileManager.folderScope, FileManager.getRootFolders, List.mem_filter]
  · intro h
    rw [Bool.eq_false_iff]
    intro hex
    obtain ⟨item, h1, h2, h3⟩ := (s.fileNameExists_iff n p).mp hex
    rw [h item h1 h3] at h2
    cases h2
  · intro h
    rw [Bool.eq_false_iff]
    intro hex
    obtain ⟨item, h1, h2, h3⟩ := (s.folderNameExists_iff n p).mp hex
    rw [h item h1 h3] at h2
    cases h2

/-! ## Renaming a file -/

/-- C18: after `renameFile(f, n)` of a live file record that is not its own parent, `f.name`
is `n`, `f.path` is `f.parent.path + "/" + n` (`n` without a parent) and `f.modifiedAt` is the
reading of the clock, every other field of `f` is as before, and so is every other record, every
`children` array, both maps and `nextId`; exactly one event is emitted, `fileRenamed` with `f`
and its former name.  No name is checked: in the naming scenario `a.txt` is renamed to the name
of its sibling `a (1).txt`. -/
theorem renameFile_frame (s : FileManager) (f : Ref) (n : String) (now : Nat)
    (hf : f < s.heap.length) (hp : s.parentOf f ≠ some f) :
    (s.renameFile f n now).obj f =
      { s.obj f with
        name := n
        modifiedAt := now
        path := (s.renameFile f n now).pathUnder ((s.renameFile f n now).parentOf f) n } ∧
    (s.renameFile f n now).parentOf f = s.parentOf f ∧
    (∀ r, r ≠ f → (s.renameFile f n now).obj r = s.obj r) ∧
    (∀ r, (s.renameFile f n now).children r = s.children r) ∧
    (s.renameFile f n now).files = s.files ∧
    (s.renameFile f n now).folders = s.folders ∧
    (s.renameFile f n now).nextId = s.nextId ∧
    (s.renameFile f n now).emitted = s.emitted ++ [.fileRenamed f (s.obj f).name] ∧
    (namingScenario.fileNameExists "a (1).txt" (some 0) = true ∧
      ((namingScenario.renameFile 1 "a (1).txt" 7).obj 1).name = "a (1).txt" ∧
      ((namingScenario.renameFile 1 "a (1).txt" 7).obj 2).name = "a (1).txt") := by
  have hother : ∀ r, r ≠ f → (s.renameFile f n now).obj r = s.obj r := by
    intro r hr
    simp [FileManager.renameFile, FileManager.obj_modifyObj_of_ne _ _ (Ne.symm hr)]
  have hself : (s.renameFile f n now).obj f =
      { s.obj f with name := n, modifiedAt := now, path := s.pathUnder (s.parentOf f) n } := by
    have h1 : f < (s.modifyObj f (fun e => { e with name := n })).heap.length := by simpa using hf
    have h2 : f < ((s.modifyObj f (fun e => { e with name := n })).modifyObj f
        (fun e => { e with modifiedAt := now })).heap.length := by simpa using hf
    simp only [FileManager.renameFile, FileManager.saveToStorage_eq, FileManager.emit_obj,
      FileManager.obj_modifyObj_self _ _ _ h2, FileManager.obj_modifyObj_self _ _ _ h1,
      FileManager.obj_modifyObj_self _ _ _ hf, FileManager.parentOf]
    cases hpar : (s.obj f).parent with
    | none => simp [FileManager.pathUnder]
    | some P =>
      have hPf : f ≠ P := by
        rintro rfl
        exact hp hpar
      simp [FileManager.pathUnder, FileManager.obj_modifyObj_of_ne _ _ hPf]
  have hparent : (s.renameFile f n now).parentOf f = s.parentOf f := by
    simp only [FileManager.parentOf, hself]
  refine ⟨?_, hparent, hother, ?_, rfl, rfl, rfl, ?_, by decide⟩
  · rw [hself, hparent]
    cases hpar : s.parentOf f with
    | none => rfl
    | some P =>
      have hPf : P ≠ f := by
        rintro rfl
        exact hp hpar
      simp only [FileManager.pathUnder, hother P hPf]
  · intro r
    by_cases hr : r = f
    · subst hr
      simp only [FileManager.children, hself]
    · simp only [FileManager.children, hother r hr]
  · simp [FileManager.renameFile, FileManager.emit]

/-- The file `a.txt` of the naming scenario satisfies the hypotheses of `renameFile_frame`;
after the renaming it still sits first among the children of `parent`. -/
theorem renameFile_frame_witness :
    1 < namingScenario.heap.length ∧ namingScenario.parentOf 1 ≠ some 1 ∧
    (namingScenario.renameFile 1 "b.txt" 7).emitted =
      namingScenario.emitted ++ [.fileRenamed 1 (namingScenario.obj 1).name] ∧
    ((namingScenario.renameFile 1 "b.txt" 7).obj 1).path = "parent/b.txt" ∧
    (namingScenario.renameFile 1 "b.txt" 7).children 0 = [1, 2, 3] :=
  ⟨by decide, by decide,
    (renameFile_frame namingScenario 1 "b.txt" 7 (by decide) (by decide)).2.2.2.2.2.2.2.1,
    by decide, by decide⟩

/-! ## Creation -/

theorem digitChar_ne_underscore (d : Nat) (h : d < 10) : Nat.digitChar d ≠ '_' := by
  interval_cases d <;> decide

theorem toDigitsCore_no_underscore (fuel : Nat) : ∀ (n : Nat) (ds : List Char),
    '_' ∉ ds → '_' ∉ Nat.toDigitsCore 10 fuel n ds := by
  induction fuel with
  | zero => intro n ds h; simpa [Nat.toDigitsCore] using h
  | succ fuel ih =>
    intro n ds h
    have hd : '_' ∉ Nat.digitChar (n % 10) :: ds := by
      simp only [List.mem_cons, not_or]
      exact ⟨fun e => digitChar_ne_underscore _ (Nat.mod_lt _ (by decide)) e.symm, h⟩
    rw [Nat.toDigitsCore]
    split
    · exact hd
    · exact ih _ _ hd

theorem toString_nat_no_underscore (n : Nat) : '_' ∉ (toString n).data := by
  have := toDigitsCore_no_underscore (n + 1) n [] (by simp)
  simpa [toString, Nat.repr, Nat.toDigits, List.asString] using this

theorem append_sep_cancel (sep : Char) : ∀ (a a' b b' : List Char), sep ∉ a → sep ∉ a' →
    a ++ sep :: b = a' ++ sep :: b' → a = a' ∧ b = b' := by
  intro a
  induction a with
  | nil =>
    intro a' b b' _ ha' h
    cases a' with
    | nil => simpa using h
    | cons c rest =>
      simp only [List.nil_append, List.cons_append, List.cons.injEq] at h
      exact absurd (h.1 ▸ List.mem_cons_self _ _) ha'
  | cons c rest ih =>
    intro a' b b' ha ha' h
    cases a' with
    | nil =>
      simp only [List.nil_append, List.cons_append, List.cons.injEq] at h
      exact absurd (h.1 ▸ List.mem_cons_self _ _) ha
    | cons c' rest' =>
      simp only [List.cons_append, List.cons.injEq] at h
      simp only [List.mem_cons, not_or] at ha ha'
      obtain ⟨h1, h2⟩ := ih rest' b b' ha.2 ha'.2 h.2
      exact ⟨by rw [h.1, h1], h2⟩

namespace FileManager

/-- The id string determines the counter and the reading of the clock it was built from. -/
theorem generateId_injective (s s' : FileManager) (t t' : Nat)
    (h : (s.generateId t).1 = (s'.generateId t').1) : s.nextId = s'.nextId ∧ t = t' := by
  have hd := congrArg String.data h
  simp only [generateId, String.data_append] at hd
  have h1 := @List.append_cancel_left _ "item_".data _ _
    (by simpa [List.append_assoc] using hd)
  have h2 := append_sep_cancel '_' _ _ _ _ (toString_nat_no_underscore s.nextId)
    (toString_nat_no_underscore s'.nextId) h1
  exact ⟨toString_nat_injective (String.ext h2.1), toString_nat_injective (String.ext h2.2)⟩

theorem IdMap_get_set_self (m : IdMap) (k : String) (v : Ref) :
    IdMap.get (IdMap.set m k v) k = some v := by
  induction m with
  | nil => simp [IdMap.set, IdMap.get]
  | cons kv rest ih =>
    obtain ⟨k', v'⟩ := kv
    by_cases h : k' = k
    · simp [IdMap.set, IdMap.get, h]
    · simp [IdMap.set, IdMap.get, h, ih]

theorem IdMap_get_set_of_ne (m : IdMap) (k k' : String) (v : Ref) (h : k ≠ k') :
    IdMap.get (IdMap.set m k v) k' = IdMap.get m k' := by
  induction m with
  | nil => simp [IdMap.set, IdMap.get, h]
  | cons kv rest ih =>
    obtain ⟨k0, v0⟩ := kv
    by_cases h0 : k0 = k
    · subst h0
      simp [IdMap.set, IdMap.get, h]
    · by_cases h1 : k0 = k'
      · subst h1
        simp [IdMap.set, IdMap.get, h0]
      · simp [IdMap.set, IdMap.get, h0, h1, ih]

theorem createFile_fst (s : FileManager) (n c : String) (p : Option Ref) (t a b : Nat) :
    (s.createFile n c p t a b).1 = s.heap.length := by
  cases p <;> rfl

theorem createFile_files (s : FileManager) (n c : String) (p : Option Ref) (t a b : Nat) :
    (s.createFile n c p t a b).2.files = IdMap.set s.files (s.generateId t).1 s.heap.length := by
  cases p <;> rfl

theorem createFile_folders (s : FileManager) (n c : String) (p : Option Ref) (t a b : Nat) :
    (s.createFile n c p t a b).2.folders = s.folders := by
  cases p <;> rfl

theorem createFile_nextId (s : FileManager) (n c : String) (p : Option Ref) (t a b : Nat) :
    (s.createFile n c p t a b).2.nextId = s.nextId + 1 := by
  cases p <;> rfl

theorem createFile_emitted (s : FileManager) (n c : String) (p : Option Ref) (t a b : Nat) :
    (s.createFile n c p t a b).2.emitted = s.emitted ++ [.fileAdded s.heap.length] := by
  cases p <;> rfl

theorem createFile_heap_length (s : FileManager) (n c : String) (p : Option Ref)
    (t a b : Nat) : (s.createFile n c p t a b).2.heap.length = s.heap.length + 1 := by
  cases p <;> simp [createFile, generateId, alloc, pushChild, emit, modifyObj]

/-- The new record of `createFile`, read back from the heap. -/
theorem createFile_obj_new (s : FileManager) (n c : String) (p : Option Ref) (t a b : Nat)
    (hp : ∀ q ∈ p, q < s.heap.length) :
    (s.createFile n c p t a b).2.obj s.heap.length =
      { id := (s.generateId t).1, name := n, content := c, type := .file, children := [],
        createdAt := a, modifiedAt := b, parent := p, isModified := false,
        path := s.pathUnder p n } := by
  cases p with
  | none => simp [createFile, generateId, alloc, emit, obj, pathUnder]
  | some q =>
    have hq : q ≠ s.heap.length := Nat.ne_of_lt (hp q rfl)
    simp [createFile, generateId, alloc, emit, obj, pathUnder, pushChild, modifyObj,
      List.getElem?_modify_ne _ _ hq, List.getElem?_append_left (hp q rfl)]

/-- The records that existed before `createFile`: the parent gets the new record appended to
its `children`, the others are as before. -/
theorem createFile_obj_old (s : FileManager) (n c : String) (p : Option Ref) (t a b : Nat)
    (r : Ref) (hr : r < s.heap.length) :
    (s.createFile n c p t a b).2.obj r =
      if p = some r then { s.obj r with children := (s.obj r).children ++ [s.heap.length] }
      else s.obj r := by
  cases p with
  | none => simp [createFile, generateId, alloc, emit, obj, List.getElem?_append_left hr]
  | some q =>
    by_cases hq : q = r
    · subst hq
      simp [createFile, generateId, alloc, emit, obj, pushChild, modifyObj,
        List.getElem?_modify, List.getElem?_append_left hr, List.getElem?_eq_getElem hr]
    · simp [createFile, generateId, alloc, emit, obj, pushChild, modifyObj,
        List.getElem?_modify_ne _ _ hq, List.getElem?_append_left hr, hq]

end FileManager

/-- Two successive calls `createFile(n, c1, p)` and `createFile(n, c2, p)`, for `p` none or a
live record, return two distinct records `f1`, `f2` with different ids, both found by `getFile`
under their ids, both named `n`, with contents `c1` and `c2`, parent `p`, the path
`p.path + "/" + n` (`n` at the root) and `isModified` false; the children of `p` are its former
children followed by `f1` and `f2`; and when neither generated id is the key of a file already
stored, the stored files are the former ones followed by `f1` and `f2`. -/
theorem createFile_twice_facts (s : FileManager) (n c1 c2 : String) (p : Option Ref)
    (t1 a1 b1 t2 a2 b2 : Nat) (hp : ∀ q ∈ p, q < s.heap.length)
    (f1 f2 : Ref) (s1 s2 : FileManager)
    (h1 : s.createFile n c1 p t1 a1 b1 = (f1, s1))
    (h2 : s1.createFile n c2 p t2 a2 b2 = (f2, s2)) :
    f1 ≠ f2 ∧ (s2.obj f1).id ≠ (s2.obj f2).id ∧
    s2.getFile (s2.obj f1).id = some f1 ∧ s2.getFile (s2.obj f2).id = some f2 ∧
    (s2.obj f1).name = n ∧ (s2.obj f2).name = n ∧
    (s2.obj f1).content = c1 ∧ (s2.obj f2).content = c2 ∧
    (s2.obj f1).parent = p ∧ (s2.obj f2).parent = p ∧
    (s2.obj f1).path = s2.pathUnder p n ∧ (s2.obj f2).path = s2.pathUnder p n ∧
    (s2.obj f1).isModified = false ∧ (s2.obj f2).isModified = false ∧
    (∀ q ∈ p, s2.children q = s.children q ++ [f1, f2]) ∧
    ((s2.obj f1).id ∉ s.files.map Prod.fst → (s2.obj f2).id ∉ s.files.map Prod.fst →
      s2.getFiles = s.getFiles ++ [f1, f2] ∧ s2.files.length = s.files.length + 2) := by
  have e1 : f1 = s.heap.length := by rw [← s.createFile_fst n c1 p t1 a1 b1, h1]
  have es1 : s1 = (s.createFile n c1 p t1 a1 b1).2 := by rw [h1]
  have hlen1 : s1.heap.length = s.heap.length + 1 := by rw [es1, s.createFile_heap_length]
  have e2 : f2 = s.heap.length + 1 := by
    rw [← hlen1, ← s1.createFile_fst n c2 p t2 a2 b2, h2]
  have es2 : s2 = (s1.createFile n c2 p t2 a2 b2).2 := by rw [h2]
  have hp1 : ∀ q ∈ p, q < s1.heap.length :=
    fun q hq => by rw [hlen1]; exact Nat.lt_succ_of_lt (hp q hq)
  subst e1 e2
  have hpf1 : p ≠ some s.heap.length := by
    intro h
    exact lt_irrefl _ (hp s.heap.length (by rw [h]; rfl))
  -- the two records in the final state
  have hobj2 : s2.obj (s.heap.length + 1) =
      { id := (s1.generateId t2).1, name := n, content := c2, type := .file, children := [],
        createdAt := a2, modifiedAt := b2, parent := p, isModified := false,
        path := s1.pathUnder p n } := by
    rw [es2, ← hlen1]; exact s1.createFile_obj_new n c2 p t2 a2 b2 hp1
  have hobj1 : s2.obj s.heap.length =
      { id := (s.generateId t1).1, name := n, content := c1, type := .file, children := [],
        createdAt := a1, modifiedAt := b1, parent := p, isModified := false,
        path := s.pathUnder p n } := by
    rw [es2, s1.createFile_obj_old n c2 p t2 a2 b2 _ (by rw [hlen1]; exact Nat.lt_succ_self _),
      if_neg hpf1, es1]
    exact s.createFile_obj_new n c1 p t1 a1 b1 hp
  have hids : (s.generateId t1).1 ≠ (s1.generateId t2).1 := by
    intro h
    have := (FileManager.generateId_injective s s1 t1 t2 h).1
    rw [es1, s.createFile_nextId] at this
    omega
  have hfiles : s2.files =
      IdMap.set (IdMap.set s.files (s.generateId t1).1 s.heap.length) (s1.generateId t2).1
        (s.heap.length + 1) := by
    rw [es2, s1.createFile_files, hlen1, es1, s.createFile_files]
  -- the path of the parent is untouched
  have hq : ∀ q ∈ p, s2.obj q =
      { s.obj q with children := (s.obj q).children ++ [s.heap.length, s.heap.length + 1] } := by
    intro q hqp
    cases hqp
    rw [es2, s1.createFile_obj_old n c2 (some q) t2 a2 b2 q (hp1 q rfl), if_pos rfl, es1,
      s.createFile_obj_old n c1 (some q) t1 a1 b1 q (hp q rfl), if_pos rfl, ← es1, hlen1]
    simp
  have hpath : s2.pathUnder p n = s.pathUnder p n := by
    cases p with
    | none => rfl
    | some q => simp only [FileManager.pathUnder, hq q rfl]
  have hpath1 : s1.pathUnder p n = s.pathUnder p n := by
    cases p with
    | none => rfl
    | some q =>
      simp only [FileManager.pathUnder]
      rw [es1, s.createFile_obj_old n c1 (some q) t1 a1 b1 q (hp q rfl), if_pos rfl]
  refine ⟨Nat.ne_of_lt (Nat.lt_succ_self _), ?_, ?_, ?_, ?_, ?_, ?_, ?_, ?_, ?_, ?_, ?_, ?_, ?_, ?_, ?_⟩
  · rw [hobj1, hobj2]; exact hids
  · rw [hobj1]
    show IdMap.get s2.files _ = _
    rw [hfiles, FileManager.IdMap_get_set_of_ne _ _ _ _ (Ne.symm hids),
      FileManager.IdMap_get_set_self]
  · rw [hobj2]
    show IdMap.get s2.files _ = _
    rw [hfiles, FileManager.IdMap_get_set_self]
  · rw [hobj1]
  · rw [hobj2]
  · rw [hobj1]
  · rw [hobj2]
  · rw [hobj1]
  · rw [hobj2]
  · rw [hobj1, hpath]
  · rw [hobj2, hpath, hpath1]
  · rw [hobj1]
  · rw [hobj2]
  · intro q hqp
    simp only [FileManager.children, hq q hqp]
  · rw [hobj1, hobj2]
    intro hf1 hf2
    replace hf1 : (s.generateId t1).1 ∉ s.files.map Prod.fst := hf1
    replace hf2 : (s1.generateId t2).1 ∉ s.files.map Prod.fst := hf2
    have hset1 := IdMap.set_of_not_mem s.files _ s.heap.length hf1
    have hf2' : (s1.generateId t2).1 ∉
        (s.files ++ [((s.generateId t1).1, s.heap.length)]).map Prod.fst := by
      simp only [List.map_append, List.mem_append, List.map_cons, List.map_nil,
        List.mem_singleton, not_or]
      exact ⟨hf2, Ne.symm hids⟩
    unfold FileManager.getFiles
    rw [hfiles, hset1, IdMap.set_of_not_mem _ _ (s.heap.length + 1) hf2']
    simp

/-! ## Subscribers -/

namespace EventBus

variable {κ α : Type}

theorem lookup_assign_self (own : List (String × List κ)) (event : String)
    (callbacks : List κ) : List.lookup event (assign own event callbacks) = some callbacks := by
  induction own with
  | nil => simp [assign, List.lookup]
  | cons ec rest ih =>
    obtain ⟨e, cs⟩ := ec
    by_cases h : e = event
    · simp [assign, h, List.lookup]
    · have h' : (event == e) = false := by simpa using fun e' => h e'.symm
      simp [assign, h, List.lookup, h', ih]

theorem lookup_assign_of_ne (own : List (String × List κ)) (event other : String)
    (callbacks : List κ) (hne : other ≠ event) :
    List.lookup other (assign own event callbacks) = List.lookup other own := by
  induction own with
  | nil =>
    have h' : (other == event) = false := by simpa using hne
    simp [assign, List.lookup, h']
  | cons ec rest ih =>
    obtain ⟨e, cs⟩ := ec
    by_cases h : e = event
    · subst h
      have h' : (other == e) = false := by simpa using hne
      simp [assign, List.lookup, h']
    · by_cases h2 : other = e
      · subst h2
        simp [assign, h, List.lookup]
      · have h' : (other == e) = false := by simpa using h2
        simp [assign, h, List.lookup, h', ih]

/-- The callbacks registered on a channel, as `emit` will call them: none for a channel without
an own property. -/
theorem emit_eq (b : EventBus κ) (event : String) (args : α)
    (h : event ∉ objectPrototypeKeys) :
    b.emit event args =
      some (((b.own.lookup event).getD []).map fun callback => (callback, args)) := by
  unfold emit lookup
  cases b.own.lookup event with
  | none => simp [h]
  | some cs => simp

/-- A registration on a channel whose name is not inherited succeeds and appends the callback
to the array of that channel, leaving the arrays of the other channels alone. -/
theorem onEvent_spec (b : EventBus κ) (event : String) (callback : κ)
    (h : event ∉ objectPrototypeKeys) :
    ∃ b', b.onEvent event callback = some b' ∧
      (b'.own.lookup event).getD [] = (b.own.lookup event).getD [] ++ [callback] ∧
      ∀ other, other ≠ event → b'.own.lookup other = b.own.lookup other := by
  unfold onEvent lookup
  cases hl : b.own.lookup event with
  | none =>
    simp only [h, if_false, lookup_assign_self]
    refine ⟨_, rfl, ?_, fun other hne => ?_⟩
    · simp [lookup_assign_self]
    · simp only [lookup_assign_of_ne _ _ _ _ hne]
  | some cs =>
    simp only [hl]
    refine ⟨_, rfl, ?_, fun other hne => ?_⟩
    · simp [lookup_assign_self]
    · simp only [lookup_assign_of_ne _ _ _ _ hne]

/-- After a sequence of registrations on channels whose names are not inherited, the array of
a channel is its former array followed by the callbacks registered on it, in order. -/
theorem onAll_spec (registrations : List (String × κ)) :
    ∀ (b : EventBus κ), (∀ r ∈ registrations, r.1 ∉ objectPrototypeKeys) →
      ∃ b', b.onAll registrations = some b' ∧
        ∀ event, (b'.own.lookup event).getD [] =
          (b.own.lookup event).getD [] ++
            (registrations.filter (fun r => r.1 = event)).map Prod.snd := by
  induction registrations with
  | nil => intro b _; exact ⟨b, rfl, fun _ => by simp⟩
  | cons r rest ih =>
    intro b h
    obtain ⟨b1, h1, h2, h3⟩ := onEvent_spec b r.1 r.2 (h r (List.mem_cons_self _ _))
    obtain ⟨b', h4, h5⟩ := ih b1 (fun r' hr' => h r' (List.mem_cons_of_mem _ hr'))
    refine ⟨b', by simp [onAll, List.foldlM, h1]; exact h4, fun event => ?_⟩
    rw [h5 event]
    by_cases he : r.1 = event
    · subst he
      simp [h2]
    · rw [h3 event (Ne.symm he)]
      simp [he]

end EventBus

/-- C19, with the inputs on which it fails.  For channel names that are not names of properties
of `Object.prototype`: after any sequence of registrations, `emit(e, args)` calls the callbacks
registered on `e`, each once per registration and in registration order, with `args`, and no
callback registered on another channel only; on a channel without subscribers it calls nothing.
For the channel name `toString`, which every plain object inherits: on a fresh instance
`on("toString", cb)` and `emit("toString", args)` both end in a `TypeError`, and so does
`emit("constructor", args)` after an ordinary registration. -/
theorem emit_calls_subscribers_in_order (κ α : Type) :
    (∀ (registrations : List (String × κ)) (e : String) (args : α),
      (∀ r ∈ registrations, r.1 ∉ objectPrototypeKeys) → e ∉ objectPrototypeKeys →
      ∃ b, (EventBus.empty : EventBus κ).onAll registrations = some b ∧
        b.emit e args =
          some (((registrations.filter (fun r => r.1 = e)).map Prod.snd).map
            fun callback => (callback, args))) ∧
    (∀ (e : String) (args : α), e ∉ objectPrototypeKeys →
      (EventBus.empty : EventBus κ).emit e args = some []) ∧
    "toString" ∈ objectPrototypeKeys ∧
    (∀ callback : κ, (EventBus.empty : EventBus κ).onEvent "toString" callback = none) ∧
    (∀ args : α, (EventBus.empty : EventBus κ).emit "toString" args = none) ∧
    (∀ (callback : κ) (args : α),
      ((EventBus.empty : EventBus κ).onEvent "fileAdded" callback).bind
        (fun b => b.emit "constructor" args) = none) := by
  refine ⟨?_, ?_, by decide, fun _ => rfl, fun _ => rfl, fun _ _ => rfl⟩
  · intro registrations e args hregs he
    obtain ⟨b, h1, h2⟩ := EventBus.onAll_spec registrations EventBus.empty hregs
    refine ⟨b, h1, ?_⟩
    rw [EventBus.emit_eq b e args he, h2 e]
    simp [EventBus.empty]
  · intro e args he
    rw [EventBus.emit_eq _ e args he]
    simp [EventBus.empty]

/-! ## Views -/

namespace FileManager

theorem obj_modifyObj_cases (s : FileManager) (file : Ref) (f : Entity → Entity) (r : Ref) :
    (s.modifyObj file f).obj r = s.obj r ∨
      (r = file ∧ (s.modifyObj file f).obj r = f (s.obj r)) := by
  by_cases hl : file < s.heap.length
  · by_cases hr : file = r
    · subst hr
      exact Or.inr ⟨rfl, obj_modifyObj_self _ _ _ hl⟩
    · exact Or.inl (obj_modifyObj_of_ne _ _ hr)
  · rw [modifyObj_of_fixed _ _ _ (fun h => absurd h hl)]
    exact Or.inl rfl

end FileManager

namespace Editor

theorem switchToTab_fileManager (a : CodeEditor) (fileId : String) :
    (switchToTab a fileId).fileManager = a.fileManager := by
  unfold switchToTab
  split <;> rfl

theorem markTabAsModified_fileManager (a : CodeEditor) (tab : String) :
    (markTabAsModified a tab).fileManager = a.fileManager := by
  unfold markTabAsModified
  split
  · split <;> rfl
  · rfl

theorem openFile_fileManager (a : CodeEditor) (file : Ref) :
    (openFile a file).fileManager = a.fileManager := by
  unfold openFile
  simp only
  split <;> simp [switchToTab_fileManager]

theorem onDidChangeModelContent_fileManager (a : CodeEditor) (text : String) :
    (onDidChangeModelContent a text).fileManager = a.fileManager := by
  unfold onDidChangeModelContent
  split
  · split
    · simp [CodeEditor.emitView, markTabAsModified_fileManager, CodeEditor.modifyTab]
    · rfl
  · rfl

/-- The only write of `saveFile` to the store is the assignment to `content` of its argument. -/
theorem saveFile_fileManager (a : CodeEditor) (file : Ref) :
    (saveFile a file).fileManager = a.fileManager ∨
      ∃ c, (saveFile a file).fileManager =
        a.fileManager.modifyObj file (fun e => { e with content := c, contentMissing := false }) := by
  unfold saveFile
  split
  · exact Or.inl rfl
  · rename_i tab _
    exact Or.inr ⟨tab.model, rfl⟩

theorem saveCurrentFile_fileManager (a : CodeEditor) :
    (saveCurrentFile a).fileManager = a.fileManager ∨
      ∃ file c, (saveCurrentFile a).fileManager =
        a.fileManager.modifyObj file (fun e => { e with content := c, contentMissing := false }) := by
  unfold saveCurrentFile
  split
  · split
    · rename_i t _
      rcases saveFile_fileManager a t.file with h | ⟨c, h⟩
      · exact Or.inl h
      · exact Or.inr ⟨t.file, c, h⟩
    · exact Or.inl rfl
  · exact Or.inl rfl

theorem closeTab_fileManager (a : CodeEditor) (fileId : String) (shouldSave : Bool) :
    (closeTab a fileId shouldSave).fileManager = a.fileManager ∨
      (shouldSave = true ∧ ∃ file c, (closeTab a fileId shouldSave).fileManager =
        a.fileManager.modifyObj file (fun e => { e with content := c, contentMissing := false })) := by
  unfold closeTab
  split
  · exact Or.inl rfl
  · rename_i tab _
    have hrest : ∀ b : CodeEditor,
        (if ({ b with openTabs := b.openTabs.filter (fun kv => kv.1 ≠ fileId) }.emitView
              (.tabClose tab.file)).activeTab = some fileId then
            match ({ ({ b with openTabs := b.openTabs.filter (fun kv => kv.1 ≠ fileId) }.emitView
                (.tabClose tab.file)) with activeTab := none }).openTabs with
            | (_, first) :: _ => switchToTab
                { ({ b with openTabs := b.openTabs.filter (fun kv => kv.1 ≠ fileId) }.emitView
                  (.tabClose tab.file)) with activeTab := none } first.id
            | [] => { ({ b with openTabs := b.openTabs.filter (fun kv => kv.1 ≠ fileId) }.emitView
                  (.tabClose tab.file)) with activeTab := none }
          else ({ b with openTabs := b.openTabs.filter (fun kv => kv.1 ≠ fileId) }.emitView
              (.tabClose tab.file))).fileManager = b.fileManager := by
      intro b
      split
      · split
        · rw [switchToTab_fileManager]; rfl
        · rfl
      · rfl
    simp only
    rw [hrest]
    by_cases hs : (tab.isModified && shouldSave) = true
    · rw [if_pos hs]
      have hsave : shouldSave = true := by
        simp only [Bool.and_eq_true] at hs
        exact hs.2
      rcases saveFile_fileManager a tab.file with h | ⟨c, h⟩
      · exact Or.inl h
      · exact Or.inr ⟨hsave, tab.file, c, h⟩
    · rw [if_neg hs]
      exact Or.inl rfl

end Editor

/-- What a call of a view method does to the store: nothing, or an assignment to `isModified`
of the argument of `markFileAsModified` / `unmarkFileAsModified`, or the assignment of
`saveFile` to `content`. -/
theorem step_fileManager (a : CodeEditor) (op : ViewOp) :
    (a.step op).fileManager = a.fileManager ∨
    (∃ file b, op.setsIsModified file = true ∧ (a.step op).fileManager =
      a.fileManager.modifyObj file (fun e => { e with isModified := b })) ∨
    (∃ file c, op.savesContent = true ∧ (a.step op).fileManager =
      a.fileManager.modifyObj file (fun e => { e with content := c, contentMissing := false })) := by
  cases op with
  | render => exact Or.inl rfl
  | toggleFolder folderId =>
    refine Or.inl ?_
    simp only [CodeEditor.step, FileExplorer.toggleFolder, FileExplorer.render]
    split <;> rfl
  | selectFile fileId =>
    refine Or.inl ?_
    simp only [CodeEditor.step, FileExplorer.selectFile]
    split <;> rfl
  | markFileAsModified file =>
    exact Or.inr (Or.inl ⟨file, true, by simp [ViewOp.setsIsModified], rfl⟩)
  | unmarkFileAsModified file =>
    exact Or.inr (Or.inl ⟨file, false, by simp [ViewOp.setsIsModified], rfl⟩)
  | refresh => exact Or.inl rfl
  | clearSelection => exact Or.inl rfl
  | focusFile file =>
    refine Or.inl ?_
    simp only [CodeEditor.step, FileExplorer.focusFile, FileExplorer.selectFile]
    split <;> rfl
  | expandToFile file =>
    refine Or.inl ?_
    simp only [CodeEditor.step, FileExplorer.expandToFile, FileExplorer.render]
    split
    · split <;> rfl
    · rfl
  | filterFiles searchTerm => exact Or.inl rfl
  | openFile file => exact Or.inl (Editor.openFile_fileManager a file)
  | switchToTab fileId => exact Or.inl (Editor.switchToTab_fileManager a fileId)
  | closeTab fileId shouldSave =>
    rcases Editor.closeTab_fileManager a fileId shouldSave with h | ⟨hs, file, c, h⟩
    · exact Or.inl h
    · exact Or.inr (Or.inr ⟨file, c, hs, h⟩)
  | closeCurrentTab shouldSave =>
    simp only [CodeEditor.step, Editor.closeCurrentTab]
    split
    · rename_i key _
      rcases Editor.closeTab_fileManager a key shouldSave with h | ⟨hs, file, c, h⟩
      · exact Or.inl h
      · exact Or.inr (Or.inr ⟨file, c, hs, h⟩)
    · exact Or.inl rfl
  | closeFile file shouldSave =>
    rcases Editor.closeTab_fileManager a (a.fileManager.obj file).id shouldSave with
      h | ⟨hs, file', c, h⟩
    · exact Or.inl h
    · exact Or.inr (Or.inr ⟨file', c, hs, h⟩)
  | markTabAsModified tab => exact Or.inl (Editor.markTabAsModified_fileManager a tab)
  | markTabAsSaved tab => exact Or.inl rfl
  | onDidChangeModelContent text =>
    exact Or.inl (Editor.onDidChangeModelContent_fileManager a text)
  | saveCurrentFile =>
    rcases Editor.saveCurrentFile_fileManager a with h | ⟨file, c, h⟩
    · exact Or.inl h
    · exact Or.inr (Or.inr ⟨file, c, rfl, h⟩)
  | saveFile file =>
    rcases Editor.saveFile_fileManager a file with h | ⟨c, h⟩
    · exact Or.inl h
    · exact Or.inr (Or.inr ⟨file, c, rfl, h⟩)
  | updateFileTab file => exact Or.inl rfl

/-- C20, as amended: a call of a method of the tree view or of the tabs view leaves both maps,
`nextId`, the events of the store and the number of records as they are, and leaves every field
of every record as it is except `isModified` and `content`; `isModified` of a record changes
only in `markFileAsModified` and `unmarkFileAsModified` called on that record, and `content`
(the text, and whether the record has one) only through the assignment of `saveFile` (called
directly, from `saveCurrentFile`, or from a closing of a tab with the saving confirmed); every
other call leaves the store as it is. -/
theorem views_write_isModified_and_content_only (a : CodeEditor) (op : ViewOp) :
    (a.step op).fileManager.files = a.fileManager.files ∧
    (a.step op).fileManager.folders = a.fileManager.folders ∧
    (a.step op).fileManager.nextId = a.fileManager.nextId ∧
    (a.step op).fileManager.emitted = a.fileManager.emitted ∧
    (a.step op).fileManager.heap.length = a.fileManager.heap.length ∧
    (∀ r, { (a.step op).fileManager.obj r with
        isModified := (a.fileManager.obj r).isModified
        content := (a.fileManager.obj r).content
        contentMissing := (a.fileManager.obj r).contentMissing } = a.fileManager.obj r) ∧
    (∀ r, ((a.step op).fileManager.obj r).isModified ≠ (a.fileManager.obj r).isModified →
      op.setsIsModified r = true) ∧
    (∀ r, ((a.step op).fileManager.obj r).content ≠ (a.fileManager.obj r).content →
      op.savesContent = true) ∧
    (∀ r, ((a.step op).fileManager.obj r).contentMissing ≠
        (a.fileManager.obj r).contentMissing → op.savesContent = true) ∧
    ((∀ r, op.setsIsModified r = false) → op.savesContent = false →
      (a.step op).fileManager = a.fileManager) := by
  rcases step_fileManager a op with h | ⟨file, b, hop, h⟩ | ⟨file, c, hop, h⟩
  · rw [h]
    exact ⟨rfl, rfl, rfl, rfl, rfl, fun _ => rfl, fun _ hne => absurd rfl hne,
      fun _ hne => absurd rfl hne, fun _ hne => absurd rfl hne, fun _ _ => rfl⟩
  · rw [h]
    refine ⟨rfl, rfl, rfl, rfl, by simp, fun r => ?_, fun r hne => ?_, fun r hne => ?_,
      fun r hne => ?_, fun hno _ => ?_⟩
    · rcases a.fileManager.obj_modifyObj_cases file (fun e => { e with isModified := b }) r with
        h' | ⟨_, h'⟩ <;> rw [h']
    · rcases a.fileManager.obj_modifyObj_cases file (fun e => { e with isModified := b }) r with
        h' | ⟨hr, _⟩
      · rw [h'] at hne; exact absurd rfl hne
      · rw [hr]; exact hop
    · rcases a.fileManager.obj_modifyObj_cases file (fun e => { e with isModified := b }) r with
        h' | ⟨_, h'⟩ <;> rw [h'] at hne <;> exact absurd rfl hne
    · rcases a.fileManager.obj_modifyObj_cases file (fun e => { e with isModified := b }) r with
        h' | ⟨_, h'⟩ <;> rw [h'] at hne <;> exact absurd rfl hne
    · rw [hno file] at hop; cases hop
  · rw [h]
    refine ⟨rfl, rfl, rfl, rfl, by simp, fun r => ?_, fun r hne => ?_, fun r hne => hop,
      fun r hne => hop, fun _ hno => ?_⟩
    · rcases a.fileManager.obj_modifyObj_cases file (fun e => { e with content := c, contentMissing := false }) r with
        h' | ⟨_, h'⟩ <;> rw [h']
    · rcases a.fileManager.obj_modifyObj_cases file (fun e => { e with content := c, contentMissing := false }) r with
        h' | ⟨_, h'⟩ <;> rw [h'] at hne <;> exact absurd rfl hne
    · rw [hno] at hop; cases hop

/-- C20, counterexample to the claim as stated: with the search scenario as the store,
`markFileAsModified(note.txt)` of the tree view turns `isModified` of the stored record from
false to true, and `saveFile(note.txt)` of the tabs view, after the file was opened and the text
`new` typed, turns its `content` from `say hi` into `new`; the store emits no event and its
own `isModified` flag of the file stays false. -/
theorem views_mutate_store_entities :
    1 ∈ viewScenario.fileManager.getFiles ∧
    (viewScenario.fileManager.obj 1).isModified = false ∧
    ((viewScenario.step (.markFileAsModified 1)).fileManager.obj 1).isModified = true ∧
    (viewScenario.fileManager.obj 1).content = "say hi" ∧
    ((((viewScenario.step (.openFile 1)).step (.onDidChangeModelContent "new")).step
        (.saveFile 1)).fileManager.obj 1).content = "new" ∧
    ((((viewScenario.step (.openFile 1)).step (.onDidChangeModelContent "new")).step
        (.saveFile 1)).fileManager.obj 1).isModified = false ∧
    (((viewScenario.step (.openFile 1)).step (.onDidChangeModelContent "new")).step
        (.saveFile 1)).fileManager.emitted = viewScenario.fileManager.emitted :=
  ⟨by decide, by decide, by decide, by decide, by decide, by decide, by decide⟩

/-! ## Preservation of the containment invariant -/

namespace FileManager

theorem modifyObj_children_of (s : FileManager) (r : Ref) (f : Entity → Entity)
    (hf : ∀ e, (f e).children = e.children) (r' : Ref) :
    (s.modifyObj r f).children r' = s.children r' := by
  unfold children
  rcases s.obj_modifyObj_cases r f r' with h | ⟨_, h⟩ <;> rw [h]
  exact hf _

theorem modifyObj_parentOf_of (s : FileManager) (r : Ref) (f : Entity → Entity)
    (hf : ∀ e, (f e).parent = e.parent) (r' : Ref) :
    (s.modifyObj r f).parentOf r' = s.parentOf r' := by
  unfold parentOf
  rcases s.obj_modifyObj_cases r f r' with h | ⟨_, h⟩ <;> rw [h]
  exact hf _

theorem modifyObj_id_type_of (s : FileManager) (r : Ref) (f : Entity → Entity)
    (hf : ∀ e, (f e).id = e.id ∧ (f e).type = e.type) (r' : Ref) :
    ((s.modifyObj r f).obj r').id = (s.obj r').id ∧
      ((s.modifyObj r f).obj r').type = (s.obj r').type := by
  rcases s.obj_modifyObj_cases r f r' with h | ⟨_, h⟩ <;> rw [h]
  · exact ⟨rfl, rfl⟩
  · exact hf _

theorem pushChild_children (s : FileManager) (t x r : Ref) (ht : t < s.heap.length) :
    (s.pushChild t x).children r = s.children r ++ (if t = r then [x] else []) := by
  unfold pushChild children
  rw [obj_modifyObj _ _ _ _ ht]
  split <;> simp

theorem detach_children_cases (s : FileManager) (x r : Ref) :
    (s.detach x).children r =
      if s.parentOf x = some r then (s.children r).erase x else s.children r := by
  unfold children
  split
  · rename_i h
    rw [detach_obj_parent s x r h]
    rfl
  · rename_i h
    rw [detach_obj_of_ne s x r h]

theorem detach_obj_fields (s : FileManager) (x r : Ref) :
    (s.detach x).parentOf r = s.parentOf r ∧ ((s.detach x).obj r).id = (s.obj r).id ∧
      ((s.detach x).obj r).type = (s.obj r).type := by
  unfold parentOf
  by_cases h : s.parentOf x = some r
  · rw [detach_obj_parent s x r h]
    exact ⟨rfl, rfl, rfl⟩
  · rw [detach_obj_of_ne s x r h]
    exact ⟨rfl, rfl, rfl⟩

theorem attach_children (s : FileManager) (x : Ref) (T : Option Ref) (r : Ref)
    (hT : ∀ t ∈ T, t < s.heap.length) :
    (s.attach x T).children r = s.children r ++ (if T = some r then [x] else []) := by
  cases T with
  | none =>
    simp only [attach, reduceCtorEq, if_false, List.append_nil]
    refine (modifyObj_children_of _ _ _ ?_ _).trans ?_
    · intro e; rfl
    · refine modifyObj_children_of _ _ _ ?_ _
      intro e; rfl
  | some t =>
    simp only [attach, Option.some.injEq]
    refine (modifyObj_children_of _ _ _ ?_ _).trans ?_
    · intro e; rfl
    · rw [pushChild_children _ _ _ _ (by simpa using hT t rfl)]
      congr 1
      refine modifyObj_children_of _ _ _ ?_ _
      intro e; rfl

theorem attach_parentOf (s : FileManager) (x : Ref) (T : Option Ref) (r : Ref)
    (hx : x < s.heap.length) :
    (s.attach x T).parentOf r = if r = x then T else s.parentOf r := by
  have hbase : (s.modifyObj x (fun e => { e with parent := T })).parentOf r =
      if r = x then T else s.parentOf r := by
    unfold parentOf
    rw [obj_modifyObj _ _ _ _ hx]
    by_cases h : x = r
    · subst h; simp
    · simp [h, Ne.symm h]
  cases T with
  | none =>
    simp only [attach]
    refine (modifyObj_parentOf_of _ _ _ ?_ _).trans hbase
    intro e; rfl
  | some t =>
    simp only [attach]
    refine (modifyObj_parentOf_of _ _ _ ?_ _).trans ?_
    · intro e; rfl
    · unfold pushChild
      refine (modifyObj_parentOf_of _ _ _ ?_ _).trans hbase
      intro e; rfl

theorem attach_id_type (s : FileManager) (x : Ref) (T : Option Ref) (r : Ref) :
    ((s.attach x T).obj r).id = (s.obj r).id ∧ ((s.attach x T).obj r).type = (s.obj r).type := by
  cases T with
  | none =>
    simp only [attach]
    have h1 := modifyObj_id_type_of (s.modifyObj x (fun e => { e with parent := none })) x
      (fun e => { e with path :=
        ((s.modifyObj x (fun e => { e with parent := none })).obj x).name })
      (fun _ => ⟨rfl, rfl⟩) r
    have h2 := modifyObj_id_type_of s x (fun e => { e with parent := none })
      (fun _ => ⟨rfl, rfl⟩) r
    exact ⟨h1.1.trans h2.1, h1.2.trans h2.2⟩
  | some t =>
    simp only [attach, pushChild]
    have h3 := modifyObj_id_type_of s x (fun e => { e with parent := some t })
      (fun _ => ⟨rfl, rfl⟩) r
    have h2 := modifyObj_id_type_of (s.modifyObj x (fun e => { e with parent := some t })) t
      (fun e => { e with children := e.children ++ [x] }) (fun _ => ⟨rfl, rfl⟩) r
    have h1 := modifyObj_id_type_of
      ((s.modifyObj x (fun e => { e with parent := some t })).modifyObj t
        (fun e => { e with children := e.children ++ [x] })) x
      (fun e => { e with path :=
        ((((s.modifyObj x (fun e => { e with parent := some t })).modifyObj t
            (fun e => { e with children := e.children ++ [x] })).obj t).path ++ "/" ++
          (((s.modifyObj x (fun e => { e with parent := some t })).modifyObj t
            (fun e => { e with children := e.children ++ [x] })).obj x).name) })
      (fun _ => ⟨rfl, rfl⟩) r
    exact ⟨h1.1.trans (h2.1.trans h3.1), h1.2.trans (h2.2.trans h3.2)⟩

end FileManager

namespace FileManager

/-- A state `s'` obtained from `s` by taking the entry `x` out of the `children` that held it
and, when `T` is a folder, appending it to those of `T` with `T` as its `parent` satisfies I1
when `s` does. -/
theorem I1_relink (s s' : FileManager) (x : Ref) (T : Option Ref) (hI : s.I1)
    (hstored : ∀ c ∈ s'.getFiles ++ s'.getFolders, c ∈ s.getFiles ++ s.getFolders ∨ c = x)
    (hfolders : ∀ q ∈ s'.getFolders, q ∈ s.getFolders ∨ (q = x ∧ s'.children x = []))
    (hpar : ∀ r, r ≠ x → s'.parentOf r = s.parentOf r)
    (hparx : x ∈ s'.getFiles ++ s'.getFolders ∨ T ≠ none → s'.parentOf x = T)
    (hT : ∀ t ∈ T, t ∈ s.getFolders)
    (hch : ∀ r, ∃ base, s'.children r = base ++ (if T = some r then [x] else []) ∧
      (∀ c, c ≠ x → base.count c = (s.children r).count c) ∧
      (r ∈ s.getFolders → base.count x = 0)) : s'.I1 := by
  obtain ⟨hA, hB⟩ := hI
  have hB' : ∀ p ∈ s'.getFolders, ∀ c ∈ s'.children p, s'.parentOf c = some p := by
    intro p hp c hc
    rcases hfolders p hp with hp0 | ⟨rfl, hnil⟩
    · obtain ⟨base, hbase, hcount, hx⟩ := hch p
      rw [hbase, List.mem_append] at hc
      rcases hc with hc | hc
      · have hcx : c ≠ x := by
          rintro rfl
          have := List.count_pos_iff.mpr hc
          rw [hx hp0] at this
          exact lt_irrefl _ this
        have hmem : c ∈ s.children p := by
          rw [← List.count_pos_iff, ← hcount c hcx]
          exact List.count_pos_iff.mpr hc
        rw [hpar c hcx]
        exact hB p hp0 c hmem
      · by_cases hTp : T = some p
        · rw [if_pos hTp] at hc
          have hcx : c = x := by simpa using hc
          rw [hcx, hparx (Or.inr (by rw [hTp]; simp)), hTp]
        · rw [if_neg hTp] at hc
          cases hc
    · rw [hnil] at hc
      cases hc
  refine ⟨fun c hc P hP => ⟨?_, fun Q hQ hne hmem => ?_⟩, hB'⟩
  · have hP' : s'.parentOf c = some P := hP
    by_cases hcx : c = x
    · subst hcx
      have hTP : T = some P := by rw [← hparx (Or.inl hc)]; exact hP'
      obtain ⟨base, hbase, _, hx⟩ := hch P
      rw [hbase, if_pos hTP, List.count_append, hx (hT P (by rw [hTP]; rfl))]
      simp
    · have hc0 : c ∈ s.getFiles ++ s.getFolders := (hstored c hc).resolve_right hcx
      have hP0 : s.parentOf c = some P := by rw [← hpar c hcx]; exact hP'
      obtain ⟨base, hbase, hcount, _⟩ := hch P
      rw [hbase, List.count_append, hcount c hcx, (hA c hc0 P hP0).1]
      split
      · simp [List.count_cons, hcx, Ne.symm hcx]
      · simp
  · have h1 := hB' Q hQ c hmem
    have h2 : s'.parentOf c = some P := hP
    rw [h1] at h2
    exact hne (Option.some.inj h2)

/-- The representation of the store is kept by a change that leaves the ids and kinds of the
existing records alone and adds only live records of the right kind to the maps and to the
`children` of stored folders. -/
theorem MapsOk_relink (s s' : FileManager) (hM : s.MapsOk)
    (hlen : s.heap.length ≤ s'.heap.length)
    (hobj : ∀ r, r < s.heap.length →
      (s'.obj r).id = (s.obj r).id ∧ (s'.obj r).type = (s.obj r).type)
    (hfiles : ∀ kv ∈ s'.files, kv ∈ s.files ∨
      (kv.2 < s'.heap.length ∧ (s'.obj kv.2).id = kv.1 ∧ (s'.obj kv.2).type = .file))
    (hfolders : ∀ kv ∈ s'.folders, kv ∈ s.folders ∨
      (kv.2 < s'.heap.length ∧ (s'.obj kv.2).id = kv.1 ∧ (s'.obj kv.2).type = .folder))
    (hchildren : ∀ p ∈ s'.getFolders, ∀ c ∈ s'.children p,
      (p ∈ s.getFolders ∧ c ∈ s.children p) ∨ c < s'.heap.length) : s'.MapsOk := by
  refine ⟨fun kv hkv => ?_, fun kv hkv => ?_, fun p hp c hc => ?_⟩
  · rcases hfiles kv hkv with h | h
    · obtain ⟨h1, h2, h3⟩ := hM.files_ok kv h
      exact ⟨lt_of_lt_of_le h1 hlen, by rw [(hobj _ h1).1, h2], by rw [(hobj _ h1).2, h3]⟩
    · exact h
  · rcases hfolders kv hkv with h | h
    · obtain ⟨h1, h2, h3⟩ := hM.folders_ok kv h
      exact ⟨lt_of_lt_of_le h1 hlen, by rw [(hobj _ h1).1, h2], by rw [(hobj _ h1).2, h3]⟩
    · exact h
  · rcases hchildren p hp c hc with ⟨h1, h2⟩ | h
    · exact lt_of_lt_of_le (hM.children_live p h1 c h2) hlen
    · exact h

end FileManager

namespace FileManager

theorem MapsOk.stored_live {s : FileManager} (hM : s.MapsOk) {x : Ref}
    (hx : x ∈ s.getFiles ++ s.getFolders) : x < s.heap.length := by
  rcases List.mem_append.mp hx with h | h
  · obtain ⟨kv, hkv, rfl⟩ := List.mem_map.mp h
    exact (hM.files_ok kv hkv).1
  · obtain ⟨kv, hkv, rfl⟩ := List.mem_map.mp h
    exact (hM.folders_ok kv hkv).1

theorem MapsOk.file_not_folder {s : FileManager} (hM : s.MapsOk) {f : Ref}
    (hf : f ∈ s.getFiles) : f ∉ s.getFolders := by
  intro hg
  obtain ⟨kf, hkf, rfl⟩ := List.mem_map.mp hf
  obtain ⟨kg, hkg, he⟩ := List.mem_map.mp hg
  have h1 := (hM.files_ok kf hkf).2.2
  have h2 := (hM.folders_ok kg hkg).2.2
  rw [he, h1] at h2
  cases h2

/-- The counts in the `children` arrays after the detachment of a stored entry `x`. -/
theorem detach_counts (s : FileManager) (x : Ref) (hI : s.I1)
    (hx : x ∈ s.getFiles ++ s.getFolders) (r : Ref) :
    (∀ c, c ≠ x → ((s.detach x).children r).count c = (s.children r).count c) ∧
    (r ∈ s.getFolders → ((s.detach x).children r).count x = 0) ∧
    (∀ c, c ∈ (s.detach x).children r → c ∈ s.children r) := by
  rw [detach_children_cases]
  by_cases hp : s.parentOf x = some r
  · rw [if_pos hp]
    refine ⟨fun c hc => List.count_erase_of_ne hc _, fun _ => ?_, fun c hc => List.mem_of_mem_erase hc⟩
    rw [List.count_erase_self, (hI.1 x hx r hp).1]
  · rw [if_neg hp]
    refine ⟨fun _ _ => rfl, fun hr => ?_, fun _ hc => hc⟩
    rw [List.count_eq_zero]
    intro hmem
    exact hp (hI.2 r hr x hmem)

/-- The detachment and attachment shared by `moveFile` and `moveFolder` keep I1 and the
representation, for a stored entry and a target that is none or a stored folder. -/
theorem detach_attach_keeps (s : FileManager) (x : Ref) (T : Option Ref) (hM : s.MapsOk)
    (hI : s.I1) (hx : x ∈ s.getFiles ++ s.getFolders) (hT : ∀ t ∈ T, t ∈ s.getFolders) :
    ((s.detach x).attach x T).I1 ∧ ((s.detach x).attach x T).MapsOk := by
  have hxl : x < s.heap.length := hM.stored_live hx
  have hTl : ∀ t ∈ T, t < (s.detach x).heap.length := by
    intro t ht
    rw [detach_heap_length]
    exact hM.stored_live (List.mem_append_right _ (hT t ht))
  have hch : ∀ r, ((s.detach x).attach x T).children r =
      (s.detach x).children r ++ (if T = some r then [x] else []) :=
    fun r => attach_children _ x T r hTl
  have hpar : ∀ r, ((s.detach x).attach x T).parentOf r = if r = x then T else s.parentOf r := by
    intro r
    rw [attach_parentOf _ x T r (by simpa using hxl), (detach_obj_fields s x r).1]
  have hidt : ∀ r, (((s.detach x).attach x T).obj r).id = (s.obj r).id ∧
      (((s.detach x).attach x T).obj r).type = (s.obj r).type := by
    intro r
    have h1 := attach_id_type (s.detach x) x T r
    have h2 := detach_obj_fields s x r
    exact ⟨h1.1.trans h2.2.1, h1.2.trans h2.2.2⟩
  have hfiles : ((s.detach x).attach x T).files = s.files := by simp
  have hfolders : ((s.detach x).attach x T).folders = s.folders := by simp
  have hgf : ((s.detach x).attach x T).getFiles = s.getFiles := by
    unfold getFiles; rw [hfiles]
  have hgd : ((s.detach x).attach x T).getFolders = s.getFolders := by
    unfold getFolders; rw [hfolders]
  refine ⟨?_, ?_⟩
  · refine I1_relink s _ x T hI ?_ ?_ ?_ ?_ hT ?_
    · intro c hc; rw [hgf, hgd] at hc; exact Or.inl hc
    · intro q hq; rw [hgd] at hq; exact Or.inl hq
    · intro r hr; rw [hpar, if_neg hr]
    · intro _; rw [hpar, if_pos rfl]
    · intro r
      obtain ⟨h1, h2, _⟩ := detach_counts s x hI hx r
      exact ⟨_, hch r, h1, h2⟩
  · refine MapsOk_relink s _ hM (by simp) (fun r _ => hidt r) ?_ ?_ ?_
    · intro kv hkv; rw [hfiles] at hkv; exact Or.inl hkv
    · intro kv hkv; rw [hfolders] at hkv; exact Or.inl hkv
    · intro p hp c hc
      rw [hgd] at hp
      rw [hch, List.mem_append] at hc
      rcases hc with hc | hc
      · exact Or.inl ⟨hp, (detach_counts s x hI hx p).2.2 c hc⟩
      · right
        have hcx : c = x := by
          split at hc
          · simpa using hc
          · cases hc
        rw [hcx]
        simpa using hxl

end FileManager

namespace FileManager

theorem I1_congr (s s' : FileManager) (h1 : s'.files = s.files) (h2 : s'.folders = s.folders)
    (h3 : ∀ r, s'.children r = s.children r) (h4 : ∀ r, s'.parentOf r = s.parentOf r)
    (hI : s.I1) : s'.I1 := by
  unfold I1 getFiles getFolders at *
  simp only [h1, h2, h3, h4]
  exact hI

theorem MapsOk_congr (s s' : FileManager) (h1 : s'.files = s.files)
    (h2 : s'.folders = s.folders) (h3 : ∀ r, s'.children r = s.children r)
    (h4 : s'.heap.length = s.heap.length)
    (h5 : ∀ r, (s'.obj r).id = (s.obj r).id ∧ (s'.obj r).type = (s.obj r).type)
    (hM : s.MapsOk) : s'.MapsOk := by
  refine MapsOk_relink s s' hM (le_of_eq h4.symm) (fun r _ => h5 r) ?_ ?_ ?_
  · intro kv hkv; rw [h1] at hkv; exact Or.inl hkv
  · intro kv hkv; rw [h2] at hkv; exact Or.inl hkv
  · intro p hp c hc
    unfold getFolders at hp
    rw [h2] at hp
    rw [h3] at hc
    exact Or.inl ⟨hp, hc⟩

theorem PathsOnly.keeps_I1 {s s' : FileManager} (h : PathsOnly s s') (hI : s.I1) : s'.I1 :=
  I1_congr s s' h.1 h.2.1 h.children h.parentOf hI

theorem PathsOnly.keeps_mapsOk {s s' : FileManager} (h : PathsOnly s s') (hM : s.MapsOk) :
    s'.MapsOk :=
  MapsOk_congr s s' h.1 h.2.1 h.children h.2.2.2.2.1
    (fun r => by rw [h.2.2.2.2.2 r]; exact ⟨rfl, rfl⟩) hM

/-- A relation that the callback respects is respected by the whole loop of `forEachChild`. -/
theorem forEachChild_rel (R : FileManager → FileManager → Prop) (hrefl : ∀ s, R s s)
    (htrans : ∀ s s' s'', R s s' → R s' s'' → R s s'')
    (cb : Ref → FileManager → Option FileManager) (folder : Ref)
    (hcb : ∀ c s s', cb c s = some s' → R s s') :
    ∀ (n k : Nat) (s s' : FileManager), forEachChild cb folder n k s = some s' → R s s' := by
  intro n
  induction n with
  | zero =>
    intro k s s' h
    simp only [forEachChild, Option.some.injEq] at h
    rw [← h]
    exact hrefl s
  | succ n ih =>
    intro k s s' h
    rw [forEachChild] at h
    split at h
    · rename_i child _
      cases hc : cb child s with
      | none => rw [hc] at h; cases h
      | some s1 =>
        rw [hc] at h
        exact htrans _ _ _ (hcb child s s1 hc) (ih _ _ _ h)
    · exact ih _ _ _ h

/-- Whatever the store, a call of `updateChildrenPaths` that returns has changed `path` fields
only. -/
theorem updateChildrenPaths_pathsOnly :
    ∀ (fuel : Nat) (s : FileManager) (F : Ref) (s' : FileManager),
      updateChildrenPaths fuel s F = some s' → PathsOnly s s' := by
  intro fuel
  induction fuel with
  | zero => intro s F s' h; cases h
  | succ fuel ih =>
    intro s F s' h
    rw [updateChildrenPaths_succ] at h
    refine forEachChild_rel PathsOnly PathsOnly.refl (fun _ _ _ => PathsOnly.trans) _ F ?_
      _ _ s s' h
    intro c s1 s2 hc
    have hP := pathsOnly_modifyObj_path s1 c ((s1.obj F).path ++ "/" ++ (s1.obj c).name)
    split at hc
    · exact hP.trans (ih _ _ _ hc)
    · cases hc
      exact hP

/-- `removeFile` of a stored file keeps I1 and the representation. -/
theorem removeFile_keeps (s : FileManager) (f : Ref) (hM : s.MapsOk) (hI : s.I1)
    (hf : f ∈ s.getFiles) : (s.removeFile f).I1 ∧ (s.removeFile f).MapsOk := by
  have hx : f ∈ s.getFiles ++ s.getFolders := List.mem_append_left _ hf
  have hfiles : (s.removeFile f).files = IdMap.delete s.files (s.obj f).id := by
    simp [removeFile, emit, (detach_obj_fields s f f).2.1]
  have hsub : ∀ kv ∈ (s.removeFile f).files, kv ∈ s.files ∧ kv.2 ≠ f := by
    intro kv hkv
    rw [hfiles] at hkv
    obtain ⟨h1, h2⟩ := List.mem_filter.mp hkv
    refine ⟨h1, fun e => ?_⟩
    have := (hM.files_ok kv h1).2.1
    rw [e] at this
    simp [this] at h2
  have hfolders : (s.removeFile f).folders = s.folders := by simp [removeFile, emit]
  have hch : ∀ r, (s.removeFile f).children r = (s.detach f).children r := fun _ => rfl
  have hpar : ∀ r, (s.removeFile f).parentOf r = s.parentOf r :=
    fun r => (detach_obj_fields s f r).1
  have hgd : (s.removeFile f).getFolders = s.getFolders := by
    unfold getFolders; rw [hfolders]
  have hnot : f ∉ (s.removeFile f).getFiles ++ (s.removeFile f).getFolders := by
    intro h
    rcases List.mem_append.mp h with h | h
    · obtain ⟨kv, hkv, he⟩ := List.mem_map.mp h
      exact (hsub kv hkv).2 he
    · rw [hgd] at h
      exact hM.file_not_folder hf h
  refine ⟨?_, ?_⟩
  · refine I1_relink s _ f none hI ?_ ?_ (fun r _ => hpar r) ?_ (fun t ht => by cases ht) ?_
    · intro c hc
      left
      rcases List.mem_append.mp hc with h | h
      · obtain ⟨kv, hkv, he⟩ := List.mem_map.mp h
        exact List.mem_append_left _ (List.mem_map.mpr ⟨kv, (hsub kv hkv).1, he⟩)
      · rw [hgd] at h
        exact List.mem_append_right _ h
    · intro q hq; rw [hgd] at hq; exact Or.inl hq
    · intro h
      rcases h with h | h
      · exact absurd h hnot
      · exact absurd rfl h
    · intro r
      obtain ⟨h1, h2, _⟩ := detach_counts s f hI hx r
      exact ⟨_, by rw [hch]; simp, h1, h2⟩
  · refine MapsOk_relink s _ hM (by simp [removeFile, emit]) ?_ ?_ ?_ ?_
    · intro r _
      exact ⟨(detach_obj_fields s f r).2.1, (detach_obj_fields s f r).2.2⟩
    · intro kv hkv; exact Or.inl (hsub kv hkv).1
    · intro kv hkv; rw [hfolders] at hkv; exact Or.inl hkv
    · intro p hp c hc
      rw [hgd] at hp
      rw [hch] at hc
      exact Or.inl ⟨hp, (detach_counts s f hI hx p).2.2 c hc⟩

end FileManager

namespace FileManager

theorem IdMap_mem_set (m : IdMap) (k : String) (v : Ref) (kv : String × Ref)
    (h : kv ∈ IdMap.set m k v) : kv ∈ m ∨ kv = (k, v) := by
  induction m with
  | nil =>
    simp only [IdMap.set, List.mem_singleton] at h
    exact Or.inr h
  | cons e rest ih =>
    obtain ⟨k', v'⟩ := e
    by_cases hk : k' = k
    · simp only [IdMap.set, hk, if_true, List.mem_cons] at h
      rcases h with h | h
      · exact Or.inr h
      · exact Or.inl (List.mem_cons_of_mem _ h)
    · simp only [IdMap.set, hk, if_false, List.mem_cons] at h
      rcases h with h | h
      · exact Or.inl (by rw [h]; exact List.mem_cons_self _ _)
      · rcases ih h with h' | h'
        · exact Or.inl (List.mem_cons_of_mem _ h')
        · exact Or.inr h'

theorem createFolder_fst (s : FileManager) (n : String) (p : Option Ref) (t a : Nat) :
    (s.createFolder n p t a).1 = s.heap.length := by
  cases p <;> rfl

theorem createFolder_files (s : FileManager) (n : String) (p : Option Ref) (t a : Nat) :
    (s.createFolder n p t a).2.files = s.files := by
  cases p <;> rfl

theorem createFolder_folders (s : FileManager) (n : String) (p : Option Ref) (t a : Nat) :
    (s.createFolder n p t a).2.folders =
      IdMap.set s.folders (s.generateId t).1 s.heap.length := by
  cases p <;> rfl

theorem createFolder_nextId (s : FileManager) (n : String) (p : Option Ref) (t a : Nat) :
    (s.createFolder n p t a).2.nextId = s.nextId + 1 := by
  cases p <;> rfl

theorem createFolder_heap_length (s : FileManager) (n : String) (p : Option Ref)
    (t a : Nat) : (s.createFolder n p t a).2.heap.length = s.heap.length + 1 := by
  cases p <;> simp [createFolder, generateId, alloc, pushChild, emit, modifyObj]

/-- The new record of `createFolder`, read back from the heap. -/
theorem createFolder_obj_new (s : FileManager) (n : String) (p : Option Ref) (t a : Nat)
    (hp : ∀ q ∈ p, q < s.heap.length) :
    (s.createFolder n p t a).2.obj s.heap.length =
      { id := (s.generateId t).1, name := n, content := "", type := .folder, children := [],
        createdAt := a, modifiedAt := 0, parent := p, isModified := false,
        path := s.pathUnder p n, contentMissing := true } := by
  cases p with
  | none => simp [createFolder, generateId, alloc, emit, obj, pathUnder]
  | some q =>
    have hq : q ≠ s.heap.length := Nat.ne_of_lt (hp q rfl)
    simp [createFolder, generateId, alloc, emit, obj, pathUnder, pushChild, modifyObj,
      List.getElem?_modify_ne _ _ hq, List.getElem?_append_left (hp q rfl)]

/-- The records that existed before `createFolder`. -/
theorem createFolder_obj_old (s : FileManager) (n : String) (p : Option Ref) (t a : Nat)
    (r : Ref) (hr : r < s.heap.length) :
    (s.createFolder n p t a).2.obj r =
      if p = some r then { s.obj r with children := (s.obj r).children ++ [s.heap.length] }
      else s.obj r := by
  cases p with
  | none => simp [createFolder, generateId, alloc, emit, obj, List.getElem?_append_left hr]
  | some q =>
    by_cases hq : q = r
    · subst hq
      simp [createFolder, generateId, alloc, emit, obj, pushChild, modifyObj,
        List.getElem?_modify, List.getElem?_append_left hr, List.getElem?_eq_getElem hr]
    · simp [createFolder, generateId, alloc, emit, obj, pushChild, modifyObj,
        List.getElem?_modify_ne _ _ hq, List.getElem?_append_left hr, hq]

/-- A state `s'` obtained from `s` by allocating one record `e` without children, entering it
in one of the maps under its id and appending it to the `children` of its parent, a stored
folder of `s`, keeps I1 and the representation. -/
theorem link_new_keeps (s s' : FileManager) (e : Entity) (p : Option Ref) (hM : s.MapsOk)
    (hI : s.I1) (hp : ∀ q ∈ p, q ∈ s.getFolders)
    (hlen : s'.heap.length = s.heap.length + 1)
    (hnew : s'.obj s.heap.length = e) (hep : e.parent = p) (hec : e.children = [])
    (hold : ∀ r, r < s.heap.length → s'.obj r =
      if p = some r then { s.obj r with children := (s.obj r).children ++ [s.heap.length] }
      else s.obj r)
    (hfiles : ∀ kv ∈ s'.files, kv ∈ s.files ∨
      (kv.2 = s.heap.length ∧ e.id = kv.1 ∧ e.type = .file))
    (hfolders : ∀ kv ∈ s'.folders, kv ∈ s.folders ∨
      (kv.2 = s.heap.length ∧ e.id = kv.1 ∧ e.type = .folder)) :
    s'.I1 ∧ s'.MapsOk := by
  have hpl : ∀ q ∈ p, q < s.heap.length :=
    fun q hq => hM.stored_live (List.mem_append_right _ (hp q hq))
  have hpx : p ≠ some s.heap.length := fun h => lt_irrefl _ (hpl _ (by rw [h]; rfl))
  have hbeyond : ∀ r, s.heap.length < r → s'.obj r = s.obj r := by
    intro r hr
    have h1 : ¬ r < s'.heap.length := by rw [hlen]; exact Nat.not_lt.mpr hr
    have h2 : ¬ r < s.heap.length := Nat.not_lt.mpr (Nat.le_of_lt hr)
    rw [obj_of_not_live s' r h1, obj_of_not_live s r h2]
  have hxabs : s.obj s.heap.length = Entity.absent := obj_of_not_live s _ (lt_irrefl _)
  have hch : ∀ r, s'.children r =
      s.children r ++ (if p = some r then [s.heap.length] else []) := by
    intro r
    unfold children
    rcases Nat.lt_trichotomy r s.heap.length with h | h | h
    · rw [hold r h]; split <;> simp
    · subst h
      rw [hnew, hec, hxabs, if_neg hpx]; rfl
    · rw [hbeyond r h, if_neg (fun e' => Nat.lt_asymm h (hpl r (by rw [e']; rfl)))]
      simp
  have hpar : ∀ r, s'.parentOf r = if r = s.heap.length then p else s.parentOf r := by
    intro r
    unfold parentOf
    rcases Nat.lt_trichotomy r s.heap.length with h | h | h
    · rw [hold r h, if_neg (Nat.ne_of_lt h)]; split <;> rfl
    · subst h
      rw [hnew, hep, if_pos rfl]
    · rw [hbeyond r h, if_neg (Nat.ne_of_gt h)]
  have hno : ∀ r ∈ s.getFolders, (s.children r).count s.heap.length = 0 := by
    intro r hr
    rw [List.count_eq_zero]
    intro hmem
    exact lt_irrefl _ (hM.children_live r hr _ hmem)
  have hxnil : s'.children s.heap.length = [] := by
    rw [hch, if_neg hpx]
    unfold children
    rw [hxabs]; rfl
  refine ⟨?_, ?_⟩
  · refine I1_relink s s' s.heap.length p hI ?_ ?_ ?_ ?_ hp ?_
    · intro c hc
      rcases List.mem_append.mp hc with h | h
      · obtain ⟨kv, hkv, rfl⟩ := List.mem_map.mp h
        rcases hfiles kv hkv with h' | h'
        · exact Or.inl (List.mem_append_left _ (List.mem_map.mpr ⟨kv, h', rfl⟩))
        · exact Or.inr h'.1
      · obtain ⟨kv, hkv, rfl⟩ := List.mem_map.mp h
        rcases hfolders kv hkv with h' | h'
        · exact Or.inl (List.mem_append_right _ (List.mem_map.mpr ⟨kv, h', rfl⟩))
        · exact Or.inr h'.1
    · intro q hq
      obtain ⟨kv, hkv, rfl⟩ := List.mem_map.mp hq
      rcases hfolders kv hkv with h' | h'
      · exact Or.inl (List.mem_map.mpr ⟨kv, h', rfl⟩)
      · exact Or.inr ⟨h'.1, hxnil⟩
    · intro r hr; rw [hpar, if_neg hr]
    · intro _; rw [hpar, if_pos rfl]
    · intro r
      exact ⟨_, hch r, fun _ _ => rfl, hno r⟩
  · refine MapsOk_relink s s' hM (by rw [hlen]; exact Nat.le_succ _) ?_ ?_ ?_ ?_
    · intro r hr
      rw [hold r hr]
      split <;> exact ⟨rfl, rfl⟩
    · intro kv hkv
      rcases hfiles kv hkv with h' | ⟨h1, h2, h3⟩
      · exact Or.inl h'
      · right
        rw [h1, hnew]
        exact ⟨by rw [hlen]; exact Nat.lt_succ_self _, h2, h3⟩
    · intro kv hkv
      rcases hfolders kv hkv with h' | ⟨h1, h2, h3⟩
      · exact Or.inl h'
      · right
        rw [h1, hnew]
        exact ⟨by rw [hlen]; exact Nat.lt_succ_self _, h2, h3⟩
    · intro q hq c hc
      rw [hch, List.mem_append] at hc
      rcases hc with hc | hc
      · obtain ⟨kv, hkv, rfl⟩ := List.mem_map.mp hq
        rcases hfolders kv hkv with h' | h'
        · exact Or.inl ⟨List.mem_map.mpr ⟨kv, h', rfl⟩, hc⟩
        · exfalso
          rw [h'.1] at hc
          unfold children at hc
          rw [hxabs] at hc
          cases hc
      · right
        split at hc
        · have hc' : c = s.heap.length := by simpa using hc
          rw [hc', hlen]; exact Nat.lt_succ_self _
        · cases hc

theorem createFile_keeps (s : FileManager) (n c : String) (p : Option Ref) (t a b : Nat)
    (hM : s.MapsOk) (hI : s.I1) (hp : ∀ q ∈ p, q ∈ s.getFolders) :
    (s.createFile n c p t a b).2.I1 ∧ (s.createFile n c p t a b).2.MapsOk := by
  have hpl : ∀ q ∈ p, q < s.heap.length :=
    fun q hq => hM.stored_live (List.mem_append_right _ (hp q hq))
  refine link_new_keeps s _ _ p hM hI hp (s.createFile_heap_length n c p t a b)
    (s.createFile_obj_new n c p t a b hpl) rfl rfl
    (fun r hr => s.createFile_obj_old n c p t a b r hr) ?_ ?_
  · intro kv hkv
    rw [s.createFile_files] at hkv
    rcases IdMap_mem_set _ _ _ _ hkv with h | h
    · exact Or.inl h
    · right; rw [h]; exact ⟨rfl, rfl, rfl⟩
  · intro kv hkv
    rw [s.createFile_folders] at hkv
    exact Or.inl hkv

theorem createFolder_keeps (s : FileManager) (n : String) (p : Option Ref) (t a : Nat)
    (hM : s.MapsOk) (hI : s.I1) (hp : ∀ q ∈ p, q ∈ s.getFolders) :
    (s.createFolder n p t a).2.I1 ∧ (s.createFolder n p t a).2.MapsOk := by
  have hpl : ∀ q ∈ p, q < s.heap.length :=
    fun q hq => hM.stored_live (List.mem_append_right _ (hp q hq))
  refine link_new_keeps s _ _ p hM hI hp (s.createFolder_heap_length n p t a)
    (s.createFolder_obj_new n p t a hpl) rfl rfl
    (fun r hr => s.createFolder_obj_old n p t a r hr) ?_ ?_
  · intro kv hkv
    rw [s.createFolder_files] at hkv
    exact Or.inl hkv
  · intro kv hkv
    rw [s.createFolder_folders] at hkv
    rcases IdMap_mem_set _ _ _ _ hkv with h | h
    · exact Or.inl h
    · right; rw [h]; exact ⟨rfl, rfl, rfl⟩

end FileManager

namespace FileManager

theorem emit_keeps (s : FileManager) (e : Event) (h : s.I1 ∧ s.MapsOk) :
    (s.emit e).I1 ∧ (s.emit e).MapsOk :=
  ⟨I1_congr s _ rfl rfl (fun _ => rfl) (fun _ => rfl) h.1,
    MapsOk_congr s _ rfl rfl (fun _ => rfl) rfl (fun _ => ⟨rfl, rfl⟩) h.2⟩

theorem moveFile_keeps (s : FileManager) (f : Ref) (T : Option Ref) (hM : s.MapsOk)
    (hI : s.I1) (hf : f ∈ s.getFiles) (hT : ∀ t ∈ T, t ∈ s.getFolders) :
    (s.moveFile f T).I1 ∧ (s.moveFile f T).MapsOk :=
  emit_keeps _ _ (detach_attach_keeps s f T hM hI (List.mem_append_left _ hf) hT)

/-- Whatever state `moveFolder` returns satisfies I1 and keeps the representation. -/
theorem moveFolder_keeps (fuel : Nat) (s : FileManager) (F : Ref) (T : Option Ref)
    (hM : s.MapsOk) (hI : s.I1) (hF : F ∈ s.getFolders) (hT : ∀ t ∈ T, t ∈ s.getFolders)
    (s' : FileManager) (h : s.moveFolder fuel F T = some s') : s'.I1 ∧ s'.MapsOk := by
  rw [moveFolder_eq] at h
  obtain ⟨s3, h3, rfl⟩ := Option.map_eq_some'.mp h
  have h2 := detach_attach_keeps s F T hM hI (List.mem_append_right _ hF) hT
  have hP := updateChildrenPaths_pathsOnly fuel _ F s3 h3
  exact emit_keeps _ _ ⟨hP.keeps_I1 h2.1, hP.keeps_mapsOk h2.2⟩

/-- In a well-formed store with an acyclic containment relation, `moveFolder(F, T)` to a target
outside the subtree of `F` returns once the bound exceeds the rank of `F`. -/
theorem moveFolder_returns (rank : Ref → Nat) (s : FileManager) (F : Ref) (T : Option Ref)
    (fuel : Nat) (hwf : s.WellFormed) (hac : s.Acyclic rank) (hF : F ∈ s.getFolders)
    (hT : ∀ t ∈ T, t ∈ s.getFolders ∧ t ≠ F ∧ ¬ Desc s F t) (hfuel : rank F < fuel) :
    ∃ s', s.moveFolder fuel F T = some s' := by
  obtain ⟨hlive, _, _, hpar⟩ := hwf.folder_facts hF
  have hok : SubtreeOk rank s F := hwf.subtreeOk_of_acyclic hac hlive
  have hT' : ∀ t ∈ T, t < s.heap.length ∧ t ≠ F :=
    fun t ht => ⟨(hwf.folder_facts (hT t ht).1).1, (hT t ht).2.1⟩
  have hnotP : ∀ p, (p = F ∨ Desc s F p) → s.parentOf F ≠ some p := by
    intro p hp h
    have hlt : rank F < rank p := hac p (hpar p h).1 F (hpar p h).2.2
    rcases hp with rfl | hp
    · exact lt_irrefl _ hlt
    · exact lt_irrefl _ (lt_trans (hok.rank_lt hp) hlt)
  have hnotT : ∀ p, (p = F ∨ Desc s F p) → T ≠ some p := by
    intro p hp h
    rcases hp with rfl | hp
    · exact (hT p h).2.1 rfl
    · exact (hT p h).2.2 hp
  generalize hs2 : (s.detach F).attach F T = s2
  have hself2 : s2.obj F = { s.obj F with parent := T, path := s.pathUnder T (s.obj F).name } := by
    rw [← hs2]
    exact detach_attach_obj_self s F T hlive hT' (hnotP F (Or.inl rfl))
  have hdesc_obj : ∀ d, Desc s F d → s2.obj d = s.obj d := by
    intro d hd
    rw [← hs2]
    exact detach_attach_obj_other s F T d hlive hT'
      (by rintro rfl; exact hok.not_desc_self hd) (hnotP d (Or.inr hd)) (hnotT d (Or.inr hd))
  have hsub : ∀ p, (p = F ∨ Desc s F p) →
      s2.children p = s.children p ∧ (s2.obj p).type = (s.obj p).type := by
    intro p hp
    rcases hp with rfl | hp
    · unfold children; rw [hself2]; exact ⟨rfl, rfl⟩
    · unfold children; rw [hdesc_obj p hp]; exact ⟨rfl, rfl⟩
  have hlen2 : s2.heap.length = s.heap.length := by rw [← hs2]; simp
  have hok2 : SubtreeOk rank s2 F :=
    hok.transport hlen2 hsub (fun d hd => by unfold parentOf; rw [hdesc_obj d hd])
  obtain ⟨s3, h1, _⟩ := updateChildrenPaths_final rank fuel s2 F hok2 hfuel
  exact ⟨s3.emit (.folderMoved F T), by rw [moveFolder_eq, hs2, h1]; rfl⟩

end FileManager

/-! ## Preservation of the containment invariant -/

theorem nestedScenario_mapsOk : nestedScenario.MapsOk :=
  ⟨by decide, by decide, by decide⟩

theorem nestedScenario_I1 : nestedScenario.I1 := by
  unfold FileManager.I1
  decide

/-- C11: invariant I1 is preserved.  On a store whose maps hold live records under their own
ids (`MapsOk`, which every operation below preserves as well) and in which every stored entity
with a parent `P` occurs exactly once in `P.children` and in no other stored folder's children,
and every element of a stored folder's children has that folder as its parent (`I1`), the same
holds after `createFile` and `createFolder` with a stored parent folder or none, after
`removeFile` and `moveFile` of a stored file (to a stored folder or none), and after
`moveFolder` of a stored folder to a target that is none or a stored folder, neither the moved
folder nor one of its descendants: every state `moveFolder` returns satisfies I1, and in a
well-formed store with an acyclic containment relation it does return once the bound exceeds
the rank of the moved folder. -/
theorem I1_preserved (s : FileManager) (hM : s.MapsOk) (hI : s.I1) :
    (∀ n c p t a b, (∀ q ∈ p, q ∈ s.getFolders) →
      (s.createFile n c p t a b).2.I1 ∧ (s.createFile n c p t a b).2.MapsOk) ∧
    (∀ n p t a, (∀ q ∈ p, q ∈ s.getFolders) →
      (s.createFolder n p t a).2.I1 ∧ (s.createFolder n p t a).2.MapsOk) ∧
    (∀ f ∈ s.getFiles, (s.removeFile f).I1 ∧ (s.removeFile f).MapsOk) ∧
    (∀ f ∈ s.getFiles, ∀ T, (∀ t ∈ T, t ∈ s.getFolders) →
      (s.moveFile f T).I1 ∧ (s.moveFile f T).MapsOk) ∧
    (∀ F ∈ s.getFolders, ∀ T,
      (∀ t ∈ T, t ∈ s.getFolders ∧ t ≠ F ∧ ¬ FileManager.Desc s F t) →
      (∀ fuel s', s.moveFolder fuel F T = some s' → s'.I1 ∧ s'.MapsOk) ∧
      (∀ rank fuel, s.WellFormed → s.Acyclic rank → rank F < fuel →
        ∃ s', s.moveFolder fuel F T = some s' ∧ s'.I1 ∧ s'.MapsOk)) := by
  refine ⟨fun n c p t a b hp => s.createFile_keeps n c p t a b hM hI hp,
    fun n p t a hp => s.createFolder_keeps n p t a hM hI hp,
    fun f hf => s.removeFile_keeps f hM hI hf,
    fun f hf T hT => s.moveFile_keeps f T hM hI hf hT, ?_⟩
  intro F hF T hT
  have hkeep : ∀ fuel s', s.moveFolder fuel F T = some s' → s'.I1 ∧ s'.MapsOk :=
    fun fuel s' h =>
      FileManager.moveFolder_keeps fuel s F T hM hI hF (fun t ht => (hT t ht).1) s' h
  refine ⟨hkeep, fun rank fuel hwf hac hfuel => ?_⟩
  obtain ⟨s', h⟩ := FileManager.moveFolder_returns rank s F T fuel hwf hac hF hT hfuel
  exact ⟨s', h, hkeep fuel s' h⟩

/-- The nested scenario (folder `a` holds `x.js` and folder `b`, `b` holds `y.js`, folder `dst`
at the root) satisfies the hypotheses of `I1_preserved`; the move of `a` into `dst` returns a
state in which `dst` holds exactly `a` and `a` still holds `x.js` and `b`. -/
theorem I1_preserved_witness :
    nestedScenario.MapsOk ∧ nestedScenario.I1 ∧
    ((∀ n c p t a b, (∀ q ∈ p, q ∈ nestedScenario.getFolders) →
      (nestedScenario.createFile n c p t a b).2.I1 ∧
      (nestedScenario.createFile n c p t a b).2.MapsOk) ∧
    (∀ n p t a, (∀ q ∈ p, q ∈ nestedScenario.getFolders) →
      (nestedScenario.createFolder n p t a).2.I1 ∧
      (nestedScenario.createFolder n p t a).2.MapsOk) ∧
    (∀ f ∈ nestedScenario.getFiles,
      (nestedScenario.removeFile f).I1 ∧ (nestedScenario.removeFile f).MapsOk) ∧
    (∀ f ∈ nestedScenario.getFiles, ∀ T, (∀ t ∈ T, t ∈ nestedScenario.getFolders) →
      (nestedScenario.moveFile f T).I1 ∧ (nestedScenario.moveFile f T).MapsOk) ∧
    (∀ F ∈ nestedScenario.getFolders, ∀ T,
      (∀ t ∈ T, t ∈ nestedScenario.getFolders ∧ t ≠ F ∧
        ¬ FileManager.Desc nestedScenario F t) →
      (∀ fuel s', nestedScenario.moveFolder fuel F T = some s' → s'.I1 ∧ s'.MapsOk) ∧
      (∀ rank fuel, nestedScenario.WellFormed → nestedScenario.Acyclic rank → rank F < fuel →
        ∃ s', nestedScenario.moveFolder fuel F T = some s' ∧ s'.I1 ∧ s'.MapsOk))) ∧
    (nestedScenario.moveFolder 6 0 (some 4)).map
        (fun s' => (s'.children 4, s'.children 0, s'.parentOf 0)) =
      some ([0], [1, 2], some 4) :=
  ⟨nestedScenario_mapsOk, nestedScenario_I1,
    I1_preserved nestedScenario nestedScenario_mapsOk nestedScenario_I1, by decide⟩

/-! ## Language hints -/

theorem lastPiece_append (stem ext : String) (h : '.' ∉ ext.data) :
    lastPiece (stem ++ "." ++ ext) = some ext := by
  have := jsSplit_append stem ext '.' h
  have e : (String.singleton '.') = "." := rfl
  rw [e] at this
  simp [lastPiece, this]

theorem lastPiece_of_no_dot (name : String) (h : '.' ∉ name.data) :
    lastPiece name = some name := by
  simp [lastPiece, jsSplit_of_not_mem name '.' h]

theorem lastPiece_isSome (name : String) : ∃ piece, lastPiece name = some piece := by
  unfold lastPiece jsSplit
  have h := splitChars_ne_nil '.' name.data []
  cases hs : splitChars '.' name.data [] with
  | nil => exact absurd hs h
  | cons a rest =>
    have : (List.map String.mk (a :: rest)) ≠ [] := by simp
    exact ⟨_, List.getLast?_eq_getLast _ this⟩

/-- C21, with the inputs on which it fails.  The result is a function of the lower-cased text
after the last `.` of the name (the whole name when it has no `.`), and that text is `e` for a
name `stem.e` in which `e` has no `.`.  When the text is not the name of a property of
`Object.prototype`, the result is `html`, `css`, `javascript`, `json`, `markdown`, `plaintext`
for `html`, `css`, `js`, `json`, `md`, `txt`, and `plaintext` otherwise.  For the names
`notes.constructor`, `constructor` and `x.__proto__` the result is the inherited property, which
is none of the six language names. -/
theorem getLanguageFromExtension_table :
    (∀ (toLowerCase : String → String) (m n : String),
      (lastPiece m).map toLowerCase = (lastPiece n).map toLowerCase →
      Editor.getLanguageFromExtension toLowerCase m =
        Editor.getLanguageFromExtension toLowerCase n) ∧
    (∀ stem e : String, '.' ∉ e.data → lastPiece (stem ++ "." ++ e) = some e) ∧
    (∀ n : String, '.' ∉ n.data → lastPiece n = some n) ∧
    (∀ (toLowerCase : String → String) (n piece : String), lastPiece n = some piece →
      toLowerCase piece ∉ objectPrototypeKeys →
      Editor.getLanguageFromExtension toLowerCase n =
        .name (if toLowerCase piece = "html" then "html"
          else if toLowerCase piece = "css" then "css"
          else if toLowerCase piece = "js" then "javascript"
          else if toLowerCase piece = "json" then "json"
          else if toLowerCase piece = "md" then "markdown"
          else "plaintext") ∧
      Editor.getLanguageFromExtension toLowerCase n ∈
        [LanguageHint.name "html", .name "css", .name "javascript", .name "json",
          .name "markdown", .name "plaintext"]) ∧
    Editor.getLanguageFromExtension asciiLower "main.JS" = .name "javascript" ∧
    Editor.getLanguageFromExtension asciiLower "notes.constructor" = .inherited "constructor" ∧
    Editor.getLanguageFromExtension asciiLower "constructor" = .inherited "constructor" ∧
    Editor.getLanguageFromExtension asciiLower "x.__proto__" = .inherited "__proto__" ∧
    LanguageHint.inherited "constructor" ∉
      [LanguageHint.name "html", .name "css", .name "javascript", .name "json",
        .name "markdown", .name "plaintext"] := by
  refine ⟨?_, lastPiece_append, lastPiece_of_no_dot, ?_, by decide, by decide, by decide,
    by decide, by decide⟩
  · intro toLowerCase m n h
    unfold Editor.getLanguageFromExtension
    rw [h]
  · intro toLowerCase n piece hp hk
    have key : Editor.getLanguageFromExtension toLowerCase n =
        .name (if toLowerCase piece = "html" then "html"
          else if toLowerCase piece = "css" then "css"
          else if toLowerCase piece = "js" then "javascript"
          else if toLowerCase piece = "json" then "json"
          else if toLowerCase piece = "md" then "markdown"
          else "plaintext") := by
      unfold Editor.getLanguageFromExtension
      rw [hp]
      simp only [Option.map_some', Option.getD_some]
      generalize toLowerCase piece = ext at hk ⊢
      by_cases h1 : ext = "html"
      · subst h1; decide
      by_cases h2 : ext = "css"
      · subst h2; decide
      by_cases h3 : ext = "js"
      · subst h3; decide
      by_cases h4 : ext = "json"
      · subst h4; decide
      by_cases h5 : ext = "md"
      · subst h5; decide
      by_cases h6 : ext = "txt"
      · subst h6; decide
      have hl : Editor.languages.lookup ext = none := by
        have e1 : (ext == "html") = false := by simpa using h1
        have e2 : (ext == "css") = false := by simpa using h2
        have e3 : (ext == "js") = false := by simpa using h3
        have e4 : (ext == "json") = false := by simpa using h4
        have e5 : (ext == "md") = false := by simpa using h5
        have e6 : (ext == "txt") = false := by simpa using h6
        simp only [Editor.languages, List.lookup, e1, e2, e3, e4, e5, e6]
      rw [hl]
      simp [hk, h1, h2, h3, h4, h5]
    refine ⟨key, ?_⟩
    rw [key]
    split_ifs <;> simp

/-! ## Statistics -/

theorem foldl_add_eq_sum {α : Type} (g : α → Nat) (l : List α) (init : Nat) :
    l.foldl (fun size x => size + g x) init = init + (l.map g).sum := by
  induction l generalizing init with
  | nil => simp
  | cons a rest ih => simp [ih, Nat.add_assoc]

/-- The length of `file.content || ''`: nothing for a record without content. -/
theorem jsLength_contentOrEmpty (e : Entity) :
    jsLength (FileManager.contentOrEmpty e) =
      if e.contentMissing then 0 else jsLength e.content := by
  unfold FileManager.contentOrEmpty
  by_cases h1 : e.contentMissing = true
  · rw [if_pos h1, if_pos h1]; rfl
  · rw [if_neg h1, if_neg h1]
    by_cases h2 : e.content = ""
    · rw [if_pos h2, h2]
    · rw [if_neg h2]

/-- C22: for every store state, `getStats()` returns as `totalFiles` the number of stored
files, as `totalFolders` the number of stored folders, as `modifiedFiles` the number of stored
files whose `isModified` is true, and as `totalSize` the sum over the stored files of the length
of their content, a file without content counting as 0.  The method is a function of the state:
it assigns nothing.  For the store constructed from a text with the files `a.txt`, of content
`abc`, and `b.txt`, without content, the numbers are 2, 0, 0 and 3. -/
theorem getStats_counts (toLowerCase : String → String) (s : FileManager) :
    (s.getStats toLowerCase).totalFiles = s.getFiles.length ∧
    s.getFiles.length = s.files.length ∧
    (s.getStats toLowerCase).totalFolders = s.getFolders.length ∧
    s.getFolders.length = s.folders.length ∧
    (s.getStats toLowerCase).modifiedFiles =
      s.getFiles.countP (fun f => (s.obj f).isModified) ∧
    (s.getStats toLowerCase).totalSize =
      (s.getFiles.map fun f =>
        if (s.obj f).contentMissing then 0 else jsLength (s.obj f).content).sum ∧
    jsLength "" = 0 ∧
    (FileManager.construct contentlessItem).toOption.map
        (fun s' => (s'.getFiles.map fun f => ((s'.obj f).name, (s'.obj f).contentMissing),
          (s'.getStats asciiLower).totalFiles, (s'.getStats asciiLower).totalFolders,
          (s'.getStats asciiLower).modifiedFiles, (s'.getStats asciiLower).totalSize)) =
      some ([("a.txt", false), ("b.txt", true)], 2, 0, 0, 3) := by
  refine ⟨rfl, by simp [FileManager.getFiles], rfl, by simp [FileManager.getFolders], ?_, ?_,
    rfl, by decide⟩
  · simp [FileManager.getStats, List.countP_eq_length_filter]
  · simp only [FileManager.getStats, foldl_add_eq_sum, Nat.zero_add, jsLength_contentOrEmpty]

theorem lookup_setProperty_self {β : Type} (own : List (String × β)) (key : String) (v : β) :
    List.lookup key (setProperty own key v) = some v := by
  induction own with
  | nil => simp [setProperty, List.lookup]
  | cons kv rest ih =>
    obtain ⟨k, w⟩ := kv
    by_cases h : k = key
    · simp [setProperty, h, List.lookup]
    · have h' : (key == k) = false := by simpa using fun e => h e.symm
      simp [setProperty, h, List.lookup, h', ih]

theorem lookup_setProperty_of_ne {β : Type} (own : List (String × β)) (key other : String)
    (v : β) (hne : other ≠ key) :
    List.lookup other (setProperty own key v) = List.lookup other own := by
  induction own with
  | nil =>
    have h' : (other == key) = false := by simpa using hne
    simp [setProperty, List.lookup, h']
  | cons kv rest ih =>
    obtain ⟨k, w⟩ := kv
    by_cases h : k = key
    · subst h
      have h' : (other == k) = false := by simpa using hne
      simp [setProperty, List.lookup, h']
    · by_cases h2 : other = k
      · subst h2
        simp [setProperty, h, List.lookup]
      · have h' : (other == k) = false := by simpa using h2
        simp [setProperty, h, List.lookup, h', ih]

theorem mem_setProperty {β : Type} (own : List (String × β)) (key : String) (v : β)
    (kv : String × β) (h : kv ∈ setProperty own key v) : kv ∈ own ∨ kv = (key, v) := by
  induction own with
  | nil =>
    simp only [setProperty, List.mem_singleton] at h
    exact Or.inr h
  | cons e rest ih =>
    obtain ⟨k, w⟩ := e
    by_cases hk : k = key
    · simp only [setProperty, hk, if_true, List.mem_cons] at h
      rcases h with h | h
      · exact Or.inr h
      · exact Or.inl (List.mem_cons_of_mem _ h)
    · simp only [setProperty, hk, if_false, List.mem_cons] at h
      rcases h with h | h
      · exact Or.inl (by rw [h]; exact List.mem_cons_self _ _)
      · rcases ih h with h' | h'
        · exact Or.inl (List.mem_cons_of_mem _ h')
        · exact Or.inr h'

/-- An assignment changes the sum of the values by the difference between the new value and the
one it replaces. -/
theorem sum_setProperty {β : Type} (val : β → Nat) (own : List (String × β)) (key : String)
    (v : β) :
    ((setProperty own key v).map fun kv => val kv.2).sum +
        ((List.lookup key own).map val).getD 0 =
      (own.map fun kv => val kv.2).sum + val v := by
  induction own with
  | nil => simp [setProperty, List.lookup]
  | cons e rest ih =>
    obtain ⟨k, w⟩ := e
    by_cases hk : k = key
    · subst hk
      simp [setProperty, List.lookup]
      omega
    · have h' : (key == k) = false := by simpa using fun e => hk e.symm
      simp only [setProperty, hk, if_false, List.lookup, h', List.map_cons, List.sum_cons]
      omega

/-- The histogram after a run of `countExtension` over keys none of which is inherited: the
value under a key is the number of its occurrences, every value is a positive number, and the
values add up to the number of keys. -/
theorem countExtension_foldl (ks : List String) (hk : ∀ k ∈ ks, k ∉ objectPrototypeKeys) :
    (∀ x, List.lookup x (ks.foldl FileManager.countExtension []) =
      if ks.count x = 0 then none else some (.count (ks.count x))) ∧
    (∀ kv ∈ ks.foldl FileManager.countExtension [], ∃ n, 0 < n ∧ kv.2 = .count n) ∧
    ((ks.foldl FileManager.countExtension []).map fun kv =>
      match kv.2 with
      | .count n => n
      | .text _ => 0).sum = ks.length := by
  induction ks using List.reverseRecOn with
  | nil => simp [List.lookup]
  | append_singleton ks k ih =>
    obtain ⟨h1, h2, h3⟩ := ih (fun x hx => hk x (List.mem_append_left _ hx))
    have hkk : k ∉ objectPrototypeKeys := hk k (by simp)
    have hproto : k ≠ "__proto__" := by
      rintro rfl
      exact hkk (by decide)
    rw [List.foldl_append]
    simp only [List.foldl_cons, List.foldl_nil]
    generalize List.foldl FileManager.countExtension [] ks = st at h1 h2 h3 ⊢
    have hstep : ∃ v, FileManager.countExtension st k = setProperty st k (.count (ks.count k + 1))
        ∧ v = ks.count k ∧ ((List.lookup k st).map fun t =>
          match t with
          | .count n => n
          | .text _ => 0).getD 0 = ks.count k := by
      refine ⟨ks.count k, ?_, rfl, ?_⟩
      · unfold FileManager.countExtension
        rw [if_neg hproto, h1 k]
        by_cases hc : ks.count k = 0
        · simp [hc, hkk]
        · simp [hc]
      · rw [h1 k]
        by_cases hc : ks.count k = 0
        · simp [hc]
        · simp [hc]
    obtain ⟨_, hst, _, hval⟩ := hstep
    rw [hst]
    refine ⟨?_, ?_, ?_⟩
    · intro x
      by_cases hx : x = k
      · subst hx
        rw [lookup_setProperty_self]
        simp
      · rw [lookup_setProperty_of_ne _ _ _ _ hx, h1 x]
        have : (ks ++ [k]).count x = ks.count x := by
          simp [List.count_append, List.count_singleton, Ne.symm hx]
        rw [this]
    · intro kv hkv
      rcases mem_setProperty _ _ _ _ hkv with h | h
      · exact h2 kv h
      · exact ⟨ks.count k + 1, Nat.succ_pos _, by rw [h]⟩
    · have := sum_setProperty (fun t : TypeCount =>
        match t with
        | .count n => n
        | .text _ => 0) st k (.count (ks.count k + 1))
      simp only [] at this
      rw [hval, h3] at this
      simp only [List.length_append, List.length_singleton]
      omega

/-- C30, with the inputs on which it fails.  On a store in which no file has an extension key
that names a property of `Object.prototype`, the histogram `fileTypes` of `getStats()` holds
under every key `x` the number of stored files whose extension key (the lower-cased text after
the last `.` of the name, or `unknown` when that text is empty) is `x`, and holds no key without
such a file; every value is a positive number and the values add up to `totalFiles`.  On every
store `modifiedFiles` is at most `totalFiles`.  In the statistics scenario (files `a.js`,
`B.JS`, `c.constructor`, `Makefile`, `d.`, `e.__proto__`) the value under `constructor` is a
string, the file `e.__proto__` is counted under no key, and the numbers add up to 4 of the 6
files. -/
theorem getFileTypeStats_histogram :
    (∀ (toLowerCase : String → String) (s : FileManager),
      (∀ f ∈ s.getFiles,
        FileManager.extensionKey toLowerCase (s.obj f).name ∉ objectPrototypeKeys) →
      (∀ x, List.lookup x (s.getStats toLowerCase).fileTypes =
        if (s.getFiles.filter fun f =>
            FileManager.extensionKey toLowerCase (s.obj f).name = x).length = 0 then none
        else some (.count (s.getFiles.filter fun f =>
            FileManager.extensionKey toLowerCase (s.obj f).name = x).length)) ∧
      (∀ kv ∈ (s.getStats toLowerCase).fileTypes, ∃ n, 0 < n ∧ kv.2 = .count n) ∧
      ((s.getStats toLowerCase).fileTypes.map fun kv =>
        match kv.2 with
        | .count n => n
        | .text _ => 0).sum = (s.getStats toLowerCase).totalFiles) ∧
    (∀ (toLowerCase : String → String) (s : FileManager),
      (s.getStats toLowerCase).modifiedFiles ≤ (s.getStats toLowerCase).totalFiles) ∧
    statsScenario.getStats asciiLower =
      { totalFiles := 6, totalFolders := 0, modifiedFiles := 1, totalSize := 10,
        fileTypes := [("js", .count 2), ("constructor", .text 1), ("makefile", .count 1),
          ("unknown", .count 1)] } := by
  refine ⟨?_, ?_, by decide⟩
  · intro toLowerCase s hs
    have hfold : (s.getStats toLowerCase).fileTypes =
        (s.getFiles.map fun f => FileManager.extensionKey toLowerCase (s.obj f).name).foldl
          FileManager.countExtension [] := by
      simp [FileManager.getStats, FileManager.getFileTypeStats, List.foldl_map]
    have hcount : ∀ x,
        (s.getFiles.map fun f => FileManager.extensionKey toLowerCase (s.obj f).name).count x =
          (s.getFiles.filter fun f =>
            FileManager.extensionKey toLowerCase (s.obj f).name = x).length := by
      intro x
      rw [List.count, List.countP_map, List.countP_eq_length_filter]
      congr 1
    obtain ⟨h1, h2, h3⟩ := countExtension_foldl
      (s.getFiles.map fun f => FileManager.extensionKey toLowerCase (s.obj f).name)
      (by
        intro k hk
        obtain ⟨f, hf, rfl⟩ := List.mem_map.mp hk
        exact hs f hf)
    rw [hfold]
    refine ⟨fun x => ?_, h2, ?_⟩
    · rw [h1 x, hcount x]
    · rw [h3]
      simp [FileManager.getStats]
  · intro toLowerCase s
    exact List.length_filter_le _ _

/-! ## Identifiers of created entries -/

namespace FileManager

/-- The record that `createFile` returns carries the generated id, whatever the parent. -/
theorem createFile_id (s : FileManager) (n c : String) (p : Option Ref) (t a b : Nat) :
    ((s.createFile n c p t a b).2.obj (s.createFile n c p t a b).1).id = (s.generateId t).1 := by
  cases p with
  | none => simp [createFile, generateId, alloc, emit, obj]
  | some q =>
    simp only [createFile, generateId, alloc, pushChild, saveToStorage_eq, emit_obj]
    refine ((modifyObj_id_type_of _ q _ ?_ _).1).trans ?_
    · intro e; exact ⟨rfl, rfl⟩
    · simp [obj]

/-- The record that `createFolder` returns carries the generated id, whatever the parent. -/
theorem createFolder_id (s : FileManager) (n : String) (p : Option Ref) (t a : Nat) :
    ((s.createFolder n p t a).2.obj (s.createFolder n p t a).1).id = (s.generateId t).1 := by
  cases p with
  | none => simp [createFolder, generateId, alloc, emit, obj]
  | some q =>
    simp only [createFolder, generateId, alloc, pushChild, saveToStorage_eq, emit_obj]
    refine ((modifyObj_id_type_of _ q _ ?_ _).1).trans ?_
    · intro e; exact ⟨rfl, rfl⟩
    · simp [obj]

/-- Every id handed out in a run of creations was built from a counter value that is at least
the value of `nextId` before the run. -/
theorem createAll_ids (calls : List CreateCall) :
    ∀ (s : FileManager), (s.createAll calls).2.nextId = s.nextId + calls.length ∧
      (s.createAll calls).1.length = calls.length ∧
      (∀ id ∈ (s.createAll calls).1, ∃ (s' : FileManager) (t : Nat),
        s.nextId ≤ s'.nextId ∧ id = (s'.generateId t).1) ∧
      (s.createAll calls).1.Nodup := by
  induction calls with
  | nil => intro s; simp [createAll]
  | cons call rest ih =>
    intro s
    have step : ∀ (r : Ref × FileManager) (t : Nat), r.2.nextId = s.nextId + 1 →
        (r.2.obj r.1).id = (s.generateId t).1 →
        (r.2.createAll rest).2.nextId = s.nextId + (call :: rest).length ∧
        ((r.2.obj r.1).id :: (r.2.createAll rest).1).length = (call :: rest).length ∧
        (∀ id ∈ (r.2.obj r.1).id :: (r.2.createAll rest).1, ∃ (s' : FileManager) (t : Nat),
          s.nextId ≤ s'.nextId ∧ id = (s'.generateId t).1) ∧
        ((r.2.obj r.1).id :: (r.2.createAll rest).1).Nodup := by
      intro r t hn hid
      obtain ⟨h1, h2, h3, h4⟩ := ih r.2
      refine ⟨?_, ?_, ?_, ?_⟩
      · rw [h1, hn, List.length_cons]; omega
      · simp [h2]
      · intro id hmem
        rcases List.mem_cons.mp hmem with e | hmem
        · exact ⟨s, t, le_refl _, by rw [e, hid]⟩
        · obtain ⟨s', t', hle, e⟩ := h3 id hmem
          exact ⟨s', t', by rw [hn] at hle; omega, e⟩
      · refine List.nodup_cons.mpr ⟨?_, h4⟩
        intro hmem
        obtain ⟨s', t', hle, e⟩ := h3 _ hmem
        rw [hid] at e
        have := (generateId_injective s s' t t' e).1
        rw [hn] at hle
        omega
    cases call with
    | file n c p t a b =>
      exact step (s.createFile n c p t a b) t (s.createFile_nextId n c p t a b)
        (s.createFile_id n c p t a b)
    | folder n p t a =>
      exact step (s.createFolder n p t a) t (s.createFolder_nextId n p t a)
        (s.createFolder_id n p t a)

end FileManager

/-- C29: from any state of the store, so in particular from a fresh or a cleared one (where
`nextId` is 1), the ids of the records returned by a sequence of `createFile` and `createFolder`
calls are pairwise distinct whatever the clock reads; the sequence increases `nextId` by one per
call; and the id string `item_<n>_<t>` determines the counter `n` and the reading `t`.  Three
calls that all read `100` hand out `item_1_100`, `item_2_100` and `item_3_100`. -/
theorem created_ids_distinct :
    (∀ (s : FileManager) (calls : List CreateCall),
      (s.createAll calls).1.Nodup ∧ (s.createAll calls).1.length = calls.length ∧
      (s.createAll calls).2.nextId = s.nextId + calls.length) ∧
    (∀ (s : FileManager) (n c : String) (p : Option Ref) (t a b : Nat),
      (s.createFile n c p t a b).2.nextId = s.nextId + 1 ∧
      ((s.createFile n c p t a b).2.obj (s.createFile n c p t a b).1).id =
        "item_" ++ toString s.nextId ++ "_" ++ toString t) ∧
    (∀ (s : FileManager) (n : String) (p : Option Ref) (t a : Nat),
      (s.createFolder n p t a).2.nextId = s.nextId + 1 ∧
      ((s.createFolder n p t a).2.obj (s.createFolder n p t a).1).id =
        "item_" ++ toString s.nextId ++ "_" ++ toString t) ∧
    (∀ n t n' t' : Nat,
      "item_" ++ toString n ++ "_" ++ toString t = "item_" ++ toString n' ++ "_" ++ toString t' →
      n = n' ∧ t = t') ∧
    FileManager.empty.nextId = 1 ∧ (∀ s : FileManager, s.clearAll.nextId = 1) ∧
    (FileManager.empty.createAll
        [.file "a.txt" "" none 100 100 100, .folder "b" none 100 100,
          .file "a.txt" "" (some 1) 100 100 100]).1 =
      ["item_1_100", "item_2_100", "item_3_100"] := by
  refine ⟨fun s calls => ?_, fun s n c p t a b => ?_, fun s n p t a => ?_, ?_, rfl,
    fun _ => rfl, by decide⟩
  · obtain ⟨h1, h2, _, h4⟩ := FileManager.createAll_ids calls s
    exact ⟨h4, h2, h1⟩
  · exact ⟨s.createFile_nextId n c p t a b, s.createFile_id n c p t a b⟩
  · exact ⟨s.createFolder_nextId n p t a, s.createFolder_id n p t a⟩
  · intro n t n' t' h
    exact FileManager.generateId_injective { FileManager.empty with nextId := n }
      { FileManager.empty with nextId := n' } t t' h

/-! ## Unique folder names and the length of the renaming loops -/

/-- C26: given at least as many evaluations of the loop condition as the scope has entries,
plus two, `generateUniqueFolderName(b, p)` returns `b` when no sibling folder in `p` is named
`b`, and otherwise `b + " (n)"` for the least `n >= 1` such that no sibling folder has that
name.  The counter follows the whole base name also when `b` contains a `.`: with the folder
`v1.0` at the root the result for `v1.0` is `v1.0 (1)`, where `generateUniqueFileName`, for the
file of the same name, answers `v1 (1).0`. -/
theorem generateUniqueFolderName_least (s : FileManager) (b : String) (p : Option Ref)
    (extra : Nat) :
    (∀ x, s.folderNameExists x p = true ↔
      ∃ item ∈ s.folderScope p, (s.obj item).type = .folder ∧ (s.obj item).name = x) ∧
    (s.folderNameExists b p = false →
      s.generateUniqueFolderName ((s.folderScope p).length + 2 + extra) b p = some b) ∧
    (s.folderNameExists b p = true →
      ∃ n, 1 ≤ n ∧
        s.generateUniqueFolderName ((s.folderScope p).length + 2 + extra) b p =
          some (b ++ " (" ++ toString n ++ ")") ∧
        s.folderNameExists (b ++ " (" ++ toString n ++ ")") p = false ∧
        ∀ m, 1 ≤ m → m < n → s.folderNameExists (b ++ " (" ++ toString m ++ ")") p = true) ∧
    versionScenario.folderNameExists "v1.0" none = true ∧
    versionScenario.generateUniqueFolderName 4 "v1.0" none = some "v1.0 (1)" ∧
    versionScenario.generateUniqueFileName 4 "v1.0" none = some "v1 (1).0" := by
  have hspec := renamingLoop_spec (fun x => s.folderNameExists x p)
    (FileManager.folderCandidate b) (s.generateUniqueFolderNameLoop b p)
    ((s.folderScope p).map (fun item => (s.obj item).name))
    (fun _ _ _ => rfl) (fun x h => s.folderNameExists_mem_names p x h)
    (FileManager.folderCandidate_injective b) b ((s.folderScope p).length + 2 + extra)
    (by simp)
  refine ⟨fun x => s.folderNameExists_iff x p, hspec.1, ?_, by decide, by decide, by decide⟩
  intro hb
  obtain ⟨n, h1, _, h3, h4, h5⟩ := hspec.2 hb
  exact ⟨n, h1, h3, h4, h5⟩

namespace FileManager

theorem fileNameExists_mem_fileNames (s : FileManager) (p : Option Ref) (x : String)
    (h : s.fileNameExists x p = true) :
    x ∈ ((s.fileScope p).filter fun item => (s.obj item).type = .file).map
      (fun item => (s.obj item).name) := by
  obtain ⟨item, h1, h2, h3⟩ := (fileNameExists_iff s x p).mp h
  exact List.mem_map.mpr ⟨item, List.mem_filter.mpr ⟨h1, by simpa using h2⟩, h3⟩

theorem folderNameExists_mem_folderNames (s : FileManager) (p : Option Ref) (x : String)
    (h : s.folderNameExists x p = true) :
    x ∈ ((s.folderScope p).filter fun item => (s.obj item).type = .folder).map
      (fun item => (s.obj item).name) := by
  obtain ⟨item, h1, h2, h3⟩ := (folderNameExists_iff s x p).mp h
  exact List.mem_map.mpr ⟨item, List.mem_filter.mpr ⟨h1, by simpa using h2⟩, h3⟩

end FileManager

/-- C27: both renaming loops end, for every base name and every scope.  With `k` the number of
sibling files (respectively folders) in the scope, `k + 2` evaluations of the loop condition,
that is at most `k + 1` runs of the loop body, are enough for a result, which is the base name
or the candidate of a counter between `1` and `k + 1`; the candidate name is injective in the
counter.  In the naming scenario, with the sibling files `a.txt` and `a (1).txt`, the loop for
`a.txt` ends at the third evaluation of its condition and not before. -/
theorem generateUnique_terminates (s : FileManager) (b : String) (p : Option Ref)
    (extra : Nat) :
    (∃ r, s.generateUniqueFileName
        (((s.fileScope p).filter fun item => (s.obj item).type = .file).length + 2 + extra)
        b p = some r ∧
      (r = b ∨ ∃ n, 1 ≤ n ∧
        n ≤ ((s.fileScope p).filter fun item => (s.obj item).type = .file).length + 1 ∧
        r = FileManager.fileCandidate b n)) ∧
    (∃ r, s.generateUniqueFolderName
        (((s.folderScope p).filter fun item => (s.obj item).type = .folder).length + 2 + extra)
        b p = some r ∧
      (r = b ∨ ∃ n, 1 ≤ n ∧
        n ≤ ((s.folderScope p).filter fun item => (s.obj item).type = .folder).length + 1 ∧
        r = FileManager.folderCandidate b n)) ∧
    Function.Injective (FileManager.fileCandidate b) ∧
    Function.Injective (FileManager.folderCandidate b) ∧
    namingScenario.generateUniqueFileName 3 "a.txt" (some 0) = some "a (2).txt" ∧
    namingScenario.generateUniqueFileName 2 "a.txt" (some 0) = none := by
  have hspec1 := renamingLoop_spec (fun x => s.fileNameExists x p) (FileManager.fileCandidate b)
    (s.generateUniqueFileNameLoop b p)
    (((s.fileScope p).filter fun item => (s.obj item).type = .file).map
      (fun item => (s.obj item).name))
    (fun _ _ _ => rfl) (fun x h => s.fileNameExists_mem_fileNames p x h)
    (FileManager.fileCandidate_injective b) b
    (((s.fileScope p).filter fun item => (s.obj item).type = .file).length + 2 + extra)
    (by simp)
  have hspec2 := renamingLoop_spec (fun x => s.folderNameExists x p)
    (FileManager.folderCandidate b) (s.generateUniqueFolderNameLoop b p)
    (((s.folderScope p).filter fun item => (s.obj item).type = .folder).map
      (fun item => (s.obj item).name))
    (fun _ _ _ => rfl) (fun x h => s.folderNameExists_mem_folderNames p x h)
    (FileManager.folderCandidate_injective b) b
    (((s.folderScope p).filter fun item => (s.obj item).type = .folder).length + 2 + extra)
    (by simp)
  refine ⟨?_, ?_, FileManager.fileCandidate_injective b, FileManager.folderCandidate_injective b,
    by decide, by decide⟩
  · cases hb : s.fileNameExists b p
    · exact ⟨b, hspec1.1 hb, Or.inl rfl⟩
    · obtain ⟨n, h1, h2, h3, _, _⟩ := hspec1.2 hb
      exact ⟨_, h3, Or.inr ⟨n, h1, by simpa using h2, rfl⟩⟩
  · cases hb : s.folderNameExists b p
    · exact ⟨b, hspec2.1 hb, Or.inl rfl⟩
    · obtain ⟨n, h1, h2, h3, _, _⟩ := hspec2.2 hb
      exact ⟨_, h3, Or.inr ⟨n, h1, by simpa using h2, rfl⟩⟩

/-! ## Moving a folder below itself -/

namespace FileManager

theorem Reach.snoc {s : FileManager} {a p c : Ref} (h : Reach s a p) (hc : c ∈ s.children p)
    (ht : (s.obj c).type = .folder) : Reach s a c := by
  induction h with
  | edge h1 h2 => exact .cons h1 h2 (.edge hc ht)
  | cons h1 h2 _ ih => exact .cons h1 h2 (ih hc)

theorem Reach.reach_congr {s s' : FileManager} (hch : ∀ r, s'.children r = s.children r)
    (hty : ∀ r, (s'.obj r).type = (s.obj r).type) {a d : Ref} (h : Reach s a d) :
    Reach s' a d := by
  induction h with
  | edge h1 h2 => exact .edge (by rw [hch]; exact h1) (by rw [hty]; exact h2)
  | cons h1 h2 _ ih => exact .cons (by rw [hch]; exact h1) (by rw [hty]; exact h2) ih

theorem Reach.of_pathsOnly {s s' : FileManager} (hP : PathsOnly s s') {a d : Ref}
    (h : Reach s a d) : Reach s' a d :=
  Reach.reach_congr (fun r => hP.children r) (fun r => hP.type r) h

/-- The first step of a way back to `a`: a folder among the children of `a` that lies on a
cycle itself. -/
theorem Reach.first {s : FileManager} {a d : Ref} (h : Reach s a d) :
    ∃ c, c ∈ s.children a ∧ (s.obj c).type = .folder ∧ (c = d ∨ Reach s c d) := by
  cases h with
  | edge h1 h2 => exact ⟨_, h1, h2, Or.inl rfl⟩
  | cons h1 h2 h3 => exact ⟨_, h1, h2, Or.inr h3⟩

/-- The loop of `forEachChild` does not return when the callback does not return on one of the
children, provided the callbacks that return change `path` fields only. -/
theorem forEachChild_none (cb : Ref → FileManager → Option FileManager) (folder : Ref)
    (s : FileManager) (i : Nat) (c : Ref) (hi : (s.children folder)[i]? = some c)
    (hcb : ∀ x s1 s2, cb x s1 = some s2 → PathsOnly s1 s2)
    (hnone : ∀ s1, PathsOnly s s1 → cb c s1 = none) :
    ∀ (n k : Nat) (s1 : FileManager), PathsOnly s s1 → k ≤ i → i < k + n →
      forEachChild cb folder n k s1 = none := by
  intro n
  induction n with
  | zero => intro k s1 _ h1 h2; omega
  | succ n ih =>
    intro k s1 hP h1 h2
    rw [forEachChild]
    by_cases hk : k = i
    · subst hk
      rw [hP.children, hi]
      simp only []
      rw [hnone s1 hP]
      rfl
    · split
      · rename_i child _
        cases hc : cb child s1 with
        | none => rfl
        | some s2 =>
          simp only [Option.bind]
          exact ih (k + 1) s2 (hP.trans (hcb _ _ _ hc)) (by omega) (by omega)
      · exact ih (k + 1) s1 hP (by omega) (by omega)

/-- The recursion of `updateChildrenPaths` does not end on a folder that is reached from itself
through folders. -/
theorem updateChildrenPaths_none :
    ∀ (fuel : Nat) (s : FileManager) (F : Ref), Reach s F F → updateChildrenPaths fuel s F = none := by
  intro fuel
  induction fuel with
  | zero => intro s F _; rfl
  | succ fuel ih =>
    intro s F h
    obtain ⟨c, hc, hty, hback⟩ := h.first
    have hcc : Reach s c c := by
      rcases hback with rfl | hback
      · exact h
      · exact hback.snoc hc hty
    obtain ⟨i, hi⟩ := List.getElem?_of_mem hc
    rw [updateChildrenPaths_succ]
    refine forEachChild_none _ F s i c hi ?_ ?_ _ 0 s (PathsOnly.refl s) (Nat.zero_le _) ?_
    · intro x s1 s2 hx
      have hP := pathsOnly_modifyObj_path s1 x ((s1.obj F).path ++ "/" ++ (s1.obj x).name)
      split at hx
      · exact hP.trans (updateChildrenPaths_pathsOnly _ _ _ _ hx)
      · cases hx
        exact hP
    · intro s1 hP1
      have hP := pathsOnly_modifyObj_path s1 c ((s1.obj F).path ++ "/" ++ (s1.obj c).name)
      have hty1 : ((s1.modifyObj c (fun e =>
          { e with path := (s1.obj F).path ++ "/" ++ (s1.obj c).name })).obj c).type = .folder := by
        rw [hP.type, hP1.type]; exact hty
      show (if _ then _ else _) = none
      rw [if_pos hty1]
      exact ih _ c (Reach.of_pathsOnly (hP1.trans hP) hcc)
    · have := (List.getElem?_eq_some_iff.mp hi).1
      omega

/-- Along the ancestors of `e`, the path equation makes every path longer than that of the
ancestor. -/
theorem Anc.path_longer {s : FileManager} {e a : Ref} (h : Anc s e a)
    (hall : ∀ x, Anc s e x → PathEq s x) (he : PathEq s e) :
    (s.obj a).path.length < (s.obj e).path.length := by
  induction h with
  | parent hp =>
    rw [he _ hp]
    simp only [String.length_append]
    have : "/".length = 1 := rfl
    omega
  | step hp hpa ih =>
    have h1 := ih (fun x hx => hall x (.step hp hx)) (hall _ (.parent hp))
    rw [he _ hp]
    simp only [String.length_append]
    omega

theorem Anc.anc_congr {s s' : FileManager} (hpar : ∀ r, s'.parentOf r = s.parentOf r) {e a : Ref}
    (h : Anc s e a) : Anc s' e a := by
  induction h with
  | parent hp => exact .parent (by rw [hpar]; exact hp)
  | step hp _ ih => exact .step (by rw [hpar]; exact hp) ih

/-- No state satisfies the path equation at every record of a cycle of the `parent`
relation. -/
theorem Anc.no_paths {s : FileManager} {F : Ref} (h : Anc s F F) :
    ¬ ∀ e, Anc s F e → PathEq s e := by
  intro hall
  exact lt_irrefl _ (h.path_longer hall (hall F h))

end FileManager

namespace FileManager

/-- The state in which `moveFolder(F, T)` enters `updateChildrenPaths`, for a target at or
below `F`: `F` is its own ancestor along `parent`, and `F` is reached from itself along
`children` through folders. -/
theorem detach_attach_cycle (s : FileManager) (F T : Ref) (hwf : s.WellFormed)
    (hF : F ∈ s.getFolders) (hT : T ∈ s.getFolders) (hd : T = F ∨ Desc s F T) :
    ((s.detach F).attach F (some T)).parentOf F = some T ∧
    ((s.detach F).attach F (some T)).children T = (s.detach F).children T ++ [F] ∧
    Anc ((s.detach F).attach F (some T)) F F ∧
    Reach ((s.detach F).attach F (some T)) F F := by
  obtain ⟨hFl, hFt, _, _⟩ := hwf.folder_facts hF
  obtain ⟨hTl, hTt, _, _⟩ := hwf.folder_facts hT
  have hTl1 : ∀ t ∈ some T, t < (s.detach F).heap.length := by
    intro t ht
    cases ht
    rw [detach_heap_length]; exact hTl
  have hFl1 : F < (s.detach F).heap.length := by rw [detach_heap_length]; exact hFl
  generalize hs2 : (s.detach F).attach F (some T) = s2
  have hpar : ∀ r, s2.parentOf r = if r = F then some T else s.parentOf r := by
    intro r
    rw [← hs2, attach_parentOf _ _ _ _ hFl1, (detach_obj_fields s F r).1]
  have hch : ∀ r, s2.children r = (s.detach F).children r ++ (if some T = some r then [F] else []) := by
    intro r
    rw [← hs2]
    exact attach_children _ _ _ _ hTl1
  have hty : ∀ r, (s2.obj r).type = (s.obj r).type := by
    intro r
    rw [← hs2, (attach_id_type _ _ _ r).2, (detach_obj_fields s F r).2.2]
  have hkeep : ∀ p c, c ∈ s.children p → c ≠ F → c ∈ s2.children p := by
    intro p c hc hne
    rw [hch, detach_children_cases]
    refine List.mem_append_left _ ?_
    split
    · exact (List.mem_erase_of_ne hne).mpr hc
    · exact hc
  have hFT : F ∈ s2.children T := by
    rw [hch, if_pos rfl]
    exact List.mem_append_right _ (List.mem_singleton_self _)
  have hpF : s2.parentOf F = some T := by rw [hpar, if_pos rfl]
  have hFt2 : (s2.obj F).type = .folder := by rw [hty]; exact hFt
  have hQ : ∀ d, Desc s F d → d < s.heap.length ∧
      (d = F ∨ (Anc s2 d F ∧ ((s.obj d).type = .folder → Reach s2 F d))) := by
    intro d hdesc
    induction hdesc with
    | child hc =>
      rename_i c
      obtain ⟨hcl, hcp⟩ := hwf.children_ok F hFl c hc
      refine ⟨hcl, ?_⟩
      by_cases hne : c = F
      · exact Or.inl hne
      · right
        refine ⟨.parent (by rw [hpar, if_neg hne]; exact hcp), fun ht => ?_⟩
        exact .edge (hkeep F c hc hne) (by rw [hty]; exact ht)
    | step hp hc ih =>
      rename_i p c
      obtain ⟨hpl, hpq⟩ := ih
      obtain ⟨hcl, hcp⟩ := hwf.children_ok p hpl c hc
      refine ⟨hcl, ?_⟩
      by_cases hne : c = F
      · exact Or.inl hne
      · right
        have hc2 : s2.parentOf c = some p := by rw [hpar, if_neg hne]; exact hcp
        have hpt : (s.obj p).type = .folder := by
          cases ht : (s.obj p).type with
          | folder => rfl
          | file =>
            have := hwf.file_leaf p hpl ht
            rw [this] at hc
            cases hc
        rcases hpq with rfl | ⟨ha, hr⟩
        · exact ⟨.parent hc2, fun ht => .edge (hkeep _ c hc hne) (by rw [hty]; exact ht)⟩
        · exact ⟨.step hc2 ha,
            fun ht => (hr hpt).snoc (hkeep p c hc hne) (by rw [hty]; exact ht)⟩
  refine ⟨hpF, by rw [hch, if_pos rfl], ?_, ?_⟩
  · rcases hd with rfl | hd
    · exact .parent hpF
    · rcases (hQ T hd).2 with rfl | ⟨ha, _⟩
      · exact .parent hpF
      · exact .step hpF ha
  · rcases hd with rfl | hd
    · exact .edge hFT hFt2
    · rcases (hQ T hd).2 with rfl | ⟨_, hr⟩
      · exact .edge hFT hFt2
      · exact (hr hTt).snoc hFT hFt2

end FileManager

namespace FileManager

/-- A relation that the callback respects, whether it returns or throws, is respected by the
whole loop. -/
theorem forEachChildStack_rel (R : FileManager → FileManager → Prop) (hrefl : ∀ s, R s s)
    (htrans : ∀ s s' s'', R s s' → R s' s'' → R s s'')
    (cb : Ref → FileManager → Except FileManager FileManager) (folder : Ref)
    (hcb : ∀ c s, R s (leftState (cb c s))) :
    ∀ (n k : Nat) (s : FileManager), R s (leftState (forEachChildStack cb folder n k s)) := by
  intro n
  induction n with
  | zero => intro k s; exact hrefl s
  | succ n ih =>
    intro k s
    rw [forEachChildStack]
    cases (s.children folder)[k]? with
    | none => exact ih _ _
    | some child =>
      have h := hcb child s
      simp only []
      cases hc : cb child s with
      | error s1 =>
        rw [hc] at h
        exact h
      | ok s1 =>
        rw [hc] at h
        exact htrans _ _ _ h (ih _ _)

/-- However a call of `updateChildrenPathsStack` ends, it has changed `path` fields only. -/
theorem updateChildrenPathsStack_pathsOnly :
    ∀ (depth : Nat) (s : FileManager) (F : Ref),
      PathsOnly s (leftState (updateChildrenPathsStack depth s F)) := by
  intro depth
  induction depth with
  | zero => intro s F; exact PathsOnly.refl s
  | succ depth ih =>
    intro s F
    rw [updateChildrenPathsStack]
    refine forEachChildStack_rel PathsOnly PathsOnly.refl (fun _ _ _ => PathsOnly.trans) _ F ?_
      _ _ s
    intro c s1
    have hP := pathsOnly_modifyObj_path s1 c ((s1.obj F).path ++ "/" ++ (s1.obj c).name)
    dsimp only
    split
    · exact hP.trans (ih _ _)
    · exact hP

/-- Forgetting the state of a throw gives the loop of `forEachChild`. -/
theorem forEachChildStack_toOption
    (cbS : Ref → FileManager → Except FileManager FileManager)
    (cb : Ref → FileManager → Option FileManager) (folder : Ref)
    (h : ∀ c s, (cbS c s).toOption = cb c s) :
    ∀ (n k : Nat) (s : FileManager),
      (forEachChildStack cbS folder n k s).toOption = forEachChild cb folder n k s := by
  intro n
  induction n with
  | zero => intro k s; rfl
  | succ n ih =>
    intro k s
    rw [forEachChildStack, forEachChild]
    cases (s.children folder)[k]? with
    | none => exact ih _ _
    | some child =>
      have hc := h child s
      simp only []
      cases hS : cbS child s with
      | error s1 =>
        rw [hS] at hc
        rw [← hc]
        rfl
      | ok s1 =>
        rw [hS] at hc
        rw [← hc]
        exact ih _ _

/-- Forgetting the state of a throw gives `updateChildrenPaths`: the calls that return are the
same, with the same result. -/
theorem updateChildrenPathsStack_toOption :
    ∀ (depth : Nat) (s : FileManager) (F : Ref),
      (updateChildrenPathsStack depth s F).toOption = updateChildrenPaths depth s F := by
  intro depth
  induction depth with
  | zero => intro s F; rfl
  | succ depth ih =>
    intro s F
    rw [updateChildrenPathsStack, updateChildrenPaths]
    refine forEachChildStack_toOption _ _ F ?_ _ _ _
    intro c s1
    dsimp only
    split
    · exact ih _ _
    · rfl

/-- Forgetting the state of a throw gives `moveFolder`. -/
theorem moveFolderStack_toOption (depth : Nat) (s : FileManager) (F : Ref) (T : Option Ref) :
    (s.moveFolderStack depth F T).toOption = s.moveFolder depth F T := by
  have h := updateChildrenPathsStack_toOption depth ((s.detach F).attach F T) F
  rw [moveFolder_eq, ← h]
  unfold moveFolderStack
  dsimp only
  cases hU : updateChildrenPathsStack depth ((s.detach F).attach F T) F <;> rfl

/-- The loop throws when the callback throws on one of the children, provided the callback
changes `path` fields only. -/
theorem forEachChildStack_throws (cb : Ref → FileManager → Except FileManager FileManager)
    (folder : Ref) (s : FileManager) (i : Nat) (c : Ref)
    (hi : (s.children folder)[i]? = some c)
    (hcb : ∀ x s1, PathsOnly s1 (leftState (cb x s1)))
    (hthrow : ∀ s1, PathsOnly s s1 → ∃ e, cb c s1 = .error e) :
    ∀ (n k : Nat) (s1 : FileManager), PathsOnly s s1 → k ≤ i → i < k + n →
      ∃ e, forEachChildStack cb folder n k s1 = .error e := by
  intro n
  induction n with
  | zero => intro k s1 _ h1 h2; omega
  | succ n ih =>
    intro k s1 hP h1 h2
    rw [forEachChildStack]
    by_cases hk : k = i
    · subst hk
      rw [hP.children, hi]
      obtain ⟨e, he⟩ := hthrow s1 hP
      exact ⟨e, by simp only [he]⟩
    · cases hg : (s1.children folder)[k]? with
      | none => exact ih (k + 1) s1 hP (by omega) (by omega)
      | some child =>
        have h := hcb child s1
        simp only []
        cases hc : cb child s1 with
        | error e => exact ⟨e, rfl⟩
        | ok s2 =>
          rw [hc] at h
          exact ih (k + 1) s2 (hP.trans h) (by omega) (by omega)

/-- On a folder that is reached from itself through folders, the recursion of
`updateChildrenPaths` exhausts every stack. -/
theorem updateChildrenPathsStack_throws :
    ∀ (depth : Nat) (s : FileManager) (F : Ref), Reach s F F →
      ∃ e, updateChildrenPathsStack depth s F = .error e := by
  intro depth
  induction depth with
  | zero => intro s F _; exact ⟨s, rfl⟩
  | succ depth ih =>
    intro s F h
    obtain ⟨c, hc, hty, hback⟩ := h.first
    have hcc : Reach s c c := by
      rcases hback with rfl | hback
      · exact h
      · exact hback.snoc hc hty
    obtain ⟨i, hi⟩ := List.getElem?_of_mem hc
    rw [updateChildrenPathsStack]
    refine forEachChildStack_throws _ F s i c hi ?_ ?_ _ 0 s (PathsOnly.refl s)
      (Nat.zero_le _) ?_
    · intro x s1
      have hP := pathsOnly_modifyObj_path s1 x ((s1.obj F).path ++ "/" ++ (s1.obj x).name)
      dsimp only
      split
      · exact hP.trans (updateChildrenPathsStack_pathsOnly _ _ _)
      · exact hP
    · intro s1 hP1
      have hP := pathsOnly_modifyObj_path s1 c ((s1.obj F).path ++ "/" ++ (s1.obj c).name)
      have hty1 : ((s1.modifyObj c (fun e =>
          { e with path := (s1.obj F).path ++ "/" ++ (s1.obj c).name })).obj c).type = .folder := by
        rw [hP.type, hP1.type]; exact hty
      dsimp only
      rw [if_pos hty1]
      exact ih _ c (Reach.of_pathsOnly (hP1.trans hP) hcc)
    · have := (List.getElem?_eq_some_iff.mp hi).1
      omega

end FileManager

/-- C25: `moveFolder` has no cycle guard.  In a well-formed store, for a stored folder `F` and a
stored folder `T` that is `F` itself or a descendant of `F`, `moveFolder(F, T)` is not turned
away: it runs its detachment and attachment like any other move and then exhausts the stack in
`updateChildrenPaths`, whatever the depth of the stack, so the call ends in a `RangeError`
before `saveToStorage` and `emit`.  In the state it leaves behind, `F.parent` is `T`, `F` is the
last element of `T.children`, `F` is its own ancestor along `parent`, the maps, `nextId` and
the events are as before, and the `parent` of every other record is as before; no state with
these `parent` fields, whatever its paths and names, satisfies
`e.path = e.parent.path + "/" + e.name` at every record of the cycle.  On every store and for
every target, the calls of `moveFolderStack` that return are those of `moveFolder`, with the
same result. -/
theorem moveFolder_into_descendant (s : FileManager) (F T : Ref) (hwf : s.WellFormed)
    (hF : F ∈ s.getFolders) (hT : T ∈ s.getFolders) (hd : T = F ∨ FileManager.Desc s F T)
    (depth : Nat) :
    (∃ s', s.moveFolderStack depth F (some T) = .error s' ∧
      s'.parentOf F = some T ∧
      s'.children T =
        (if s.parentOf F = some T then (s.children T).erase F else s.children T) ++ [F] ∧
      FileManager.Anc s' F F ∧
      (∀ s'' : FileManager, (∀ r, s''.parentOf r = s'.parentOf r) →
        ¬ ∀ e, FileManager.Anc s'' F e → FileManager.PathEq s'' e) ∧
      s'.files = s.files ∧ s'.folders = s.folders ∧ s'.nextId = s.nextId ∧
      s'.emitted = s.emitted ∧
      (∀ r, r ≠ F → s'.parentOf r = s.parentOf r)) ∧
    s.moveFolder depth F (some T) = none ∧
    (∀ (d : Nat) (s0 : FileManager) (F0 : Ref) (T0 : Option Ref),
      (s0.moveFolderStack d F0 T0).toOption = s0.moveFolder d F0 T0) := by
  obtain ⟨h1, h2, h3, h4⟩ := FileManager.detach_attach_cycle s F T hwf hF hT hd
  obtain ⟨hFl, _, _, _⟩ := hwf.folder_facts hF
  obtain ⟨e, he⟩ := FileManager.updateChildrenPathsStack_throws depth _ F h4
  have hP := FileManager.updateChildrenPathsStack_pathsOnly depth
    ((s.detach F).attach F (some T)) F
  rw [he] at hP
  replace hP : FileManager.PathsOnly ((s.detach F).attach F (some T)) e := hP
  have hrun : s.moveFolderStack depth F (some T) = .error e := by
    unfold FileManager.moveFolderStack
    dsimp only
    rw [he]
  have hAnc : FileManager.Anc e F F := FileManager.Anc.anc_congr (fun r => hP.parentOf r) h3
  refine ⟨⟨e, hrun, ?_, ?_, hAnc, ?_, ?_, ?_, ?_, ?_, ?_⟩, ?_, ?_⟩
  · rw [hP.parentOf, h1]
  · rw [hP.children, h2, FileManager.detach_children_cases]
  · intro s'' hpar
    exact (FileManager.Anc.anc_congr hpar hAnc).no_paths
  · rw [hP.1]; simp
  · rw [hP.2.1]; simp
  · rw [hP.2.2.1]; simp
  · rw [hP.2.2.2.1]; simp
  · intro r hr
    rw [hP.parentOf, FileManager.attach_parentOf _ _ _ _ (by simpa using hFl), if_neg hr,
      (FileManager.detach_obj_fields s F r).1]
  · rw [← FileManager.moveFolderStack_toOption, hrun]
    rfl
  · intro d s0 F0 T0
    exact FileManager.moveFolderStack_toOption d s0 F0 T0

/-- The nested scenario satisfies the hypotheses of `moveFolder_into_descendant` for the move of
`a` into its child `b` on a stack of depth 50; the call throws, and in the state it leaves
`a.parent` is `b`, `b.parent` is `a`, `b.children` is `y.js` followed by `a`, the root folder
`a` is in no `children` array but that of `b`, and no event was emitted. -/
theorem moveFolder_into_descendant_witness :
    nestedScenario.WellFormed ∧ 0 ∈ nestedScenario.getFolders ∧
    2 ∈ nestedScenario.getFolders ∧ FileManager.Desc nestedScenario 0 2 ∧
    ((∃ s', nestedScenario.moveFolderStack 50 0 (some 2) = .error s' ∧
      s'.parentOf 0 = some 2 ∧
      s'.children 2 =
        (if nestedScenario.parentOf 0 = some 2 then (nestedScenario.children 2).erase 0
          else nestedScenario.children 2) ++ [0] ∧
      FileManager.Anc s' 0 0 ∧
      (∀ s'' : FileManager, (∀ r, s''.parentOf r = s'.parentOf r) →
        ¬ ∀ e, FileManager.Anc s'' 0 e → FileManager.PathEq s'' e) ∧
      s'.files = nestedScenario.files ∧ s'.folders = nestedScenario.folders ∧
      s'.nextId = nestedScenario.nextId ∧ s'.emitted = nestedScenario.emitted ∧
      (∀ r, r ≠ 0 → s'.parentOf r = nestedScenario.parentOf r)) ∧
    nestedScenario.moveFolder 50 0 (some 2) = none ∧
    (∀ (d : Nat) (s0 : FileManager) (F0 : Ref) (T0 : Option Ref),
      (s0.moveFolderStack d F0 T0).toOption = s0.moveFolder d F0 T0)) ∧
    (nestedScenario.moveFolderStack 50 0 (some 2)).toOption = none ∧
    ((FileManager.leftState (nestedScenario.moveFolderStack 50 0 (some 2))).parentOf 0,
      (FileManager.leftState (nestedScenario.moveFolderStack 50 0 (some 2))).parentOf 2,
      (FileManager.leftState (nestedScenario.moveFolderStack 50 0 (some 2))).children 2,
      (FileManager.leftState (nestedScenario.moveFolderStack 50 0 (some 2))).emitted ==
        nestedScenario.emitted) = (some 2, some 0, [3, 0], true) ∧
    (nestedScenario.parentOf 0, nestedScenario.parentOf 2, nestedScenario.children 2) =
      (none, some 0, [3]) ∧
    ((nestedScenario.moveFolderStack 6 0 (some 4)).toOption.map
        fun s' => (s'.parentOf 0, s'.children 4)) = some (some 4, [0]) :=
  ⟨nestedScenario_wellFormed, by decide, by decide, .child (by decide),
    moveFolder_into_descendant nestedScenario 0 2 nestedScenario_wellFormed (by decide)
      (by decide) (Or.inr (.child (by decide))) 50,
    by decide, by decide, by decide, by decide⟩

/-! ## Persistence -/

namespace Persisted

/-- The method `saveToStorage()` never throws and leaves the instance as it is. -/
theorem saveToStorage_ok (w : Persisted) (now : Nat) (outcome : WriteOutcome) :
    ∃ b, w.saveToStorage now outcome = .ok { store := w.store, backing := b } ∧
      (outcome = .stored → b.blob = some (w.store.exportData now, w.store.heap) ∧
        b.errors = w.backing.errors) ∧
      (outcome = .throws → b.blob = w.backing.blob ∧
        b.errors = w.backing.errors ++ ["Failed to save to storage: setItem"]) := by
  cases outcome
  · exact ⟨_, rfl, fun _ => ⟨rfl, rfl⟩, fun h => WriteOutcome.noConfusion h⟩
  · exact ⟨_, rfl, fun h => WriteOutcome.noConfusion h, fun _ => ⟨rfl, rfl⟩⟩

end Persisted

/-- C23: a failed write is swallowed.  Each of `createFile`, `createFolder`, `removeFile`,
`renameFile`, `moveFile`, `updateFileContent` and `markFileAsSaved`, run on any state with a
write that throws, ends without an exception, returns what it returns when the write succeeds,
and leaves the instance in the state that the same call leaves when the write succeeds, which
is the state of the method taken without the key-value store, the lifecycle event emitted
last. -/
theorem write_failure_swallowed (w : Persisted) (outcome : WriteOutcome) :
    (∀ n c p t a b k, ∃ bk,
      w.createFile n c p t a b k outcome =
        .ok ((w.store.createFile n c p t a b).1,
          { store := (w.store.createFile n c p t a b).2, backing := bk }) ∧
      (w.store.createFile n c p t a b).2.emitted =
        w.store.emitted ++ [.fileAdded (w.store.createFile n c p t a b).1]) ∧
    (∀ n p t a k, ∃ bk,
      w.createFolder n p t a k outcome =
        .ok ((w.store.createFolder n p t a).1,
          { store := (w.store.createFolder n p t a).2, backing := bk }) ∧
      (w.store.createFolder n p t a).2.emitted =
        w.store.emitted ++ [.folderAdded (w.store.createFolder n p t a).1]) ∧
    (∀ f k, ∃ bk,
      w.removeFile f k outcome = .ok { store := w.store.removeFile f, backing := bk } ∧
      (w.store.removeFile f).emitted = w.store.emitted ++ [.fileRemoved f]) ∧
    (∀ f n t k, ∃ bk,
      w.renameFile f n t k outcome = .ok { store := w.store.renameFile f n t, backing := bk } ∧
      (w.store.renameFile f n t).emitted =
        w.store.emitted ++ [.fileRenamed f (w.store.obj f).name]) ∧
    (∀ f T k, ∃ bk,
      w.moveFile f T k outcome = .ok { store := w.store.moveFile f T, backing := bk } ∧
      (w.store.moveFile f T).emitted = w.store.emitted ++ [.fileMoved f T]) ∧
    (∀ f c t k, ∃ bk,
      w.updateFileContent f c t k outcome =
        .ok { store := w.store.updateFileContent f c t, backing := bk } ∧
      (w.store.updateFileContent f c t).emitted =
        w.store.emitted ++ [.fileContentChanged f]) ∧
    (∀ f k, ∃ bk,
      w.markFileAsSaved f k outcome =
        .ok { store := w.store.markFileAsSaved f, backing := bk } ∧
      (w.store.markFileAsSaved f).emitted = w.store.emitted ++ [.fileSaved f]) := by
  refine ⟨?_, ?_, ?_, ?_, ?_, ?_, ?_⟩
  · intro n c p t a b k
    cases outcome <;> cases p <;> exact ⟨_, rfl, rfl⟩
  · intro n p t a k
    cases outcome <;> cases p <;> exact ⟨_, rfl, rfl⟩
  · intro f k
    cases outcome <;> exact ⟨_, rfl, by simp [FileManager.removeFile, FileManager.emit]⟩
  · intro f n t k
    cases outcome <;> exact ⟨_, rfl, by simp [FileManager.renameFile, FileManager.emit]⟩
  · intro f T k
    cases outcome <;> exact ⟨_, rfl, by simp [FileManager.moveFile, FileManager.emit]⟩
  · intro f c t k
    cases outcome <;> exact ⟨_, rfl, by simp [FileManager.updateFileContent, FileManager.emit]⟩
  · intro f k
    cases outcome <;> exact ⟨_, rfl, by simp [FileManager.markFileAsSaved, FileManager.emit]⟩

namespace FileManager

/-- The maps after `importData` of an object: what the two loops had entered when the method
stopped. -/
theorem importData_maps (s : FileManager) (d : Snapshot) :
    (s.importData (some d)).2.files = (importField d.files []).1 ∧
    (s.importData (some d)).2.folders =
      (if (importField d.files []).2 then (importField d.folders []).1 else []) ∧
    (s.importData (some d)).1 =
      ((importField d.files []).2 && (importField d.folders []).2) := by
  simp only [importData]
  rcases h1 : importField d.files [] with ⟨files, b1⟩
  cases b1
  · exact ⟨rfl, rfl, rfl⟩
  · rcases h2 : importField d.folders [] with ⟨folders, b2⟩
    cases b2
    · exact ⟨rfl, rfl, rfl⟩
    · simp only []
      rcases d.nextId with _ | n
      · exact ⟨rfl, rfl, rfl⟩
      · by_cases hn : n = 0
        · simp [hn, emit]
        · simp [hn, emit]

end FileManager

/-- C24, as amended: constructing the store never fails, whatever the key holds.  When the read
throws, the key is absent, the text does not parse, or the text parses to `null`, the store
holds no files and no folders.  When the text parses to an object, the store holds what
`importData` had entered when it stopped: the files entered from the `files` field (all its
entries, or those before the first one that cannot be destructured; none when the field is
absent or no array), and folders likewise only when the `files` field was read to its end;
`importData` accepts the object exactly when both fields were read to their ends. -/
theorem construct_never_fails :
    (∀ item, ∃ s, FileManager.construct item = .ok s) ∧
    FileManager.construct .unreadable = .ok FileManager.empty ∧
    FileManager.construct .absent = .ok FileManager.empty ∧
    FileManager.construct .unparsable = .ok FileManager.empty ∧
    (∀ records, ∃ s, FileManager.construct (.parsed records none) = .ok s ∧
      s.files = [] ∧ s.folders = []) ∧
    (∀ records data, ∃ s, FileManager.construct (.parsed records (some data)) = .ok s ∧
      s.files = (importField data.files []).1 ∧
      s.folders =
        (if (importField data.files []).2 then (importField data.folders []).1 else []) ∧
      (({ FileManager.empty with heap := [] ++ records }).importData (some data)).1 =
        ((importField data.files []).2 && (importField data.folders []).2)) ∧
    (∀ m, importField .falsy m = (m, true) ∧ importField .notArray m = (m, false) ∧
      importField (.array []) m = (m, true) ∧
      (∀ rest, importField (.array (.notIterable :: rest)) m = (m, false)) ∧
      (∀ id r rest, importField (.array (.pair id r :: rest)) m =
        importField (.array rest) (m.set id r))) := by
  refine ⟨?_, rfl, rfl, rfl, fun records => ⟨_, rfl, rfl, rfl⟩, ?_,
    fun m => ⟨rfl, rfl, rfl, fun _ => rfl, fun _ _ _ => rfl⟩⟩
  · intro item
    cases item with
    | unreadable => exact ⟨_, rfl⟩
    | absent => exact ⟨_, rfl⟩
    | unparsable => exact ⟨_, rfl⟩
    | parsed records data => exact ⟨_, rfl⟩
  · intro records data
    exact ⟨_, rfl, FileManager.importData_maps _ data⟩

/-- C24, counterexample to the claim as stated: the key holds a text that parses to a snapshot
whose `files` array has the entry `k` followed by a number.  `importData` rejects the snapshot
(its result is false), the constructor ends normally, and the store then holds the file
`a.txt` under the id `k`. -/
theorem construct_keeps_partial_import :
    (FileManager.construct brokenItem).toOption.map
        (fun s => (s.getFiles, s.getFolders, s.getFile "k", (s.obj 0).name, s.nextId)) =
      some ([0], [], some 0, "a.txt", 1) ∧
    (∀ records data, brokenItem = .parsed records data →
      (({ FileManager.empty with heap := records }).importData data).1 = false) := by
  refine ⟨by decide, ?_⟩
  intro records data h
  cases h
  decide

/-! ## Visits of the recomputation of paths -/

namespace FileManager

/-- Dropping the log from the loop with a log gives the loop without. -/
theorem forEachChildLog_fst
    (cbL : Ref → FileManager × List Ref → Option (FileManager × List Ref))
    (cb : Ref → FileManager → Option FileManager) (folder : Ref)
    (h : ∀ c σ, (cbL c σ).map Prod.fst = cb c σ.1) :
    ∀ (n k : Nat) (σ : FileManager × List Ref),
      (forEachChildLog cbL folder n k σ).map Prod.fst = forEachChild cb folder n k σ.1 := by
  intro n
  induction n with
  | zero => intro k σ; rfl
  | succ n ih =>
    intro k σ
    rw [forEachChildLog, forEachChild]
    cases hget : (σ.1.children folder)[k]? with
    | none => exact ih _ _
    | some child =>
      simp only []
      have hc := h child σ
      cases hL : cbL child σ with
      | none =>
        rw [hL] at hc
        rw [← hc]
        rfl
      | some σ1 =>
        rw [hL] at hc
        rw [← hc]
        exact ih _ _

/-- Dropping the log from `updateChildrenPathsLog` gives `updateChildrenPaths`. -/
theorem updateChildrenPathsLog_fst :
    ∀ (fuel : Nat) (σ : FileManager × List Ref) (F : Ref),
      (updateChildrenPathsLog fuel σ F).map Prod.fst = updateChildrenPaths fuel σ.1 F := by
  intro fuel
  induction fuel with
  | zero => intro σ F; rfl
  | succ fuel ih =>
    intro σ F
    rw [updateChildrenPathsLog, updateChildrenPaths]
    refine forEachChildLog_fst _ _ F ?_ _ _ _
    intro c σ1
    simp only []
    split
    · exact ih _ _
    · rfl

/-- The loop with a log over an array that the callback leaves alone: an invariant indexed by
the position is carried through all positions. -/
theorem forEachChildLog_invariant
    (cb : Ref → FileManager × List Ref → Option (FileManager × List Ref)) (folder : Ref)
    (cs : List Ref) (Inv : Nat → FileManager × List Ref → Prop)
    (hch : ∀ k σ, Inv k σ → σ.1.children folder = cs)
    (hstep : ∀ k σ c, Inv k σ → cs[k]? = some c → ∃ σ', cb c σ = some σ' ∧ Inv (k + 1) σ') :
    ∀ (n k : Nat) (σ : FileManager × List Ref), Inv k σ → k + n = cs.length →
      ∃ σ', forEachChildLog cb folder n k σ = some σ' ∧ Inv (k + n) σ' := by
  intro n
  induction n with
  | zero => intro k σ h _; exact ⟨σ, rfl, h⟩
  | succ n ih =>
    intro k σ h hlen
    have hk : k < cs.length := by omega
    have hget : cs[k]? = some cs[k] := List.getElem?_eq_getElem hk
    obtain ⟨σ1, h1, hinv⟩ := hstep k σ _ h hget
    obtain ⟨σ', h2, hinv'⟩ := ih (k + 1) σ1 hinv (by omega)
    refine ⟨σ', ?_, by rwa [show k + (n + 1) = k + 1 + n by omega]⟩
    rw [forEachChildLog, hch k σ h, hget]
    simp only [h1, Option.some_bind]
    exact h2

/-- A child of `F` is not below another child of `F`. -/
theorem SubtreeOk.child_not_desc {rank : Ref → Nat} {s : FileManager} {F c c' : Ref}
    (hok : SubtreeOk rank s F) (hc : c ∈ s.children F) (hc' : c' ∈ s.children F) :
    ¬ Desc s c' c := by
  intro hd
  obtain ⟨q, hq, _, hpq⟩ := (hok.child hc').parent_of_desc hd
  have hpF := ((hok F (Or.inl rfl)).2 c hc).2.1
  rw [hpF] at hpq
  have hqF : F = q := Option.some.inj hpq
  subst hqF
  have hr' := ((hok F (Or.inl rfl)).2 c' hc').2.2
  rcases hq with e | hq
  · rw [← e] at hr'
    exact lt_irrefl _ hr'
  · exact lt_irrefl _ (lt_trans ((hok.child hc').rank_lt hq) hr')

/-- The subtrees of two different children of `F` have no record in common. -/
theorem SubtreeOk.subtrees_disjoint {rank : Ref → Nat} {s : FileManager} {F c c' : Ref}
    (hok : SubtreeOk rank s F) (hc : c ∈ s.children F) (hc' : c' ∈ s.children F)
    (hne : c ≠ c') {d : Ref} (h1 : d = c ∨ Desc s c d) (h2 : d = c' ∨ Desc s c' d) : False := by
  have hrc := ((hok F (Or.inl rfl)).2 c hc).2.2
  have hpc' := ((hok F (Or.inl rfl)).2 c' hc').2.1
  have key : ∀ p, (p = c ∨ Desc s c p) → ∀ d, d ∈ s.children p →
      ((p = c' ∨ Desc s c' p) → False) → (d = c' ∨ Desc s c' d) → False := by
    intro p hp d hd hpno h2
    have hpF : p = F ∨ Desc s F p := by
      rcases hp with rfl | hp
      · exact Or.inr (.child hc)
      · exact Or.inr (hp.trans_child hc)
    have hpd := ((hok p hpF).2 d hd).2.1
    rcases h2 with rfl | h2
    · rw [hpc'] at hpd
      have e : F = p := Option.some.inj hpd
      subst e
      rcases hp with e | hp
      · rw [← e] at hrc
        exact lt_irrefl _ hrc
      · exact lt_irrefl _ (lt_trans ((hok.child hc).rank_lt hp) hrc)
    · obtain ⟨q, hq, _, hqd⟩ := (hok.child hc').parent_of_desc h2
      rw [hpd] at hqd
      have e : p = q := Option.some.inj hqd
      subst e
      exact hpno hq
  have base : (c = c' ∨ Desc s c' c) → False := by
    rintro (e | h)
    · exact hne e
    · exact hok.child_not_desc hc hc' h
  rcases h1 with rfl | h1
  · exact base h2
  · induction h1 with
    | child hd => exact key c (Or.inl rfl) _ hd base h2
    | step hp hd ih => exact key _ (Or.inr hp) _ hd (fun h => ih h) h2

end FileManager

namespace FileManager

/-- On a subtree that is well formed and acyclic and whose `children` arrays hold no record
twice, `updateChildrenPathsLog(F)` returns, given a bound above the rank of `F`; it changes
`path` fields only; and what it appends to the log are descendants of `F`, each descendant
once. -/
theorem updateChildrenPathsLog_spec (rank : Ref → Nat) :
    ∀ (fuel : Nat) (s0 s : FileManager) (F : Ref) (log : List Ref), SubtreeOk rank s0 F →
      (∀ p, (p = F ∨ Desc s0 F p) → (s0.children p).Nodup) → PathsOnly s0 s → rank F < fuel →
      ∃ s' vs, updateChildrenPathsLog fuel (s, log) F = some (s', log ++ vs) ∧
        PathsOnly s s' ∧ (∀ d ∈ vs, Desc s0 F d) ∧ (∀ d, Desc s0 F d → vs.count d = 1) := by
  intro fuel
  induction fuel with
  | zero => intro s0 s F log _ _ _ h; omega
  | succ fuel ih =>
    intro s0 s F log hok hnd hP0 hfuel
    have hcs : (s0.children F).Nodup := hnd F (Or.inl rfl)
    have hinv := forEachChildLog_invariant
      (fun child σ =>
        if ((σ.1.modifyObj child (fun e =>
              { e with path := (σ.1.obj F).path ++ "/" ++ (σ.1.obj child).name })).obj
            child).type = .folder
        then updateChildrenPathsLog fuel (σ.1.modifyObj child (fun e =>
              { e with path := (σ.1.obj F).path ++ "/" ++ (σ.1.obj child).name }),
              σ.2 ++ [child]) child
        else some (σ.1.modifyObj child (fun e =>
              { e with path := (σ.1.obj F).path ++ "/" ++ (σ.1.obj child).name }),
              σ.2 ++ [child]))
      F (s0.children F)
      (fun k σ => PathsOnly s0 σ.1 ∧ ∃ vs, σ.2 = log ++ vs ∧
        (∀ d ∈ vs, ∃ i c, i < k ∧ (s0.children F)[i]? = some c ∧ (d = c ∨ Desc s0 c d)) ∧
        (∀ i c, i < k → (s0.children F)[i]? = some c →
          ∀ d, (d = c ∨ Desc s0 c d) → vs.count d = 1))
      (fun k σ h => h.1.children F)
      (by
        intro k σ c ⟨hP, vs, hlog, hmem, hcount⟩ hget
        have hc : c ∈ s0.children F := List.getElem?_mem hget
        have hokc : SubtreeOk rank s0 c := hok.child hc
        have hrc : rank c < rank F := ((hok F (Or.inl rfl)).2 c hc).2.2
        beta_reduce
        generalize hs1 : σ.1.modifyObj c (fun e =>
          { e with path := (σ.1.obj F).path ++ "/" ++ (σ.1.obj c).name }) = s1
        have hP1 : PathsOnly σ.1 s1 := by rw [← hs1]; exact pathsOnly_modifyObj_path _ _ _
        have hP01 : PathsOnly s0 s1 := hP.trans hP1
        -- the recursive call, or nothing for a file
        have hrec : ∃ s2 vs',
            (if (s1.obj c).type = .folder
              then updateChildrenPathsLog fuel (s1, σ.2 ++ [c]) c
              else some (s1, σ.2 ++ [c])) = some (s2, (σ.2 ++ [c]) ++ vs') ∧
            PathsOnly s1 s2 ∧ (∀ d ∈ vs', Desc s0 c d) ∧
            (∀ d, Desc s0 c d → vs'.count d = 1) := by
          by_cases hty : (s1.obj c).type = .folder
          · rw [if_pos hty]
            exact ih s0 s1 c (σ.2 ++ [c]) hokc
              (fun p hp => hnd p (Or.inr (by
                rcases hp with rfl | hp
                · exact .child hc
                · exact hp.trans_child hc)))
              hP01 (by omega)
          · rw [if_neg hty]
            have hfile : (s0.obj c).type = .file := by
              rw [hP01.type] at hty
              cases h : (s0.obj c).type with
              | file => rfl
              | folder => exact absurd h hty
            have hnil : s0.children c = [] := (hok c (Or.inr (.child hc))).1 hfile
            refine ⟨s1, [], by simp, PathsOnly.refl _, fun d hd => (by cases hd), fun d hd => ?_⟩
            obtain ⟨x, hx, _⟩ := hd.exists_child
            rw [hnil] at hx
            cases hx
        obtain ⟨s2, vs', hres, hP2, hmem', hcount'⟩ := hrec
        refine ⟨(s2, (σ.2 ++ [c]) ++ vs'), hres, hP01.trans hP2, vs ++ [c] ++ vs', ?_, ?_, ?_⟩
        · simp [hlog, List.append_assoc]
        · intro d hd
          rcases List.mem_append.mp hd with hd | hd
          · rcases List.mem_append.mp hd with hd | hd
            · obtain ⟨i, c', hi, hg, h⟩ := hmem d hd
              exact ⟨i, c', by omega, hg, h⟩
            · exact ⟨k, c, by omega, hget, Or.inl (by simpa using hd)⟩
          · exact ⟨k, c, by omega, hget, Or.inr (hmem' d hd)⟩
        · intro i c' hi hg d hd
          have hc' : c' ∈ s0.children F := List.getElem?_mem hg
          rw [List.count_append, List.count_append]
          by_cases hik : i = k
          · subst hik
            rw [hget] at hg
            cases hg
            have h0 : vs.count d = 0 := by
              rw [List.count_eq_zero]
              intro hin
              obtain ⟨j, cj, hj, hgj, h⟩ := hmem d hin
              have hne : cj ≠ c := by
                intro e
                subst e
                have := (List.getElem?_inj (by
                  exact (List.getElem?_eq_some_iff.mp hgj).1) hcs (hgj.trans hget.symm))
                omega
              exact hok.subtrees_disjoint (List.getElem?_mem hgj) hc hne h hd
            rcases hd with rfl | hd
            · have h1 : vs'.count d = 0 := by
                rw [List.count_eq_zero]
                intro hin
                exact hokc.not_desc_self (hmem' d hin)
              simp [h0, h1]
            · have hne : d ≠ c := by rintro rfl; exact hokc.not_desc_self hd
              have h1 : [c].count d = 0 := by
                rw [List.count_eq_zero]
                simpa using hne
              rw [h0, h1, hcount' d hd]
          · have hne : c' ≠ c := by
              intro e
              subst e
              have := (List.getElem?_inj (by
                exact (List.getElem?_eq_some_iff.mp hg).1) hcs (hg.trans hget.symm))
              omega
            have h1 : [c].count d = 0 := by
              rw [List.count_eq_zero]
              intro hin
              have e : d = c := by simpa using hin
              exact hok.subtrees_disjoint hc' hc hne hd (Or.inl e)
            have h2 : vs'.count d = 0 := by
              rw [List.count_eq_zero]
              intro hin
              exact hok.subtrees_disjoint hc' hc hne hd (Or.inr (hmem' d hin))
            rw [hcount i c' (by omega) hg d hd, h1, h2])
      (s0.children F).length 0 (s, log)
      ⟨hP0, [], by simp, fun d hd => (by cases hd), fun i c hi => absurd hi (Nat.not_lt_zero _)⟩
      (by simp)
    obtain ⟨σ', h1, hP, vs, hlog, hmem, hcount⟩ := hinv
    refine ⟨σ'.1, vs, ?_, ?_, ?_, ?_⟩
    · rw [updateChildrenPathsLog]
      simp only []
      rw [hP0.children F]
      rw [← hlog]
      exact h1
    · obtain ⟨a1, a2, a3, a4, a5, a6⟩ := hP0
      obtain ⟨b1, b2, b3, b4, b5, b6⟩ := hP
      refine ⟨b1.trans a1.symm, b2.trans a2.symm, b3.trans a3.symm, b4.trans a4.symm,
        b5.trans a5.symm, fun r => ?_⟩
      rw [b6 r, a6 r]
    · intro d hd
      obtain ⟨i, c, _, hg, h⟩ := hmem d hd
      have hc : c ∈ s0.children F := List.getElem?_mem hg
      rcases h with rfl | h
      · exact .child hc
      · exact h.trans_child hc
    · intro d hd
      obtain ⟨c, hc, h⟩ := hd.exists_child
      obtain ⟨i, hi⟩ := List.getElem?_of_mem hc
      have hlt : i < (s0.children F).length := (List.getElem?_eq_some_iff.mp hi).1
      exact hcount i c (by simpa using hlt) hi d h

end FileManager

namespace FileManager

/-- The two assignments of `renameFolder` before the recomputation leave `children`, `parent`
and `type` of every record alone. -/
theorem rename_fields (s : FileManager) (F : Ref) (n v : String) (r : Ref) :
    ((s.modifyObj F (fun e => { e with name := n })).modifyObj F
        (fun e => { e with path := v })).children r = s.children r ∧
    ((s.modifyObj F (fun e => { e with name := n })).modifyObj F
        (fun e => { e with path := v })).parentOf r = s.parentOf r ∧
    (((s.modifyObj F (fun e => { e with name := n })).modifyObj F
        (fun e => { e with path := v })).obj r).type = (s.obj r).type := by
  unfold children parentOf
  rcases obj_modifyObj_cases (s.modifyObj F (fun e => { e with name := n })) F
    (fun e => { e with path := v }) r with h | ⟨_, h⟩ <;> rw [h] <;>
  rcases obj_modifyObj_cases s F (fun e => { e with name := n }) r with
    h' | ⟨_, h'⟩ <;> rw [h'] <;> exact ⟨rfl, rfl, rfl⟩

/-- In a well-formed store with an acyclic containment relation, `renameFolder(F, n)` returns
once the bound exceeds the rank of `F`. -/
theorem renameFolder_returns (rank : Ref → Nat) (s : FileManager) (F : Ref) (n : String)
    (fuel : Nat) (hwf : s.WellFormed) (hac : s.Acyclic rank) (hF : F ∈ s.getFolders)
    (hfuel : rank F < fuel) : ∃ s', s.renameFolder fuel F n = some s' := by
  obtain ⟨hlive, _, _, _⟩ := hwf.folder_facts hF
  have hok : SubtreeOk rank s F := hwf.subtreeOk_of_acyclic hac hlive
  generalize hs2 : (s.modifyObj F (fun e => { e with name := n })).modifyObj F
    (fun e => { e with path :=
      (pathUnder (s.modifyObj F (fun e => { e with name := n }))
        (parentOf (s.modifyObj F (fun e => { e with name := n })) F) n) }) = s2
  have hfields : ∀ r, s2.children r = s.children r ∧ s2.parentOf r = s.parentOf r ∧
      (s2.obj r).type = (s.obj r).type := by
    intro r
    rw [← hs2]
    exact rename_fields s F n _ r
  have hlen2 : s2.heap.length = s.heap.length := by rw [← hs2]; simp
  have hok2 : SubtreeOk rank s2 F :=
    hok.transport hlen2 (fun p _ => ⟨(hfields p).1, (hfields p).2.2⟩)
      (fun d _ => (hfields d).2.1)
  obtain ⟨s3, h1, _⟩ := updateChildrenPaths_final rank fuel s2 F hok2 hfuel
  exact ⟨s3.emit (.folderRenamed F (s.obj F).name), by
    simp only [renameFolder, hs2, h1, Option.map_some']
    rfl⟩

end FileManager

/-- C28: in a well-formed store whose containment relation is acyclic, `updateChildrenPaths(F)`
of a stored folder `F` returns once the bound exceeds the rank of `F`, and so do
`renameFolder(F, n)` and `moveFolder(F, T)` for `T` none or a stored folder that is neither `F`
nor below `F`.  The callback of `updateChildrenPaths` is called on descendants of `F` only and
on each descendant exactly once.  The call changes neither map, nor `nextId`, nor the events,
and no field of any record but `path`: names, parents, children arrays and contents are as
before, and every record that is not a descendant of `F` is unchanged. -/
theorem updateChildrenPaths_visits_once (rank : Ref → Nat) (s : FileManager) (F : Ref)
    (fuel : Nat) (hwf : s.WellFormed) (hac : s.Acyclic rank) (hF : F ∈ s.getFolders)
    (hfuel : rank F < fuel) :
    (∃ s' visited, FileManager.updateChildrenPaths fuel s F = some s' ∧
      FileManager.updateChildrenPathsLog fuel (s, []) F = some (s', visited) ∧
      (∀ d ∈ visited, FileManager.Desc s F d) ∧
      (∀ d, FileManager.Desc s F d → visited.count d = 1) ∧
      s'.files = s.files ∧ s'.folders = s.folders ∧ s'.nextId = s.nextId ∧
      s'.emitted = s.emitted ∧ s'.heap.length = s.heap.length ∧
      (∀ r, s'.obj r = { s.obj r with path := (s'.obj r).path }) ∧
      (∀ r, (s'.obj r).name = (s.obj r).name ∧ s'.parentOf r = s.parentOf r ∧
        s'.children r = s.children r ∧ (s'.obj r).content = (s.obj r).content) ∧
      (∀ r, ¬ FileManager.Desc s F r → s'.obj r = s.obj r)) ∧
    (∀ n, ∃ s', s.renameFolder fuel F n = some s') ∧
    (∀ T, (∀ t ∈ T, t ∈ s.getFolders ∧ t ≠ F ∧ ¬ FileManager.Desc s F t) →
      ∃ s', s.moveFolder fuel F T = some s') := by
  obtain ⟨hlive, _, _, _⟩ := hwf.folder_facts hF
  have hok : FileManager.SubtreeOk rank s F := hwf.subtreeOk_of_acyclic hac hlive
  have hnd : ∀ p, (p = F ∨ FileManager.Desc s F p) → (s.children p).Nodup := by
    intro p hp
    by_cases hpl : p < s.heap.length
    · exact hwf.children_nodup p hpl
    · have : s.children p = [] := by
        unfold FileManager.children
        rw [FileManager.obj_of_not_live s p hpl]
        rfl
      rw [this]
      exact List.nodup_nil
  obtain ⟨s', vs, hlog, hP, hmem, hcount⟩ :=
    FileManager.updateChildrenPathsLog_spec rank fuel s s F [] hok hnd (FileManager.PathsOnly.refl s)
      hfuel
  have hrun : FileManager.updateChildrenPaths fuel s F = some s' := by
    have := FileManager.updateChildrenPathsLog_fst fuel (s, []) F
    rw [hlog] at this
    exact this.symm
  obtain ⟨s3, h3, _, hout, _⟩ := FileManager.updateChildrenPaths_final rank fuel s F hok hfuel
  have e3 : s3 = s' := by
    rw [hrun] at h3
    exact (Option.some.inj h3).symm
  subst e3
  refine ⟨⟨s3, vs, hrun, by simpa using hlog, hmem, hcount, hP.1, hP.2.1, hP.2.2.1, hP.2.2.2.1,
    hP.2.2.2.2.1, hP.2.2.2.2.2, fun r => ?_, hout⟩, ?_, ?_⟩
  · refine ⟨hP.name r, hP.parentOf r, hP.children r, ?_⟩
    rw [hP.2.2.2.2.2 r]
  · intro n
    exact FileManager.renameFolder_returns rank s F n fuel hwf hac hF hfuel
  · intro T hT
    exact FileManager.moveFolder_returns rank s F T fuel hwf hac hF hT hfuel

/-- The nested scenario satisfies the hypotheses of `updateChildrenPaths_visits_once` for the
folder `a`; the visits are `x.js`, `b`, `y.js`, in this order. -/
theorem updateChildrenPaths_visits_once_witness :
    nestedScenario.WellFormed ∧ nestedScenario.Acyclic nestedRank ∧
    0 ∈ nestedScenario.getFolders ∧ nestedRank 0 < 6 ∧
    ((∃ s' visited, FileManager.updateChildrenPaths 6 nestedScenario 0 = some s' ∧
      FileManager.updateChildrenPathsLog 6 (nestedScenario, []) 0 = some (s', visited) ∧
      (∀ d ∈ visited, FileManager.Desc nestedScenario 0 d) ∧
      (∀ d, FileManager.Desc nestedScenario 0 d → visited.count d = 1) ∧
      s'.files = nestedScenario.files ∧ s'.folders = nestedScenario.folders ∧
      s'.nextId = nestedScenario.nextId ∧
      s'.emitted = nestedScenario.emitted ∧ s'.heap.length = nestedScenario.heap.length ∧
      (∀ r, s'.obj r = { nestedScenario.obj r with path := (s'.obj r).path }) ∧
      (∀ r, (s'.obj r).name = (nestedScenario.obj r).name ∧
        s'.parentOf r = nestedScenario.parentOf r ∧
        s'.children r = nestedScenario.children r ∧
        (s'.obj r).content = (nestedScenario.obj r).content) ∧
      (∀ r, ¬ FileManager.Desc nestedScenario 0 r → s'.obj r = nestedScenario.obj r)) ∧
    (∀ n, ∃ s', nestedScenario.renameFolder 6 0 n = some s') ∧
    (∀ T, (∀ t ∈ T, t ∈ nestedScenario.getFolders ∧ t ≠ 0 ∧
        ¬ FileManager.Desc nestedScenario 0 t) →
      ∃ s', nestedScenario.moveFolder 6 0 T = some s')) ∧
    (FileManager.updateChildrenPathsLog 6 (nestedScenario, []) 0).map Prod.snd =
      some [1, 2, 3] :=
  ⟨nestedScenario_wellFormed, nestedScenario_acyclic, by decide, by decide,
    updateChildrenPaths_visits_once nestedRank nestedScenario 0 6 nestedScenario_wellFormed
      nestedScenario_acyclic (by decide) (by decide),
    by decide⟩

/-! ## Two files of one name -/

theorem IdMap_length_set (m : IdMap) (k : String) (v : Ref) :
    (IdMap.set m k v).length = m.length + (if k ∈ m.map Prod.fst then 0 else 1) := by
  induction m with
  | nil => simp [IdMap.set]
  | cons kv rest ih =>
    obtain ⟨k', v'⟩ := kv
    by_cases h : k' = k
    · subst h
      simp [IdMap.set]
    · have h' : ¬ k = k' := fun e => h e.symm
      simp only [IdMap.set, h, if_false, List.length_cons, ih, List.map_cons, List.mem_cons, h',
        false_or]
      omega

theorem IdMap_keys_set (m : IdMap) (k : String) (v : Ref) (k' : String) :
    k' ∈ (IdMap.set m k v).map Prod.fst ↔ k' ∈ m.map Prod.fst ∨ k' = k := by
  induction m with
  | nil => simp [IdMap.set]
  | cons kv rest ih =>
    obtain ⟨k0, v0⟩ := kv
    by_cases h : k0 = k
    · subst h
      simp only [IdMap.set, if_true, List.map_cons, List.mem_cons]
      tauto
    · simp only [IdMap.set, h, if_false, List.map_cons, List.mem_cons, ih]
      tauto

namespace FileManager

/-- The id that `generateId` hands out is no key of a store whose keys were built from smaller
values of the counter. -/
theorem KeysBelow.fresh {s : FileManager} (h : s.KeysBelow) (s' : FileManager) (t : Nat)
    (hs : s.nextId ≤ s'.nextId) : (s'.generateId t).1 ∉ s.files.map Prod.fst := by
  intro hmem
  obtain ⟨kv, hkv, e⟩ := List.mem_map.mp hmem
  obtain ⟨n, t', hn, hk⟩ := h kv hkv
  rw [hk] at e
  have := (generateId_injective { s with nextId := n } s' t' t e).1
  simp only [] at this
  omega

/-- The store after the constructor satisfies `KeysBelow`, and `createFile` keeps it. -/
theorem KeysBelow.after_createFile {s : FileManager} (h : s.KeysBelow) (n c : String)
    (p : Option Ref) (t a b : Nat) : (s.createFile n c p t a b).2.KeysBelow := by
  intro kv hkv
  rw [s.createFile_files] at hkv
  rw [s.createFile_nextId]
  rcases IdMap_mem_set _ _ _ _ hkv with h' | h'
  · obtain ⟨m, t', hm, e⟩ := h kv h'
    exact ⟨m, t', by omega, e⟩
  · exact ⟨s.nextId, t, Nat.lt_succ_self _, by rw [h']; rfl⟩

/-- The number of stored files after two calls of `createFile`: one more for each of the two
generated ids that was no key before. -/
theorem createFile_twice_count (s : FileManager) (n c1 c2 : String) (p : Option Ref)
    (t1 a1 b1 t2 a2 b2 : Nat) :
    ((s.createFile n c1 p t1 a1 b1).2.createFile n c2 p t2 a2 b2).2.files.length =
      s.files.length +
        (if (s.generateId t1).1 ∈ s.files.map Prod.fst then 0 else 1) +
        (if ((s.createFile n c1 p t1 a1 b1).2.generateId t2).1 ∈ s.files.map Prod.fst
          then 0 else 1) := by
  have hids : ((s.createFile n c1 p t1 a1 b1).2.generateId t2).1 ≠ (s.generateId t1).1 := by
    intro h
    have := (generateId_injective _ _ _ _ h).1
    rw [s.createFile_nextId] at this
    omega
  rw [createFile_files, createFile_files, IdMap_length_set, IdMap_length_set]
  have hiff := IdMap_keys_set s.files (s.generateId t1).1 s.heap.length
    ((s.createFile n c1 p t1 a1 b1).2.generateId t2).1
  simp only [hids, or_false] at hiff
  by_cases h2 : ((s.createFile n c1 p t1 a1 b1).2.generateId t2).1 ∈ s.files.map Prod.fst
  · rw [if_pos (hiff.mpr h2), if_pos h2]
  · rw [if_neg (fun h => h2 (hiff.mp h)), if_neg h2]

end FileManager

/-- C17, with the input on which it fails.  While the counter is below `2 ^ 53`, where it is
exact, two successive calls `createFile(n, c1, p)` and `createFile(n, c2, p)`, for `p` none or a
folder record, return two distinct records `f1`, `f2` with different ids, both found by
`getFile` under their ids, both named `n`, with contents `c1` and `c2`, parent `p`, the path
`p.path + "/" + n` (`n` at the root) and `isModified` false, and the children of `p` are its
former children followed by `f1` and `f2`.  The number of stored files grows by one for each of
the two ids that was no key before; it grows by two, the stored files being the former ones
followed by `f1` and `f2`, in every store whose keys were built from smaller values of the
counter, as is the case after the constructor and after every `createFile`.  In the collision
scenario, where `a.txt` is stored under `item_1_100` and the counter is back at `1`, two calls
at the reading `100` hand out `item_1_100` and `item_2_100`: the first replaces the entry of
`a.txt`, and the number of stored files grows from 1 to 2. -/
theorem createFile_twice :
    (∀ (s : FileManager) (n c1 c2 : String) (p : Option Ref) (t1 a1 b1 t2 a2 b2 : Nat)
      (f1 f2 : Ref) (s1 s2 : FileManager),
      (∀ q ∈ p, q < s.heap.length ∧ (s.obj q).type = .folder) → s.nextId + 1 < 2 ^ 53 →
      s.createFile n c1 p t1 a1 b1 = (f1, s1) → s1.createFile n c2 p t2 a2 b2 = (f2, s2) →
      f1 ≠ f2 ∧ (s2.obj f1).id ≠ (s2.obj f2).id ∧
      s2.getFile (s2.obj f1).id = some f1 ∧ s2.getFile (s2.obj f2).id = some f2 ∧
      (s2.obj f1).name = n ∧ (s2.obj f2).name = n ∧
      (s2.obj f1).content = c1 ∧ (s2.obj f2).content = c2 ∧
      (s2.obj f1).parent = p ∧ (s2.obj f2).parent = p ∧
      (s2.obj f1).path = s2.pathUnder p n ∧ (s2.obj f2).path = s2.pathUnder p n ∧
      (s2.obj f1).isModified = false ∧ (s2.obj f2).isModified = false ∧
      (∀ q ∈ p, s2.children q = s.children q ++ [f1, f2]) ∧
      s2.files.length = s.files.length +
        (if (s2.obj f1).id ∈ s.files.map Prod.fst then 0 else 1) +
        (if (s2.obj f2).id ∈ s.files.map Prod.fst then 0 else 1) ∧
      (s.KeysBelow → s2.getFiles = s.getFiles ++ [f1, f2] ∧
        s2.files.length = s.files.length + 2 ∧ s2.KeysBelow)) ∧
    FileManager.empty.KeysBelow ∧
    collidingScenario.files = [("item_1_100", 0)] ∧ collidingScenario.nextId = 1 ∧
    (collidingScenario.obj 0).name = "a.txt" ∧
    ((collidingScenario.createFile "n.txt" "x" none 100 100 100).2.createFile
        "n.txt" "y" none 100 100 100).2.files = [("item_1_100", 1), ("item_2_100", 2)] ∧
    collidingScenario.getFiles.length = 1 ∧
    ((collidingScenario.createFile "n.txt" "x" none 100 100 100).2.createFile
        "n.txt" "y" none 100 100 100).2.getFiles.length = 2 := by
  refine ⟨?_, fun kv hkv => (by cases hkv), by decide, by decide, by decide, by decide,
    by decide, by decide⟩
  intro s n c1 c2 p t1 a1 b1 t2 a2 b2 f1 f2 s1 s2 hp _ h1 h2
  have hp' : ∀ q ∈ p, q < s.heap.length := fun q hq => (hp q hq).1
  obtain ⟨g1, g2, g3, g4, g5, g6, g7, g8, g9, g10, g11, g12, g13, g14, g15, g16⟩ :=
    createFile_twice_facts s n c1 c2 p t1 a1 b1 t2 a2 b2 hp' f1 f2 s1 s2 h1 h2
  have es1 : s1 = (s.createFile n c1 p t1 a1 b1).2 := by rw [h1]
  have ef1 : f1 = (s.createFile n c1 p t1 a1 b1).1 := by rw [h1]
  have es2 : s2 = (s1.createFile n c2 p t2 a2 b2).2 := by rw [h2]
  have ef2 : f2 = (s1.createFile n c2 p t2 a2 b2).1 := by rw [h2]
  have hid2 : (s2.obj f2).id = (s1.generateId t2).1 := by
    rw [es2, ef2]; exact s1.createFile_id n c2 p t2 a2 b2
  have hlen1 : s1.heap.length = s.heap.length + 1 := by rw [es1, s.createFile_heap_length]
  have hf1 : f1 = s.heap.length := by rw [ef1, s.createFile_fst]
  have hid1 : (s2.obj f1).id = (s.generateId t1).1 := by
    have hold := s1.createFile_obj_old n c2 p t2 a2 b2 f1
      (by rw [hlen1, hf1]; exact Nat.lt_succ_self _)
    rw [← es2] at hold
    have : (s2.obj f1).id = (s1.obj f1).id := by
      rw [hold]; split <;> rfl
    rw [this, es1, ef1]
    exact s.createFile_id n c1 p t1 a1 b1
  have hcount := s.createFile_twice_count n c1 c2 p t1 a1 b1 t2 a2 b2
  rw [← es1, ← es2, ← hid1, ← hid2] at hcount
  refine ⟨g1, g2, g3, g4, g5, g6, g7, g8, g9, g10, g11, g12, g13, g14, g15, hcount, ?_⟩
  intro hK
  have hfresh1 : (s2.obj f1).id ∉ s.files.map Prod.fst := by
    rw [hid1]; exact hK.fresh s t1 (le_refl _)
  have hfresh2 : (s2.obj f2).id ∉ s.files.map Prod.fst := by
    rw [hid2]
    exact hK.fresh s1 t2 (by rw [es1, s.createFile_nextId]; exact Nat.le_succ _)
  refine ⟨(g16 hfresh1 hfresh2).1, (g16 hfresh1 hfresh2).2, ?_⟩
  rw [es2, es1]
  exact (hK.after_createFile n c1 p t1 a1 b1).after_createFile n c2 p t2 a2 b2
